import Mathlib

set_option maxRecDepth 10000

/-!
Verification of the USUI design-studio core: a shallow embedding, in Lean 4, of
the session/variation state machine of `src/index.tsx` (current app) and of the
v1.1/v1.3 variants (`src/unnamed/part_004`, `src/unnamed/part_003`), together
with theorems settling the behavioural claims about code extraction, generation
retry/backoff, module add/delete integrity, remix ordering, session creation and
the import/export serialization contract.

Strings are modelled as `List Char` internally (`String.data`); machine work on
JavaScript strings (regex search, trim, escaping) is embedded as executable
functions translated from the exact regexes and string operations in the source.
-/

namespace USUI

/-! ## Data model (from `src/unnamed/part_001`, the `types.ts` of the current app) -/

/-- Variation lifecycle status: the TS union `'pending' | 'streaming' | 'complete' | 'error'`. -/
inductive Status where
  | pending
  | streaming
  | complete
  | error
deriving DecidableEq, Repr

/-- `DesignComponent` (architecture module) from `types.ts`: `category` and `baseHtml` are
optional fields, `affordances` the ordered interaction-contract tags. -/
structure DesignComponent where
  id : String
  name : String
  category : Option String
  description : String
  affordances : List String
  baseHtml : Option String
deriving DecidableEq, Repr

/-- `ComponentVariation` from `types.ts`; `notes` is the optional refinement note, also
used by the code for the internal retry sentinel. `none` models an absent (`undefined`)
field. -/
structure ComponentVariation where
  id : String
  componentId : String
  styleName : String
  html : String
  prompt : String
  status : Status
  notes : Option String
deriving DecidableEq, Repr

/-- `DesignSession` from `types.ts` (current variant, with an `architecture` list). -/
structure DesignSession where
  id : String
  styleTheme : String
  designLanguage : String
  timestamp : Nat
  architecture : List DesignComponent
  variations : List ComponentVariation
deriving DecidableEq, Repr

/-! ## JavaScript string primitives

Character-list implementations of the string operations the source uses:
`includes`, `trim`, and the specific regex searches.  JS `\s` also matches a few
Unicode spaces; the sources only ever meet ASCII whitespace, which is what we model. -/

/-- ASCII part of the JavaScript `\s` class / `String.prototype.trim` whitespace set. -/
def jsWhite (c : Char) : Bool :=
  c == ' ' || c == '\t' || c == '\n' || c == '\x0d' || c == '\x0b' || c == '\x0c'

/-- `String.prototype.trim`: remove leading and trailing whitespace. -/
def jsTrim (s : List Char) : List Char :=
  ((s.dropWhile jsWhite).reverse.dropWhile jsWhite).reverse

/-- Does `pat` occur literally at the start of `s`? -/
def startsWithL : List Char → List Char → Bool
  | [], _ => true
  | _ :: _, [] => false
  | p :: ps, c :: cs => p == c && startsWithL ps cs

/-- Case-insensitive variant (for regexes with the `i` flag): `pat` is stored in lower
case and each subject character is lowered before comparison. -/
def startsWithCI : List Char → List Char → Bool
  | [], _ => true
  | _ :: _, [] => false
  | p :: ps, c :: cs => p == c.toLower && startsWithCI ps cs

/-- Leftmost occurrence search: drop everything up to and including the first literal
occurrence of `pat`; `none` when `pat` does not occur (`String.prototype.match` failure). -/
def dropAfterFirst (pat : List Char) : List Char → Option (List Char)
  | [] => if startsWithL pat [] then some [] else none
  | c :: cs =>
    if startsWithL pat (c :: cs) then some ((c :: cs).drop pat.length)
    else dropAfterFirst pat cs

/-- Does `pat` occur as a contiguous substring of `s`? -/
def containsL (pat : List Char) : List Char → Bool
  | [] => startsWithL pat []
  | c :: cs => startsWithL pat (c :: cs) || containsL pat cs

/-! ## Code extractor (`extractCode`, `src/index.tsx` lines 334-337)

```
const match = raw.match(/```html\n?([\s\S]*?)\n?```/) || raw.match(/```\n?([\s\S]*?)\n?```/);
return match ? match[1].trim() : raw.replace(/^(Here is|This is|Okay|Sure|Certainly)[\s\S]*?\n\n/i, '').trim();
```

The same function appears verbatim in `part_003` and `part_004`.  The lazy group of
the fence regex stops at the earliest position where `\n?` followed by a literal
triple backtick completes, so the captured group is the shortest block between the
opener (with one optional newline greedily consumed — backtracking over that newline
can never turn a failure into a success, because the closing fence cannot begin with
the consumed newline) and the first closing fence. -/

/-- The closing-fence test of the lazy group: the remainder starts with `\n`-backtick3
or with backtick3 (the group is the same either way). -/
def fenceClose (s : List Char) : Bool :=
  startsWithL ("\n\x60\x60\x60".data) s || startsWithL ("\x60\x60\x60".data) s

/-- Characters of the lazy group `([\s\S]*?)`: everything before the first closing
fence; `none` when no closing fence exists (the regex match fails). -/
def takeUntilFenceClose : List Char → Option (List Char)
  | [] => none
  | c :: cs =>
    if fenceClose (c :: cs) then some []
    else (takeUntilFenceClose cs).map (fun g => c :: g)

/-- Full fence-regex match: group 1 of `` /OPENER\n?([\s\S]*?)\n?``` / `` against `s`,
`none` when the regex does not match.  When the first occurrence of the opener has no
closing fence after it, no later occurrence can have one either (any later opener
contains a backtick triple itself), so the overall match fails. -/
def fenceBlock (opener : List Char) (s : List Char) : Option (List Char) :=
  match dropAfterFirst opener s with
  | none => none
  | some rest =>
    takeUntilFenceClose (match rest with
      | '\n' :: t => t
      | r => r)

/-- The anchored preamble regex `/^(Here is|This is|Okay|Sure|Certainly)[\s\S]*?\n\n/i`:
when one of the alternatives is a case-insensitive prefix, the lazy part extends to the
earliest later blank line; returns the remainder after the match, or `none` when the
regex fails.  The alternatives contain no newline, so searching for `\n\n` from the
start of the string is equivalent to searching after the alternative. -/
def preMatch (s : List Char) : Option (List Char) :=
  if startsWithCI ("here is".data) s || startsWithCI ("this is".data) s ||
     startsWithCI ("okay".data) s || startsWithCI ("sure".data) s ||
     startsWithCI ("certainly".data) s then
    dropAfterFirst ("\n\n".data) s
  else none

/-- `raw.replace(/^(Here is|...)[\s\S]*?\n\n/i, '')`: strip the matched prefix, keep
`raw` unchanged when the regex fails. -/
def stripPreamble (s : List Char) : List Char :=
  match preMatch s with
  | some rest => rest
  | none => s

/-- `extractCode` on character lists. -/
def extractCodeL (raw : List Char) : List Char :=
  match fenceBlock ("\x60\x60\x60html".data) raw with
  | some g => jsTrim g
  | none =>
    match fenceBlock ("\x60\x60\x60".data) raw with
    | some g => jsTrim g
    | none => jsTrim (stripPreamble raw)

/-- `extractCode` (`src/index.tsx` 334-337). -/
def extractCode (raw : String) : String :=
  String.mk (extractCodeL raw.data)

/-! ### Helper lemmas for the extractor -/

theorem dropWhile_head_false {p : Char → Bool} {l : List Char} {c : Char}
    (h : (l.dropWhile p).head? = some c) : p c = false := by
  induction l with
  | nil => simp [List.dropWhile] at h
  | cons a as ih =>
    by_cases hp : p a
    · simp [List.dropWhile, hp] at h
      exact ih (by simpa [List.dropWhile, hp] using h)
    · simp [List.dropWhile, hp] at h
      simp [← h]
      simpa using hp

theorem dropWhile_eq_self_of_head {p : Char → Bool} {l : List Char}
    (h : ∀ c, l.head? = some c → p c = false) : l.dropWhile p = l := by
  cases l with
  | nil => rfl
  | cons a as =>
    have := h a rfl
    simp [List.dropWhile, this]

theorem dropWhile_is_suffix (p : Char → Bool) (l : List Char) :
    ∃ t, l = t ++ l.dropWhile p := by
  induction l with
  | nil => exact ⟨[], rfl⟩
  | cons a as ih =>
    by_cases hp : p a
    · obtain ⟨t, ht⟩ := ih
      exact ⟨a :: t, by simp [List.dropWhile, hp, ← ht]⟩
    · exact ⟨[], by simp [List.dropWhile, hp]⟩

theorem getLast?_of_suffix {l v : List Char} (h : ∃ t, l = t ++ v) (hv : v ≠ []) :
    l.getLast? = v.getLast? := by
  obtain ⟨t, rfl⟩ := h
  exact List.getLast?_append_of_ne_nil _ hv

/-- `jsTrim` is idempotent. -/
theorem jsTrim_idem (s : List Char) : jsTrim (jsTrim s) = jsTrim s := by
  unfold jsTrim
  set u := s.dropWhile jsWhite with hu
  set v := u.reverse.dropWhile jsWhite with hv
  have hvhead : ∀ c, v.head? = some c → jsWhite c = false := fun c hc =>
    dropWhile_head_false (l := u.reverse) (by rw [← hv]; exact hc)
  rcases hv0 : v with _ | ⟨c, cs⟩
  · simp
  · rw [← hv0]
    have h1 : v.reverse.dropWhile jsWhite = v.reverse := by
      apply dropWhile_eq_self_of_head
      intro d hd
      have hlast : v.reverse.head? = v.getLast?.map id := by
        simp [List.head?_reverse]
      have hvlast : v.getLast? = some d := by
        have := hlast ▸ hd
        simpa using this
      have huhead : ∀ c, u.head? = some c → jsWhite c = false := fun c hc =>
        dropWhile_head_false (l := s) (by rw [← hu]; exact hc)
      have hsuf : ∃ t, u.reverse = t ++ v := dropWhile_is_suffix _ _
      have hvne : v ≠ [] := by rw [hv0]; simp
      have : u.reverse.getLast? = v.getLast? := getLast?_of_suffix hsuf hvne
      have hurev : u.reverse.getLast? = u.head? := by
        simp [List.getLast?_reverse]
      rcases hu0 : u with _ | ⟨a, as⟩
      · rw [hu0] at hsuf
        obtain ⟨t, ht⟩ := hsuf
        simp at ht
        exact absurd hvne (by simp [ht.2])
      · have hua : u.head? = some a := by rw [hu0]; rfl
        have : u.head? = some d := by
          rw [← hurev, this, hvlast]
        exact huhead d this
    rw [h1]
    have h2 : v.reverse.reverse.dropWhile jsWhite = v := by
      rw [List.reverse_reverse]
      apply dropWhile_eq_self_of_head
      exact hvhead
    rw [h2]

/-- Occurrence is antitone in the pattern: an occurrence of `p ++ q` yields one of `p`. -/
theorem startsWithL_append {p q s : List Char} (h : startsWithL (p ++ q) s = true) :
    startsWithL p s = true := by
  induction p generalizing s with
  | nil => rfl
  | cons a as ih =>
    cases s with
    | nil => simp [startsWithL] at h
    | cons c cs =>
      simp [startsWithL] at h ⊢
      exact ⟨h.1, ih h.2⟩

theorem startsWithL_nil_iff {p : List Char} : startsWithL p [] = true ↔ p = [] := by
  cases p <;> simp [startsWithL]

/-- The occurrence search succeeds exactly when the pattern occurs. -/
theorem dropAfterFirst_isSome (pat s : List Char) :
    (dropAfterFirst pat s).isSome = containsL pat s := by
  induction s with
  | nil =>
    unfold dropAfterFirst containsL
    by_cases h : startsWithL pat [] = true <;> simp [h]
  | cons c cs ih =>
    unfold dropAfterFirst containsL
    by_cases h : startsWithL pat (c :: cs) = true
    · simp [h]
    · simp only [Bool.not_eq_true] at h
      simp [h, ih]

theorem containsL_append_pat {p q s : List Char} (h : containsL (p ++ q) s = true) :
    containsL p s = true := by
  induction s with
  | nil =>
    unfold containsL at h ⊢
    have hp : p = [] := (List.append_eq_nil.mp (startsWithL_nil_iff.mp h)).1
    subst hp; rfl
  | cons c cs ih =>
    unfold containsL at h ⊢
    cases h1 : startsWithL (p ++ q) (c :: cs) with
    | true => rw [startsWithL_append h1]; simp
    | false =>
      rw [h1] at h
      simp only [Bool.false_or] at h
      rw [ih h]
      simp

theorem fenceBlock_none_of_no_fence (opener s : List Char)
    (hop : ∃ t, opener = ("\x60\x60\x60".data) ++ t)
    (h : containsL ("\x60\x60\x60".data) s = false) :
    fenceBlock opener s = none := by
  unfold fenceBlock
  have hnone : dropAfterFirst opener s = none := by
    obtain ⟨t, rfl⟩ := hop
    have hcf : containsL (("\x60\x60\x60".data) ++ t) s = false := by
      by_contra hc
      simp only [Bool.not_eq_false] at hc
      exact absurd (containsL_append_pat hc) (by simp [h])
    have hsome : (dropAfterFirst (("\x60\x60\x60".data) ++ t) s).isSome = false := by
      rw [dropAfterFirst_isSome]; exact hcf
    cases hd : dropAfterFirst (("\x60\x60\x60".data) ++ t) s with
    | none => rfl
    | some r => rw [hd] at hsome; simp at hsome
  rw [hnone]

/-- Both fence branches of `extractCode` fail when the input has no triple backtick,
so extraction is preamble stripping plus trim. -/
theorem extractCodeL_no_fence {raw : List Char}
    (h : containsL ("\x60\x60\x60".data) raw = false) :
    extractCodeL raw = jsTrim (stripPreamble raw) := by
  unfold extractCodeL
  rw [fenceBlock_none_of_no_fence ("\x60\x60\x60html".data) raw ⟨"html".data, by decide⟩ h,
      fenceBlock_none_of_no_fence ("\x60\x60\x60".data) raw ⟨[], by decide⟩ h]

/-- Every `extractCode` result is a `jsTrim` image. -/
theorem extractCodeL_trimmed (raw : List Char) : jsTrim (extractCodeL raw) = extractCodeL raw := by
  unfold extractCodeL
  cases fenceBlock ("\x60\x60\x60html".data) raw with
  | some g => simpa using jsTrim_idem g
  | none =>
    cases fenceBlock ("\x60\x60\x60".data) raw with
    | some g => simpa using jsTrim_idem g
    | none => simpa using jsTrim_idem (stripPreamble raw)

/-! ### Claim C3: idempotence of `extractCode` -/

/-- C3 counterexample: `extractCode` is *not* idempotent on every input.  On
`"Okay\n\nSure\n\nhi"` the first extraction strips the `Okay` preamble producing
`"Sure\n\nhi"`, and a second extraction strips again, producing `"hi"`. -/
theorem extractCode_not_idempotent :
    extractCode (extractCode "Okay\n\nSure\n\nhi") ≠ extractCode "Okay\n\nSure\n\nhi" := by
  decide

/-- C3 (amended): `extractCode` is idempotent on every input whose extraction result
contains no fence delimiter (triple backtick) and does not itself match the
conversational-preamble pattern (a preamble word followed by a later blank line).
The unamended universal claim fails exactly when the first extraction re-exposes
such a preamble, as in the counterexample. -/
theorem extractCode_idempotent_of_clean (raw : String)
    (hfence : containsL ("\x60\x60\x60".data) (extractCode raw).data = false)
    (hpre : preMatch (extractCode raw).data = none) :
    extractCode (extractCode raw) = extractCode raw := by
  unfold extractCode
  apply congrArg String.mk
  have hdata : (extractCode raw).data = extractCodeL raw.data := rfl
  rw [hdata] at hfence hpre
  rw [extractCodeL_no_fence hfence]
  unfold stripPreamble
  rw [hpre]
  exact extractCodeL_trimmed raw.data

/-- C3 amended witness: a concrete clean input, hypotheses discharged by computation. -/
theorem extractCode_idempotent_of_clean_witness :
    extractCode (extractCode "hello world") = extractCode "hello world" :=
  extractCode_idempotent_of_clean "hello world" (by decide) (by decide)

/-! ### Claim C4: behaviour on partial stream prefixes -/

/-- C4 counterexample: on a stream prefix with an opening fence and no closing fence
the extractor returns the raw text (fence markers included), not the content after the
opening fence; and on a prefix with no fence at all it returns the trimmed raw text,
not the empty string. -/
theorem extractCode_partial_counterexample :
    (extractCode "\x60\x60\x60html\n<p>hi" = "\x60\x60\x60html\n<p>hi" ∧
      extractCode "\x60\x60\x60html\n<p>hi" ≠ "<p>hi") ∧
    (extractCode "abc" = "abc" ∧ extractCode "abc" ≠ "") := by
  constructor
  · constructor
    · decide
    · decide
  · constructor
    · decide
    · decide

/-- C4 (amended): `extractCode` is total and safe on partial stream prefixes, but its
partial guess is the preamble-stripped, whitespace-trimmed raw text: any input that
does not yet contain a fence delimiter — in particular any prefix in which no opening
fence has appeared — extracts to the trimmed preamble-stripped input, which is the
input itself rather than the empty string whenever the input is trimmed and
preamble-free. -/
theorem extractCode_partial_stream (raw : String)
    (h : containsL ("\x60\x60\x60".data) raw.data = false) :
    extractCode raw = String.mk (jsTrim (stripPreamble raw.data)) := by
  unfold extractCode
  rw [extractCodeL_no_fence h]

/-- C4 amended witness. -/
theorem extractCode_partial_stream_witness :
    extractCode "Here is the button" = String.mk (jsTrim (stripPreamble ("Here is the button".data))) :=
  extractCode_partial_stream "Here is the button" (by decide)

/-! ## Generation orchestration (`generateVariation`)

`src/index.tsx` lines 339-399.  The external generation capability (`@google/genai`)
is a black box: an attempt either streams a chunk sequence to completion, or fails
after streaming some chunks (possibly none) with an error object.  The capability is
modelled as a function from the attempt index (`retryCount`, which increments by one
per attempt) to an outcome; the sessions list threads through as explicit state, and
issued prompts and backoff sleeps are recorded as a trace. -/

/-- A JS error as classified by the catch blocks: `message` (`e.message`, the empty
string modelling an absent message, which no `includes` marker matches, exactly as the
falsy `undefined` short-circuits `?.includes`/`|| ''`) and `status` (`e.status`). -/
structure GenError where
  message : String
  status : Option Nat
deriving DecidableEq, Repr

/-- Outcome of one capability attempt: the full streamed chunk list on success, or
the chunks delivered before the attempt failed (empty when the request itself threw). -/
inductive AttemptResult where
  | success (chunks : List String)
  | failure (chunks : List String) (e : GenError)
deriving DecidableEq, Repr

/-- Explicit state for a `generateVariation` run: the shared sessions list plus the
observable trace (prompts submitted to the capability, sleeps awaited, in order). -/
structure GenState where
  sessions : List DesignSession
  prompts : List String
  sleeps : List Nat
deriving Repr

/-- `'\n'.intersperse`-style join: `Array.prototype.join(sep)`. -/
def joinWith (sep : String) : List String → String
  | [] => ""
  | [a] => a
  | a :: rest => a ++ sep ++ joinWith sep rest

/-- The internal retry sentinel string `'__RETRYING__'`. -/
def RETRYING : String := "__RETRYING__"

/-- The retry bound of `generateVariation` in `src/index.tsx`: the code hard-codes
the literal `5` in `retryCount < 5`; the v1.1/v1.3 variants name their bound
`MAX_RETRIES` (with value `6`). -/
def MAX_RETRIES : Nat := 5

/-- The prompt template of `src/index.tsx` lines 352-371 (template literal, then
`.trim()`).  `notes && notes !== '__RETRYING__'` is the JS truthiness test. -/
def mkPrompt (comp : DesignComponent) (styleTheme designLanguage notes currentHtml : String) :
    String :=
  String.mk (jsTrim (String.data (
    "\nGenerate a single-file high-fidelity HTML/CSS component for: \"" ++ comp.name ++ "\"\n" ++
    "PURPOSE: " ++ comp.description ++ "\n" ++
    "THEME: \"" ++ styleTheme ++ "\"\n" ++
    "STRATEGY: " ++ designLanguage ++ "\n\n" ++
    "INTERACTION CONTRACT (MUST IMPLEMENT ALL):\n" ++
    joinWith "\n" (comp.affordances.map (fun a => "- " ++ a)) ++ "\n\n" ++
    (if notes ≠ "" ∧ notes ≠ RETRYING then "REFINEMENT: \"" ++ notes ++ "\"" else "") ++ "\n" ++
    (if currentHtml ≠ "" then
      "UPDATE EXISTING: \x60\x60\x60html\n" ++ currentHtml ++ "\n\x60\x60\x60" else "") ++ "\n\n" ++
    "RULES:\n" ++
    "- ONLY output the code inside \x60\x60\x60html blocks.\n" ++
    "- Must be responsive and centered.\n" ++
    "- Use \x27overflow-wrap: break-word\x27 to prevent bleed.\n" ++
    "- Default to \x27Inter\x27 for sans-serif typography.\n" ++
    "- STRICT NO DEAD LINKS POLICY: Never use \x27href=\"#\"\x27. Use buttons or styled spans.\n" ++
    "- For interactive elements, provide polished custom CSS styles.\n          ")))

/-- The per-chunk streaming update (`setDesignSessions` inside the `for await` loop):
set the target variation of the target session to the given extracted html. -/
def updateVariationHtml (sessionId variationId : String) (html : String)
    (sessions : List DesignSession) : List DesignSession :=
  sessions.map fun s =>
    if s.id == sessionId then
      { s with variations := s.variations.map fun v =>
          if v.id == variationId then { v with html := html } else v }
    else s

/-- The `for await (const chunk of responseStream)` loop: accumulate chunk text and
update the variation with `extractCode` of the accumulator after every chunk.
Returns the final accumulator and the resulting sessions list. -/
def streamChunks (sessionId variationId : String) :
    List String → String → List DesignSession → String × List DesignSession
  | [], acc, sessions => (acc, sessions)
  | c :: rest, acc, sessions =>
    streamChunks sessionId variationId rest (acc ++ c)
      (updateVariationHtml sessionId variationId (extractCode (acc ++ c)) sessions)

/-- The completion update: html set to the final extraction, status `complete`, and
`notes` cleared when it was the retry sentinel (`notes: notes === '__RETRYING__' ? '' : notes`). -/
def completeVariation (sessionId variationId : String) (html notes : String)
    (sessions : List DesignSession) : List DesignSession :=
  sessions.map fun s =>
    if s.id == sessionId then
      { s with variations := s.variations.map fun v =>
          if v.id == variationId then
            { v with
              html := html, status := Status.complete,
              notes := some (if notes == RETRYING then "" else notes) }
          else v }
    else s

/-- The terminal failure update: status `error`, everything else untouched. -/
def errorVariation (sessionId variationId : String)
    (sessions : List DesignSession) : List DesignSession :=
  sessions.map fun s =>
    if s.id == sessionId then
      { s with variations := s.variations.map fun v =>
          if v.id == variationId then { v with status := Status.error } else v }
    else s

/-- `generateVariation` (`src/index.tsx` 339-399).  The session is looked up by id
(early return when absent); an attempt submits the prompt, then either streams to
completion, or fails: a failure with `retryCount < 5` whose message contains `'429'`
sleeps `2^retryCount * 10000` ms and recurses with `retryCount + 1`; any other
failure marks the variation `error`. -/
def generateVariation (cap : Nat → AttemptResult) (variationId : String)
    (comp : DesignComponent) (sessionId : String) (notes currentHtml : String)
    (retryCount : Nat) (st : GenState) : GenState :=
  match st.sessions.find? (fun s => s.id == sessionId) with
  | none => st
  | some session =>
    match cap retryCount with
    | AttemptResult.success chunks =>
      { sessions := completeVariation sessionId variationId
          (extractCode (streamChunks sessionId variationId chunks "" st.sessions).1) notes
          (streamChunks sessionId variationId chunks "" st.sessions).2,
        prompts := st.prompts ++
          [mkPrompt comp session.styleTheme session.designLanguage notes currentHtml],
        sleeps := st.sleeps }
    | AttemptResult.failure chunks e =>
      if h : retryCount < 5 ∧ containsL ("429".data) e.message.data = true then
        generateVariation cap variationId comp sessionId notes currentHtml (retryCount + 1)
          { sessions := (streamChunks sessionId variationId chunks "" st.sessions).2,
            prompts := st.prompts ++
              [mkPrompt comp session.styleTheme session.designLanguage notes currentHtml],
            sleeps := st.sleeps ++ [2 ^ retryCount * 10000] }
      else
        { sessions := errorVariation sessionId variationId
            (streamChunks sessionId variationId chunks "" st.sessions).2,
          prompts := st.prompts ++
            [mkPrompt comp session.styleTheme session.designLanguage notes currentHtml],
          sleeps := st.sleeps }
termination_by 6 - retryCount
decreasing_by
  obtain ⟨h1, -⟩ := h
  omega

/-! ### The v1.1/v1.3 generation variant (`src/unnamed/part_004` lines 287-383, identical
retry logic in `src/unnamed/part_003` lines 315-411): named `MAX_RETRIES = 6` bound,
broader rate-limit classification, and a visible `__RETRYING__` marker while waiting. -/

/-- `MAX_RETRIES` of `part_004`/`part_003`. -/
def MAX_RETRIES_V11 : Nat := 6

/-- The v1.1 rate-limit classification (`part_004` line 359):
`errorText.includes('429') || errorText.includes('RESOURCE_EXHAUSTED') ||
errorText.includes('quota') || e.status === 429`. -/
def isRateLimitV11 (e : GenError) : Bool :=
  containsL ("429".data) e.message.data ||
  containsL ("RESOURCE_EXHAUSTED".data) e.message.data ||
  containsL ("quota".data) e.message.data ||
  e.status == some 429

/-- The prompt template of `part_004` lines 301-321. -/
def mkPromptV11 (comp : DesignComponent) (styleTheme designLanguage notes currentHtml : String) :
    String :=
  String.mk (jsTrim (String.data (
    "\nYou are the USUI Design Studio AI. Create or refine a high-fidelity system component.\n" ++
    "COMPONENT: \"" ++ comp.name ++ "\"\n" ++
    "CORE PURPOSE: " ++ comp.description ++ "\n\n" ++
    "**SYSTEM MANIFESTO:**\n" ++
    "THEME: \"" ++ styleTheme ++ "\"\n" ++
    "TECHNICAL SPECIFICATION:\n" ++ designLanguage ++ "\n\n" ++
    (if notes ≠ "" ∧ notes ≠ RETRYING then
      "**REFINEMENT REQUEST:**\n\"" ++ notes ++ "\"" else "") ++ "\n" ++
    (if currentHtml ≠ "" then
      "**CURRENT IMPLEMENTATION TO BE UPDATED:**\n\x60\x60\x60html\n" ++ currentHtml ++
        "\n\x60\x60\x60" else "") ++ "\n\n" ++
    "**STRICT GENERATION RULES:**\n" ++
    "- Output ONLY the updated HTML/CSS code. \n" ++
    "- NO preamble, NO explanations.\n" ++
    "- Wrap code in \x60\x60\x60html blocks.\n" ++
    "- Ensure the component is centered and responsive.\n" ++
    "- Use sharp, brutalist geometry. No soft corners unless specified in strategy.\n" ++
    "- Focus on high contrast and dramatic typographic scaling.\n          ")))

/-- The v1.1 while-waiting update (`part_004` lines 365-370): status back to streaming
with html cleared and the retry sentinel in `notes`. -/
def retryingVariation (sessionId variationId : String)
    (sessions : List DesignSession) : List DesignSession :=
  sessions.map fun s =>
    if s.id == sessionId then
      { s with variations := s.variations.map fun v =>
          if v.id == variationId then
            { v with status := Status.streaming, html := "", notes := some RETRYING }
          else v }
    else s

/-- `generateVariation` of `part_004` (lines 287-383): no session lookup (theme and
strategy are arguments), rate-limit classification `isRateLimitV11`, retry bound
`retryCount < MAX_RETRIES = 6`, `__RETRYING__` marker while backing off.  Chunks whose
`text` is not a string are skipped by the source loop; a skipped chunk leaves both
accumulator and state unchanged, which coincides with an empty-string chunk here. -/
def generateVariationV11 (cap : Nat → AttemptResult) (variationId : String)
    (comp : DesignComponent) (styleTheme designLanguage sessionId notes currentHtml : String)
    (retryCount : Nat) (st : GenState) : GenState :=
  match cap retryCount with
  | AttemptResult.success chunks =>
    { sessions := completeVariation sessionId variationId
        (extractCode (streamChunks sessionId variationId chunks "" st.sessions).1) notes
        (streamChunks sessionId variationId chunks "" st.sessions).2,
      prompts := st.prompts ++ [mkPromptV11 comp styleTheme designLanguage notes currentHtml],
      sleeps := st.sleeps }
  | AttemptResult.failure chunks e =>
    if h : isRateLimitV11 e = true ∧ retryCount < 6 then
      generateVariationV11 cap variationId comp styleTheme designLanguage sessionId notes
        currentHtml (retryCount + 1)
        { sessions := retryingVariation sessionId variationId
            (streamChunks sessionId variationId chunks "" st.sessions).2,
          prompts := st.prompts ++ [mkPromptV11 comp styleTheme designLanguage notes currentHtml],
          sleeps := st.sleeps ++ [2 ^ retryCount * 10000] }
    else
      { sessions := errorVariation sessionId variationId
          (streamChunks sessionId variationId chunks "" st.sessions).2,
        prompts := st.prompts ++ [mkPromptV11 comp styleTheme designLanguage notes currentHtml],
        sleeps := st.sleeps }
termination_by 7 - retryCount
decreasing_by
  obtain ⟨-, h2⟩ := h
  omega

/-! ### Stream and update lemmas -/

/-- The accumulator of the streaming loop. -/
def accumulate (acc : String) : List String → String
  | [] => acc
  | c :: rest => accumulate (acc ++ c) rest

/-- Two successive html updates on the same variation collapse to the second. -/
theorem updateVariationHtml_twice (sid vid h1 h2 : String) (sessions : List DesignSession) :
    updateVariationHtml sid vid h2 (updateVariationHtml sid vid h1 sessions) =
      updateVariationHtml sid vid h2 sessions := by
  unfold updateVariationHtml
  rw [List.map_map]
  apply List.map_congr_left
  intro s _
  by_cases hs : s.id = sid
  · simp only [Function.comp_apply, hs, beq_self_eq_true, if_pos]
    simp only [List.map_map]
    apply congrArg
    apply List.map_congr_left
    intro v _
    by_cases hv : v.id = vid
    · simp [hv]
    · simp [hv]
  · simp [Function.comp_apply, hs]

/-- First component of `streamChunks`: the full accumulated text. -/
theorem streamChunks_fst (sid vid : String) (chunks : List String) (acc : String)
    (sessions : List DesignSession) :
    (streamChunks sid vid chunks acc sessions).1 = accumulate acc chunks := by
  induction chunks generalizing acc sessions with
  | nil => rfl
  | cons c rest ih => simp [streamChunks, accumulate, ih]

/-- Second component of `streamChunks`: the per-chunk updates collapse to a single
update with the final extraction (or no update at all when no chunk arrived). -/
theorem streamChunks_snd (sid vid : String) (chunks : List String) (acc : String)
    (sessions : List DesignSession) :
    (streamChunks sid vid chunks acc sessions).2 =
      if chunks.isEmpty then sessions
      else updateVariationHtml sid vid (extractCode (accumulate acc chunks)) sessions := by
  induction chunks generalizing acc sessions with
  | nil => rfl
  | cons c rest ih =>
    simp only [streamChunks, List.isEmpty_cons, if_false, Bool.false_eq_true]
    rw [ih]
    by_cases hr : rest.isEmpty = true
    · cases rest with
      | nil => simp [accumulate]
      | cons d ds => simp at hr
    · simp only [hr, if_false, Bool.false_eq_true]
      rw [updateVariationHtml_twice]
      simp [accumulate]

/-! ### Existence and preservation of the target variation -/

/-- The target session and variation are present in the store (by id). -/
def VarExists (sessionId variationId : String) (sessions : List DesignSession) : Prop :=
  ∃ s ∈ sessions, s.id = sessionId ∧ ∃ v ∈ s.variations, v.id = variationId

instance (sessionId variationId : String) (sessions : List DesignSession) :
    Decidable (VarExists sessionId variationId sessions) := by
  unfold VarExists
  infer_instance

theorem find?_isSome_of_varExists {sid vid : String} {sessions : List DesignSession}
    (h : VarExists sid vid sessions) :
    (sessions.find? (fun s => s.id == sid)).isSome = true := by
  obtain ⟨s, hmem, hid, -⟩ := h
  rw [List.find?_isSome]
  exact ⟨s, hmem, by simp [hid]⟩

/-- Mapping the store with functions that fix both ids and map the variation list
id-preservingly keeps `VarExists`.  The three update shapes below are instances. -/
theorem varExists_map {sid vid : String} {sessions : List DesignSession}
    {f : DesignSession → DesignSession}
    (hid : ∀ s, (f s).id = s.id)
    (hvar : ∀ s v, v ∈ s.variations → ∃ v' ∈ (f s).variations, v'.id = v.id)
    (h : VarExists sid vid sessions) :
    VarExists sid vid (sessions.map f) := by
  obtain ⟨s, hmem, hsid, v, hv, hvid⟩ := h
  refine ⟨f s, List.mem_map_of_mem f hmem, by rw [hid, hsid], ?_⟩
  obtain ⟨v', hv', hv'id⟩ := hvar s v hv
  exact ⟨v', hv', by rw [hv'id, hvid]⟩

theorem varExists_updateVariationHtml {sid vid x y h : String} {sessions : List DesignSession}
    (hve : VarExists sid vid sessions) :
    VarExists sid vid (updateVariationHtml x y h sessions) := by
  apply varExists_map ?_ ?_ hve
  · intro s
    by_cases hs : s.id = x <;> simp [hs]
  · intro s v hv
    by_cases hs : s.id = x
    · simp only [hs, beq_self_eq_true, if_pos]
      by_cases hvv : v.id = y
      · exact ⟨_, List.mem_map_of_mem _ hv, by simp [hvv]⟩
      · exact ⟨_, List.mem_map_of_mem _ hv, by simp [hvv]⟩
    · simp only [beq_iff_eq, hs, if_false]
      exact ⟨v, hv, rfl⟩

theorem varExists_retryingVariation {sid vid x y : String} {sessions : List DesignSession}
    (hve : VarExists sid vid sessions) :
    VarExists sid vid (retryingVariation x y sessions) := by
  apply varExists_map ?_ ?_ hve
  · intro s
    by_cases hs : s.id = x <;> simp [hs]
  · intro s v hv
    by_cases hs : s.id = x
    · simp only [hs, beq_self_eq_true, if_pos]
      by_cases hvv : v.id = y
      · exact ⟨_, List.mem_map_of_mem _ hv, by simp [hvv]⟩
      · exact ⟨_, List.mem_map_of_mem _ hv, by simp [hvv]⟩
    · simp only [beq_iff_eq, hs, if_false]
      exact ⟨v, hv, rfl⟩

theorem varExists_streamChunks {sid vid x y : String} {chunks : List String} {acc : String}
    {sessions : List DesignSession} (hve : VarExists sid vid sessions) :
    VarExists sid vid (streamChunks x y chunks acc sessions).2 := by
  rw [streamChunks_snd]
  by_cases hc : chunks.isEmpty = true
  · simpa [hc] using hve
  · simp only [hc, if_false, Bool.false_eq_true]
    exact varExists_updateVariationHtml hve

/-- The terminal update really sets the target variation's status to `error`. -/
theorem errorVariation_sets_error {sid vid : String} {sessions : List DesignSession}
    (h : VarExists sid vid sessions) :
    ∃ s ∈ errorVariation sid vid sessions, s.id = sid ∧
      ∃ v ∈ s.variations, v.id = vid ∧ v.status = Status.error := by
  obtain ⟨s, hmem, hsid, v, hv, hvid⟩ := h
  unfold errorVariation
  refine ⟨_, List.mem_map_of_mem _ hmem, ?_⟩
  simp only [hsid, beq_self_eq_true, if_pos]
  refine ⟨trivial, ?_⟩
  refine ⟨_, List.mem_map_of_mem _ hv, ?_⟩
  simp [hvid]

/-! ### Claim C5: bounded exponential-backoff retry -/

theorem backoff_range_shift (r : Nat) (hr : r < 5) :
    (2 ^ r * 10000) :: (List.range (5 - (r + 1))).map (fun i => 2 ^ ((r + 1) + i) * 10000) =
      (List.range (5 - r)).map (fun i => 2 ^ (r + i) * 10000) := by
  interval_cases r <;> decide

theorem generateVariation_allfail_aux (cap : Nat → AttemptResult)
    (hcap : ∀ n, ∃ chunks e, cap n = AttemptResult.failure chunks e ∧
        containsL ("429".data) e.message.data = true)
    (variationId : String) (comp : DesignComponent) (sessionId notes currentHtml : String) :
    ∀ k retryCount st, 6 - retryCount = k → retryCount ≤ 5 →
      VarExists sessionId variationId st.sessions →
      (generateVariation cap variationId comp sessionId notes currentHtml retryCount st).prompts.length
          = st.prompts.length + (6 - retryCount) ∧
      (generateVariation cap variationId comp sessionId notes currentHtml retryCount st).sleeps
          = st.sleeps ++ (List.range (5 - retryCount)).map (fun i => 2 ^ (retryCount + i) * 10000) ∧
      ∃ s ∈ (generateVariation cap variationId comp sessionId notes currentHtml retryCount st).sessions,
        s.id = sessionId ∧ ∃ v ∈ s.variations, v.id = variationId ∧ v.status = Status.error := by
  intro k
  induction k with
  | zero =>
    intro r st hk hr hve
    omega
  | succ k ih =>
    intro r st hk hr hve
    obtain ⟨chunks, e, hce, h429⟩ := hcap r
    have hfind : (st.sessions.find? (fun s => s.id == sessionId)).isSome = true :=
      find?_isSome_of_varExists hve
    obtain ⟨session, hsession⟩ := Option.isSome_iff_exists.mp hfind
    unfold generateVariation
    rw [hsession, hce]
    simp only []
    split
    · rename_i hcond
      have hve' : VarExists sessionId variationId
          (streamChunks sessionId variationId chunks "" st.sessions).2 :=
        varExists_streamChunks hve
      obtain ⟨P1, P2, P3⟩ := ih (r + 1)
        { sessions := (streamChunks sessionId variationId chunks "" st.sessions).2,
          prompts := st.prompts ++
            [mkPrompt comp session.styleTheme session.designLanguage notes currentHtml],
          sleeps := st.sleeps ++ [2 ^ r * 10000] }
        (by omega) (by obtain ⟨h1, -⟩ := hcond; omega) hve'
      refine ⟨?_, ?_, ?_⟩
      · refine P1.trans ?_
        simp only [List.length_append, List.length_cons, List.length_nil]
        omega
      · refine P2.trans ?_
        rw [List.append_assoc, List.singleton_append, backoff_range_shift r hcond.1]
      · exact P3
    · rename_i hcond
      have hr5 : r = 5 := by
        by_contra hne
        exact hcond ⟨by omega, h429⟩
      refine ⟨?_, ?_, ?_⟩
      · simp only [List.length_append, List.length_cons, List.length_nil]
        omega
      · subst hr5
        simp
      · exact errorVariation_sets_error (varExists_streamChunks hve)

/-- C5: when every capability attempt fails with a rate-limit error (its message
carries `'429'`), `generateVariation` starting at `retryCount = 0` submits exactly
`MAX_RETRIES + 1 = 6` prompts to the capability, sleeps `2^retryCount * 10000` ms
(exponential backoff, base 10000 ms) between consecutive attempts, and finally sets
the target variation's status to `error`; the retry recursion is well-founded on
`6 - retryCount` via the `retryCount < 5` guard, so it is bounded by the maximum
retry count. -/
theorem generateVariation_rate_limit_exhaustion (cap : Nat → AttemptResult)
    (hcap : ∀ n, ∃ chunks e, cap n = AttemptResult.failure chunks e ∧
        containsL ("429".data) e.message.data = true)
    (variationId : String) (comp : DesignComponent) (sessionId notes currentHtml : String)
    (st : GenState) (hve : VarExists sessionId variationId st.sessions) :
    (generateVariation cap variationId comp sessionId notes currentHtml 0 st).prompts.length
        = st.prompts.length + (MAX_RETRIES + 1) ∧
    (generateVariation cap variationId comp sessionId notes currentHtml 0 st).sleeps
        = st.sleeps ++ [10000, 20000, 40000, 80000, 160000] ∧
    ∃ s ∈ (generateVariation cap variationId comp sessionId notes currentHtml 0 st).sessions,
      s.id = sessionId ∧ ∃ v ∈ s.variations, v.id = variationId ∧ v.status = Status.error := by
  obtain ⟨P1, P2, P3⟩ := generateVariation_allfail_aux cap hcap variationId comp sessionId
    notes currentHtml 6 0 st rfl (by omega) hve
  refine ⟨by simpa [MAX_RETRIES] using P1, ?_, P3⟩
  rw [P2]
  congr 1

/-! ### Claim C8: terminal failure is frame-scoped to one variation's status -/

/-- Pointwise frame relation on variations: non-target variations are untouched; the
target keeps every field except `status` (set to `error`), with `html` either its
last pre-attempt value (no chunk arrived) or the last streamed partial extraction. -/
def VariationFrame (variationId : String) (finalHtml : Option String)
    (v v' : ComponentVariation) : Prop :=
  (v.id ≠ variationId → v' = v) ∧
  (v.id = variationId →
    v'.id = v.id ∧ v'.componentId = v.componentId ∧ v'.styleName = v.styleName ∧
    v'.prompt = v.prompt ∧ v'.notes = v.notes ∧
    v'.html = finalHtml.getD v.html ∧ v'.status = Status.error)

/-- Pointwise frame relation on sessions: non-target sessions are untouched; the
target session keeps all its fields, with only the `VariationFrame` change inside
its variation list. -/
def SessionFrame (sessionId variationId : String) (finalHtml : Option String)
    (s s' : DesignSession) : Prop :=
  (s.id ≠ sessionId → s' = s) ∧
  (s.id = sessionId →
    s'.id = s.id ∧ s'.styleTheme = s.styleTheme ∧ s'.designLanguage = s.designLanguage ∧
    s'.timestamp = s.timestamp ∧ s'.architecture = s.architecture ∧
    List.Forall₂ (VariationFrame variationId finalHtml) s.variations s'.variations)

theorem forall₂_map_self {α β : Type} {R : α → β → Prop} (f : α → β) (l : List α)
    (h : ∀ a ∈ l, R a (f a)) : List.Forall₂ R l (l.map f) := by
  induction l with
  | nil => exact List.Forall₂.nil
  | cons a as ih =>
    exact List.Forall₂.cons (h a (by simp)) (ih fun x hx => h x (by simp [hx]))

/-- The terminal error update, possibly after one collapsed streaming update, is a
frame change in the sense of `SessionFrame`. -/
theorem frame_errorVariation (sid vid : String) (H : Option String)
    (sessions : List DesignSession) :
    List.Forall₂ (SessionFrame sid vid H) sessions
      (errorVariation sid vid (match H with
        | none => sessions
        | some hh => updateVariationHtml sid vid hh sessions)) := by
  cases H with
  | none =>
    unfold errorVariation
    apply forall₂_map_self
    intro s _
    by_cases hs : s.id = sid
    · refine ⟨fun hne => absurd hs hne, fun _ => ?_⟩
      simp only [hs, beq_self_eq_true, if_pos]
      refine ⟨trivial, trivial, trivial, trivial, trivial, ?_⟩
      apply forall₂_map_self
      intro v _
      by_cases hv : v.id = vid
      · refine ⟨fun hne => absurd hv hne, fun _ => ?_⟩
        simp [hv]
      · refine ⟨fun _ => ?_, fun hcon => absurd hcon hv⟩
        simp [hv]
    · refine ⟨fun _ => ?_, fun hcon => absurd hcon hs⟩
      simp [hs]
  | some hh =>
    unfold errorVariation updateVariationHtml
    rw [List.map_map]
    apply forall₂_map_self
    intro s _
    by_cases hs : s.id = sid
    · refine ⟨fun hne => absurd hs hne, fun _ => ?_⟩
      simp only [Function.comp_apply, hs, beq_self_eq_true, if_pos]
      refine ⟨trivial, trivial, trivial, trivial, trivial, ?_⟩
      rw [List.map_map]
      apply forall₂_map_self
      intro v _
      by_cases hv : v.id = vid
      · refine ⟨fun hne => absurd hv hne, fun _ => ?_⟩
        simp [Function.comp_apply, hv]
      · refine ⟨fun _ => ?_, fun hcon => absurd hcon hv⟩
        simp [Function.comp_apply, hv]
    · refine ⟨fun _ => ?_, fun hcon => absurd hcon hs⟩
      simp [Function.comp_apply, hs]

/-- C8: when a generation attempt fails terminally (a non-rate-limit error, after
streaming `chunks`), the only change across the whole store is the failing
variation's `status` (set to `error`): its html keeps the last-known partial value
(its prior value if nothing streamed, else the extraction of what streamed), its
other fields are unchanged, and every sibling variation and every other session is
unchanged. -/
theorem terminal_failure_frame (cap : Nat → AttemptResult) (variationId : String)
    (comp : DesignComponent) (sessionId notes currentHtml : String) (retryCount : Nat)
    (st : GenState) (chunks : List String) (e : GenError)
    (hcap : cap retryCount = AttemptResult.failure chunks e)
    (hterm : containsL ("429".data) e.message.data = false) :
    List.Forall₂
      (SessionFrame sessionId variationId
        (if chunks.isEmpty then none else some (extractCode (accumulate "" chunks))))
      st.sessions
      (generateVariation cap variationId comp sessionId notes currentHtml retryCount st).sessions := by
  have hfr : ∀ H : Option String,
      (if chunks.isEmpty then none else some (extractCode (accumulate "" chunks))) = H →
      List.Forall₂ (SessionFrame sessionId variationId H) st.sessions
        (generateVariation cap variationId comp sessionId notes currentHtml retryCount st).sessions := by
    intro H hH
    by_cases hfind : (st.sessions.find? (fun s => s.id == sessionId)).isSome = true
    · obtain ⟨session, hsession⟩ := Option.isSome_iff_exists.mp hfind
      unfold generateVariation
      rw [hsession, hcap]
      simp only []
      split
      · rename_i hcond
        rw [hterm] at hcond
        exact absurd hcond.2 (by simp)
      · rw [streamChunks_snd]
        by_cases hc : chunks.isEmpty = true
        · rw [hc] at hH
          simp only [if_true] at hH
          subst hH
          simp only [hc, if_true]
          simpa using frame_errorVariation sessionId variationId none st.sessions
        · simp only [Bool.not_eq_true] at hc
          rw [hc] at hH
          simp only [Bool.false_eq_true, if_false] at hH
          subst hH
          simp only [hc, Bool.false_eq_true, if_false]
          simpa using frame_errorVariation sessionId variationId
            (some (extractCode (accumulate "" chunks))) st.sessions
    · have hnone : st.sessions.find? (fun s => s.id == sessionId) = none := by
        cases hx : st.sessions.find? (fun s => s.id == sessionId) with
        | none => rfl
        | some s => rw [hx] at hfind; simp at hfind
      have hnomatch := List.find?_eq_none.mp hnone
      unfold generateVariation
      rw [hnone]
      rw [List.forall₂_same]
      intro s hs
      refine ⟨fun _ => rfl, fun hcon => ?_⟩
      exact absurd (by simp [hcon]) (hnomatch s hs)
  exact hfr _ rfl

/-- C8 witness: a two-session store, failure after one streamed chunk. -/
theorem terminal_failure_frame_witness :
    List.Forall₂
      (SessionFrame "s1" "v1"
        (if (["<p>a</p>"] : List String).isEmpty then none
         else some (extractCode (accumulate "" ["<p>a</p>"]))))
      [⟨"s1", "Noir", "lang", 0, [],
        [⟨"v1", "mod-a", "Noir", "old", "", Status.streaming, none⟩,
         ⟨"v2", "mod-b", "Noir", "keep", "", Status.complete, none⟩]⟩,
       ⟨"s2", "Swiss", "lang2", 1, [],
        [⟨"v3", "mod-c", "Swiss", "x", "", Status.pending, none⟩]⟩]
      (generateVariation (fun _ => AttemptResult.failure ["<p>a</p>"] ⟨"boom", none⟩)
        "v1" ⟨"mod-a", "Primary Action", none, "d", [], none⟩ "s1" "" "" 0
        ⟨[⟨"s1", "Noir", "lang", 0, [],
          [⟨"v1", "mod-a", "Noir", "old", "", Status.streaming, none⟩,
           ⟨"v2", "mod-b", "Noir", "keep", "", Status.complete, none⟩]⟩,
         ⟨"s2", "Swiss", "lang2", 1, [],
          [⟨"v3", "mod-c", "Swiss", "x", "", Status.pending, none⟩]⟩], [], []⟩).sessions :=
  terminal_failure_frame (fun _ => AttemptResult.failure ["<p>a</p>"] ⟨"boom", none⟩)
    "v1" ⟨"mod-a", "Primary Action", none, "d", [], none⟩ "s1" "" "" 0
    ⟨[⟨"s1", "Noir", "lang", 0, [],
      [⟨"v1", "mod-a", "Noir", "old", "", Status.streaming, none⟩,
       ⟨"v2", "mod-b", "Noir", "keep", "", Status.complete, none⟩]⟩,
     ⟨"s2", "Swiss", "lang2", 1, [],
      [⟨"v3", "mod-c", "Swiss", "x", "", Status.pending, none⟩]⟩], [], []⟩
    ["<p>a</p>"] ⟨"boom", none⟩ rfl (by decide)

/-! ### Claim C6: which failures are retried -/

/-- Observable status of a variation in a store, by session and variation id. -/
def varStatus (sessions : List DesignSession) (sid vid : String) : Option Status :=
  (sessions.find? (fun s => s.id == sid)).bind
    (fun s => (s.variations.find? (fun v => v.id == vid)).map (fun v => v.status))

/-- A concrete one-module component for exercising the generation machinery. -/
def comp₀ : DesignComponent :=
  ⟨"mod-a", "Primary Action", none, "d", [], none⟩

/-- A concrete session holding one pending variation `v1` of `comp₀`. -/
def sess₀ : DesignSession :=
  ⟨"s1", "Noir", "lang", 0, [comp₀], [⟨"v1", "mod-a", "Noir", "", "", Status.pending, none⟩]⟩

/-- The store containing only `sess₀`, with an empty trace. -/
def st₀ : GenState := ⟨[sess₀], [], []⟩

/-- C6 counterexample: the failure `{message: "RESOURCE_EXHAUSTED: quota exceeded",
status: 429}` is rate-limit-classified in the claim's sense — it carries the HTTP 429
status code and a resource-exhausted/quota marker (and the v1.1/v1.3 classifier
accepts it) — yet `generateVariation` of `src/index.tsx` does not retry it, because
its message lacks the literal `"429"`: exactly one capability call is made and the
variation goes terminally to `error`. -/
theorem retry_classification_counterexample :
    isRateLimitV11 ⟨"RESOURCE_EXHAUSTED: quota exceeded", some 429⟩ = true ∧
    (generateVariation
        (fun _ => AttemptResult.failure [] ⟨"RESOURCE_EXHAUSTED: quota exceeded", some 429⟩)
        "v1" comp₀ "s1" "" "" 0 st₀).prompts.length = 1 ∧
    varStatus (generateVariation
        (fun _ => AttemptResult.failure [] ⟨"RESOURCE_EXHAUSTED: quota exceeded", some 429⟩)
        "v1" comp₀ "s1" "" "" 0 st₀).sessions "s1" "v1" = some Status.error := by
  have h429 : containsL ("429".data) ("RESOURCE_EXHAUSTED: quota exceeded".data) = false := by
    decide
  refine ⟨by decide, ?_, ?_⟩
  · unfold generateVariation
    simp [st₀, sess₀, h429, streamChunks]
  · unfold generateVariation
    simp [st₀, sess₀, h429, streamChunks, errorVariation, varStatus]

/-- C6 (amended): a failure is retried exactly when the variant's own classifier
accepts it.  `src/index.tsx` retries a failure (given retry budget) if and only if
its `message` contains the literal `"429"` — a 429 status code alone or a
resource-exhausted/quota marker alone is terminal there; the v1.1/v1.3
`generateVariation` retries if and only if the message contains `'429'`,
`'RESOURCE_EXHAUSTED'` or `'quota'`, or the status is 429.  With a capability that
fails once with `e` and then succeeds, each variant makes two calls and completes
when its classifier accepts `e`, and one call with a terminal `error` otherwise. -/
theorem retry_classification_by_variant (e : GenError) :
    ((generateVariation
        (fun n => if n == 0 then AttemptResult.failure [] e else AttemptResult.success [])
        "v1" comp₀ "s1" "" "" 0 st₀).prompts.length
      = if containsL ("429".data) e.message.data then 2 else 1) ∧
    (varStatus (generateVariation
        (fun n => if n == 0 then AttemptResult.failure [] e else AttemptResult.success [])
        "v1" comp₀ "s1" "" "" 0 st₀).sessions "s1" "v1"
      = some (if containsL ("429".data) e.message.data then Status.complete else Status.error)) ∧
    ((generateVariationV11
        (fun n => if n == 0 then AttemptResult.failure [] e else AttemptResult.success [])
        "v1" comp₀ "Noir" "lang" "s1" "" "" 0 st₀).prompts.length
      = if isRateLimitV11 e then 2 else 1) ∧
    (varStatus (generateVariationV11
        (fun n => if n == 0 then AttemptResult.failure [] e else AttemptResult.success [])
        "v1" comp₀ "Noir" "lang" "s1" "" "" 0 st₀).sessions "s1" "v1"
      = some (if isRateLimitV11 e then Status.complete else Status.error)) := by
  constructor
  · by_cases h : containsL ("429".data) e.message.data = true
    · simp only [h, if_true]
      unfold generateVariation
      simp [st₀, sess₀, h, streamChunks]
      unfold generateVariation
      simp [streamChunks, completeVariation, updateVariationHtml]
    · simp only [Bool.not_eq_true] at h
      simp only [h, Bool.false_eq_true, if_false]
      unfold generateVariation
      simp [st₀, sess₀, h, streamChunks]
  · constructor
    · by_cases h : containsL ("429".data) e.message.data = true
      · simp only [h, if_true]
        unfold generateVariation
        simp [st₀, sess₀, h, streamChunks]
        unfold generateVariation
        simp [streamChunks, completeVariation, updateVariationHtml, varStatus, sess₀]
      · simp only [Bool.not_eq_true] at h
        simp only [h, Bool.false_eq_true, if_false]
        unfold generateVariation
        simp [st₀, sess₀, h, streamChunks, errorVariation, varStatus]
    · constructor
      · by_cases h : isRateLimitV11 e = true
        · simp only [h, if_true]
          unfold generateVariationV11
          simp [st₀, sess₀, h, streamChunks, retryingVariation]
          unfold generateVariationV11
          simp [streamChunks, completeVariation, updateVariationHtml]
        · simp only [Bool.not_eq_true] at h
          simp only [h, Bool.false_eq_true, if_false]
          unfold generateVariationV11
          simp [st₀, sess₀, h, streamChunks]
      · by_cases h : isRateLimitV11 e = true
        · simp only [h, if_true]
          unfold generateVariationV11
          simp [st₀, sess₀, h, streamChunks, retryingVariation]
          unfold generateVariationV11
          simp [streamChunks, completeVariation, updateVariationHtml, varStatus, sess₀]
        · simp only [Bool.not_eq_true] at h
          simp only [h, Bool.false_eq_true, if_false]
          unfold generateVariationV11
          simp [st₀, sess₀, h, streamChunks, errorVariation, varStatus]

/-! ## Architecture module operations (`handleAddModule`, `handleDeleteModule`,
`src/index.tsx` 491-525) -/

/-- The placeholder module appended by `handleAddModule`; `gid` is the value of the
`generateId()` call (`generateId` lives in the missing `utils.ts`, so fresh ids are
parameters throughout). -/
def newModuleOf (gid : String) : DesignComponent :=
  ⟨"mod-" ++ gid, "Untitled Module", none, "Describe module purpose...", [], none⟩

/-- The paired pending variation appended by `handleAddModule`: it references the new
module and carries the current session's `styleTheme`. -/
def newVariationOf (cs : DesignSession) (gid varId : String) : ComponentVariation :=
  ⟨varId, "mod-" ++ gid, cs.styleTheme, "", "", Status.pending, none⟩

/-- `handleAddModule` (`src/index.tsx` 491-502): append the placeholder module and
its paired pending variation to the current session. -/
def handleAddModule (currentSession : DesignSession) (gid varId : String)
    (sessions : List DesignSession) : List DesignSession :=
  sessions.map fun s =>
    if s.id == currentSession.id then
      { s with
        architecture := s.architecture ++ [newModuleOf gid],
        variations := s.variations ++ [newVariationOf currentSession gid varId] }
    else s

/-- `handleDeleteModule` (`src/index.tsx` 519-525): remove the module with the given
id and every variation referencing it (cascade) from the current session. -/
def handleDeleteModule (currentSessionId : String) (id : String)
    (sessions : List DesignSession) : List DesignSession :=
  sessions.map fun s =>
    if s.id == currentSessionId then
      { s with
        architecture := s.architecture.filter (fun a => !(a.id == id)),
        variations := s.variations.filter (fun v => !(v.componentId == id)) }
    else s

/-- One module-list operation as dispatched by the UI handlers. -/
inductive ModuleOp where
  | add (currentSession : DesignSession) (gid varId : String)
  | del (currentSessionId : String) (id : String)

def applyModuleOp (sessions : List DesignSession) : ModuleOp → List DesignSession
  | ModuleOp.add cs gid varId => handleAddModule cs gid varId sessions
  | ModuleOp.del sid id => handleDeleteModule sid id sessions

/-- Referential integrity of one session: every variation's `componentId` resolves to
a module of the same session. -/
def RefIntegrity (s : DesignSession) : Prop :=
  ∀ v ∈ s.variations, ∃ a ∈ s.architecture, a.id = v.componentId

/-- Referential integrity of every session in the store. -/
def StoreIntegrity (sessions : List DesignSession) : Prop :=
  ∀ s ∈ sessions, RefIntegrity s

instance (s : DesignSession) : Decidable (RefIntegrity s) := by
  unfold RefIntegrity
  infer_instance

instance (sessions : List DesignSession) : Decidable (StoreIntegrity sessions) := by
  unfold StoreIntegrity
  infer_instance

theorem storeIntegrity_applyModuleOp {sessions : List DesignSession} (op : ModuleOp)
    (h : StoreIntegrity sessions) : StoreIntegrity (applyModuleOp sessions op) := by
  cases op with
  | add cs gid varId =>
    intro s' hs'
    obtain ⟨s, hs, rfl⟩ := List.mem_map.mp hs'
    by_cases hid : s.id = cs.id
    · simp only [handleAddModule] at *
      simp only [hid, beq_self_eq_true, if_pos]
      intro v hv
      rcases List.mem_append.mp hv with hv1 | hv2
      · obtain ⟨a, ha, haid⟩ := h s hs v hv1
        exact ⟨a, List.mem_append.mpr (Or.inl ha), haid⟩
      · refine ⟨newModuleOf gid, List.mem_append.mpr (Or.inr (by simp)), ?_⟩
        have : v = newVariationOf cs gid varId := by simpa using hv2
        subst this
        rfl
    · simpa [handleAddModule, hid] using h s hs
  | del sid id =>
    intro s' hs'
    obtain ⟨s, hs, rfl⟩ := List.mem_map.mp hs'
    by_cases hid : s.id = sid
    · simp only [handleDeleteModule, hid, beq_self_eq_true, if_pos]
      intro v hv
      have hv' := List.mem_filter.mp hv
      obtain ⟨a, ha, haid⟩ := h s hs v hv'.1
      refine ⟨a, List.mem_filter.mpr ⟨ha, ?_⟩, haid⟩
      have hne : ¬(v.componentId = id) := by
        intro hc
        rw [hc] at hv'
        simp at hv'
      simp [haid, hne]
    · simpa [handleDeleteModule, hid] using h s hs

/-- C7: after any sequence of add/delete module operations starting from a store with
referential integrity, every variation's `componentId` still references a module of
its own session; `deleteModule(id)` leaves zero variations referencing `id` in the
target session; and `addModule` appends exactly one placeholder module together with
a paired pending variation referencing it, leaving everything else unchanged. -/
theorem module_ops_referential_integrity :
    (∀ (sessions : List DesignSession) (ops : List ModuleOp),
      StoreIntegrity sessions → StoreIntegrity (ops.foldl applyModuleOp sessions)) ∧
    (∀ (sid id : String) (sessions : List DesignSession),
      ∀ s ∈ handleDeleteModule sid id sessions, s.id = sid →
        ∀ v ∈ s.variations, v.componentId ≠ id) ∧
    (∀ (cs : DesignSession) (gid varId : String) (sessions : List DesignSession),
      List.Forall₂ (fun s s' =>
        (s.id ≠ cs.id → s' = s) ∧
        (s.id = cs.id →
          s'.id = s.id ∧ s'.styleTheme = s.styleTheme ∧
          s'.architecture = s.architecture ++ [newModuleOf gid] ∧
          s'.variations = s.variations ++ [newVariationOf cs gid varId] ∧
          (newVariationOf cs gid varId).componentId = (newModuleOf gid).id ∧
          (newVariationOf cs gid varId).status = Status.pending))
        sessions (handleAddModule cs gid varId sessions)) := by
  refine ⟨?_, ?_, ?_⟩
  · intro sessions ops
    induction ops generalizing sessions with
    | nil => exact fun h => h
    | cons op rest ih =>
      intro h
      exact ih (applyModuleOp sessions op) (storeIntegrity_applyModuleOp op h)
  · intro sid id sessions s hs hsid v hv
    unfold handleDeleteModule at hs
    obtain ⟨s0, hs0, rfl⟩ := List.mem_map.mp hs
    by_cases hid : s0.id = sid
    · simp only [hid, beq_self_eq_true, if_pos] at hv ⊢
      intro hc
      have hv' := List.mem_filter.mp hv
      rw [hc] at hv'
      simp at hv'
    · rw [if_neg (by simpa using hid)] at hsid
      exact absurd hsid hid
  · intro cs gid varId sessions
    unfold handleAddModule
    apply forall₂_map_self
    intro s _
    by_cases hid : s.id = cs.id
    · refine ⟨fun hne => absurd hid hne, fun _ => ?_⟩
      simp [hid, newVariationOf, newModuleOf]
    · refine ⟨fun _ => by simp [hid], fun hcon => absurd hcon hid⟩

/-- C7 witness: the invariant survives an add followed by a cascading delete on a
concrete store. -/
theorem module_ops_referential_integrity_witness :
    StoreIntegrity
      ([ModuleOp.add sess₀ "g1" "w1", ModuleOp.del "s1" "mod-a"].foldl
        applyModuleOp [sess₀]) :=
  module_ops_referential_integrity.1 [sess₀]
    [ModuleOp.add sess₀ "g1" "w1", ModuleOp.del "s1" "mod-a"] (by decide)

/-! ## Remix (`handleConfirmRemix`, `src/index.tsx` 527-546) -/

/-- `handleUpdateArch` (`src/index.tsx` 504-508) instantiated at the `'affordances'`
field: the TS function is polymorphic over `'name' | 'description' | 'affordances'`;
the remix path uses exactly this instance. -/
def handleUpdateArchAffordances (currentSessionId : String) (id : String)
    (val : List String) (sessions : List DesignSession) : List DesignSession :=
  sessions.map fun s =>
    if s.id == currentSessionId then
      { s with architecture := s.architecture.map fun a =>
          if a.id == id then { a with affordances := val } else a }
    else s

/-- The streaming reset queued by `handleConfirmRemix` (lines 540-542) after the
affordance commit and before the generation call. -/
def remixStreamingReset (currentSessionId variationId : String)
    (sessions : List DesignSession) : List DesignSession :=
  sessions.map fun s =>
    if s.id == currentSessionId then
      { s with variations := s.variations.map fun x =>
          if x.id == variationId then { x with status := Status.streaming, html := "" } else x }
    else s

/-- The `activeRemixVariation` record captured when a reroll opens the remix modal. -/
structure ActiveRemix where
  id : String
  componentName : String
  currentHtml : String
  initialAffordances : List String

/-- A generation call as issued by an event handler: the arguments handed to
`generateVariation`. -/
structure GenCall where
  variationId : String
  comp : DesignComponent
  sessionId : String
  notes : String
  currentHtml : String
deriving DecidableEq, Repr

/-- `handleConfirmRemix` (`src/index.tsx` 527-546): look up the remixed variation's
`componentId`, queue the affordance commit, build `updatedArch` from the (stale)
architecture entry with the updated affordances, queue the streaming reset, then call
`generateVariation` with `updatedArch`, the notes and the prior html.  Returns the
sessions state at the moment the call is issued (both queued updater functions
applied in order, per React's sequential updater semantics) and the issued call;
when one of the source's non-null assertions would throw, no call is issued. -/
def handleConfirmRemix (currentSession : DesignSession) (active : ActiveRemix)
    (notes : String) (updatedAffordances : List String)
    (sessions : List DesignSession) : List DesignSession × Option GenCall :=
  match currentSession.variations.find? (fun v => v.id == active.id) with
  | none => (sessions, none)
  | some v =>
    match currentSession.architecture.find? (fun a => a.id == v.componentId) with
    | none =>
      (handleUpdateArchAffordances currentSession.id v.componentId updatedAffordances sessions,
       none)
    | some arch =>
      (remixStreamingReset currentSession.id active.id
        (handleUpdateArchAffordances currentSession.id v.componentId updatedAffordances sessions),
       some ⟨active.id, { arch with affordances := updatedAffordances },
         currentSession.id, notes, active.currentHtml⟩)

/-- Prompts recorded by a `generateVariation` run extend the incoming prompt trace. -/
theorem generateVariation_prompts_extend (cap : Nat → AttemptResult) (vid : String)
    (comp : DesignComponent) (sid notes chtml : String) :
    ∀ k r st, 6 - r = k →
      ∃ t, (generateVariation cap vid comp sid notes chtml r st).prompts = st.prompts ++ t := by
  intro k
  induction k with
  | zero =>
    intro r st hk
    unfold generateVariation
    cases hf : st.sessions.find? (fun s => s.id == sid) with
    | none => exact ⟨[], by simp⟩
    | some session =>
      cases hc : cap r with
      | success chunks =>
        exact ⟨[mkPrompt comp session.styleTheme session.designLanguage notes chtml], rfl⟩
      | failure chunks e =>
        refine ⟨[mkPrompt comp session.styleTheme session.designLanguage notes chtml], ?_⟩
        simp only []
        split
        · rename_i hcond
          exact absurd hcond.1 (by omega)
        · rfl
  | succ k ih =>
    intro r st hk
    unfold generateVariation
    cases hf : st.sessions.find? (fun s => s.id == sid) with
    | none => exact ⟨[], by simp⟩
    | some session =>
      cases hc : cap r with
      | success chunks =>
        exact ⟨[mkPrompt comp session.styleTheme session.designLanguage notes chtml], rfl⟩
      | failure chunks e =>
        by_cases hcond : r < 5 ∧ containsL ("429".data) e.message.data = true
        · obtain ⟨t, ht⟩ := ih (r + 1)
            { sessions := (streamChunks sid vid chunks "" st.sessions).2,
              prompts := st.prompts ++
                [mkPrompt comp session.styleTheme session.designLanguage notes chtml],
              sleeps := st.sleeps ++ [2 ^ r * 10000] }
            (by omega)
          refine ⟨[mkPrompt comp session.styleTheme session.designLanguage notes chtml] ++ t, ?_⟩
          simp only []
          split
          · exact ht.trans (List.append_assoc _ _ _)
          · rename_i hno
            exact absurd hcond hno
        · refine ⟨[mkPrompt comp session.styleTheme session.designLanguage notes chtml], ?_⟩
          simp only []
          split
          · rename_i hyes
            exact absurd hyes hcond
          · rfl

/-- The first prompt a `generateVariation` run submits, when its session resolves, is
the prompt built from the component it was handed. -/
theorem generateVariation_head_prompt (cap : Nat → AttemptResult) (vid : String)
    (comp : DesignComponent) (sid notes chtml : String) (sessions : List DesignSession)
    (session : DesignSession)
    (hfind : sessions.find? (fun s => s.id == sid) = some session) :
    (generateVariation cap vid comp sid notes chtml 0 ⟨sessions, [], []⟩).prompts.head?
      = some (mkPrompt comp session.styleTheme session.designLanguage notes chtml) := by
  unfold generateVariation
  rw [hfind]
  cases hc : cap 0 with
  | success chunks => rfl
  | failure chunks e =>
    simp only []
    split
    · obtain ⟨t, ht⟩ := generateVariation_prompts_extend cap vid comp sid notes chtml 5 (0 + 1)
        { sessions := (streamChunks sid vid chunks "" sessions).2,
          prompts := ([] : List String) ++
            [mkPrompt comp session.styleTheme session.designLanguage notes chtml],
          sleeps := ([] : List Nat) ++ [2 ^ 0 * 10000] }
        (by omega)
      have h2 := congrArg List.head? ht
      rw [h2]
      rfl
    · rfl

/-! ### Claim C10: remix commits the updated affordances before generating -/

/-- C10: a confirmed remix (with the remixed variation and its module resolvable)
issues its generation call with a component whose base fields come from the owning
module and whose affordance list is exactly the updated one; at the moment the call
is issued, every copy of the owning module in the target session already carries the
updated affordances (the commit precedes the call); and the first prompt the
triggered generation submits is built from the updated affordance contract, not the
pre-edit one. -/
theorem remix_commits_before_generation
    (currentSession : DesignSession) (active : ActiveRemix) (notes : String)
    (updatedAffordances : List String) (sessions : List DesignSession)
    (v : ComponentVariation) (arch : DesignComponent)
    (hv : currentSession.variations.find? (fun x => x.id == active.id) = some v)
    (harch : currentSession.architecture.find? (fun a => a.id == v.componentId) = some arch) :
    (handleConfirmRemix currentSession active notes updatedAffordances sessions).2
        = some ⟨active.id, { arch with affordances := updatedAffordances },
            currentSession.id, notes, active.currentHtml⟩ ∧
    (∀ s ∈ (handleConfirmRemix currentSession active notes updatedAffordances sessions).1,
      s.id = currentSession.id →
        ∀ a ∈ s.architecture, a.id = v.componentId → a.affordances = updatedAffordances) ∧
    (∀ (cap : Nat → AttemptResult) (session' : DesignSession),
      ((handleConfirmRemix currentSession active notes updatedAffordances sessions).1.find?
          (fun s => s.id == currentSession.id)) = some session' →
      (generateVariation cap active.id { arch with affordances := updatedAffordances }
          currentSession.id notes active.currentHtml 0
          ⟨(handleConfirmRemix currentSession active notes updatedAffordances sessions).1,
            [], []⟩).prompts.head?
        = some (mkPrompt { arch with affordances := updatedAffordances }
            session'.styleTheme session'.designLanguage notes active.currentHtml)) := by
  refine ⟨?_, ?_, ?_⟩
  · unfold handleConfirmRemix
    rw [hv]
    simp only []
    rw [harch]
  · intro s hs hsid a ha haid
    unfold handleConfirmRemix at hs
    rw [hv] at hs
    simp only [] at hs
    rw [harch] at hs
    simp only [] at hs
    unfold remixStreamingReset at hs
    obtain ⟨s1, hs1, rfl⟩ := List.mem_map.mp hs
    unfold handleUpdateArchAffordances at hs1
    obtain ⟨s0, hs0, rfl⟩ := List.mem_map.mp hs1
    by_cases h0 : s0.id = currentSession.id
    · simp only [h0, beq_self_eq_true, if_pos] at ha ⊢
      have ha' : a ∈ (s0.architecture.map fun x =>
          if x.id == v.componentId then { x with affordances := updatedAffordances } else x) := by
        by_cases hinner : ((({s0 with architecture := s0.architecture.map fun x =>
            if x.id == v.componentId then { x with affordances := updatedAffordances } else x}
              : DesignSession).id == currentSession.id)) = true
        · simpa [hinner] using ha
        · simp [h0] at hinner
      obtain ⟨a0, ha0, rfl⟩ := List.mem_map.mp ha'
      by_cases hax : a0.id = v.componentId
      · simp [hax]
      · rw [if_neg (by simpa using hax)] at haid
        exact absurd haid hax
    · exfalso
      simp only [beq_iff_eq, h0, if_false] at hsid
  · intro cap session' hfind
    exact generateVariation_head_prompt cap active.id
      { arch with affordances := updatedAffordances } currentSession.id notes
      active.currentHtml _ session' hfind

/-- The `activeRemixVariation` record for remixing `v1` of `sess₀`. -/
def active₀ : ActiveRemix := ⟨"v1", "Primary Action", "<button>Old</button>", []⟩

/-- C10 witness: the issued call carries the updated affordance contract. -/
theorem remix_commits_before_generation_witness :
    (handleConfirmRemix sess₀ active₀ "make it red" ["Hover glow"] [sess₀]).2
      = some ⟨"v1", { comp₀ with affordances := ["Hover glow"] }, "s1", "make it red",
          "<button>Old</button>"⟩ :=
  (remix_commits_before_generation sess₀ active₀ "make it red" ["Hover glow"] [sess₀]
    ⟨"v1", "mod-a", "Noir", "", "", Status.pending, none⟩ comp₀
    (by decide) (by decide)).1

/-- C5 witness: one pending variation, a capability that always fails with message
`"HTTP 429"`. -/
theorem generateVariation_rate_limit_exhaustion_witness :
    (generateVariation (fun _ => AttemptResult.failure [] ⟨"HTTP 429", none⟩) "v1"
        ⟨"mod-a", "Primary Action", none, "d", [], none⟩ "s1" "" "" 0
        ⟨[⟨"s1", "Noir", "lang", 0, [],
          [⟨"v1", "mod-a", "Noir", "", "", Status.pending, none⟩]⟩], [], []⟩).prompts.length
        = ([] : List String).length + (MAX_RETRIES + 1) ∧
    (generateVariation (fun _ => AttemptResult.failure [] ⟨"HTTP 429", none⟩) "v1"
        ⟨"mod-a", "Primary Action", none, "d", [], none⟩ "s1" "" "" 0
        ⟨[⟨"s1", "Noir", "lang", 0, [],
          [⟨"v1", "mod-a", "Noir", "", "", Status.pending, none⟩]⟩], [], []⟩).sleeps
        = ([] : List Nat) ++ [10000, 20000, 40000, 80000, 160000] ∧
    ∃ s ∈ (generateVariation (fun _ => AttemptResult.failure [] ⟨"HTTP 429", none⟩) "v1"
        ⟨"mod-a", "Primary Action", none, "d", [], none⟩ "s1" "" "" 0
        ⟨[⟨"s1", "Noir", "lang", 0, [],
          [⟨"v1", "mod-a", "Noir", "", "", Status.pending, none⟩]⟩], [], []⟩).sessions,
      s.id = "s1" ∧ ∃ v ∈ s.variations, v.id = "v1" ∧ v.status = Status.error :=
  generateVariation_rate_limit_exhaustion (fun _ => AttemptResult.failure [] ⟨"HTTP 429", none⟩)
    (fun _ => ⟨[], ⟨"HTTP 429", none⟩, rfl, by decide⟩) "v1"
    ⟨"mod-a", "Primary Action", none, "d", [], none⟩ "s1" "" ""
    ⟨[⟨"s1", "Noir", "lang", 0, [],
      [⟨"v1", "mod-a", "Noir", "", "", Status.pending, none⟩]⟩], [], []⟩ (by decide)

/-!
### JSON serialization (src/index.tsx `JSON.stringify(session)` / `JSON.parse`,
src/unnamed/part_003 lines 870-872)

`JSON.stringify` / `JSON.parse` are modelled over a tree of JSON values.
Object fields keep insertion order, as JS objects do for non-numeric string
keys, and the program's sessions are built from object literals whose key
order is fixed by the source.  JSON numbers are carried as their literal
text (`Json.num`): the only numbers the program serializes are `Date.now()`
timestamps (natural numerals); the parser accepts any maximal run of
JS-numeral characters as a numeral, a superset of the JSON number grammar
that coincides with it on every numeral the serializer emits.
-/

def jsonWsB (c : Char) : Bool :=
  c == ' ' || c == '\t' || c == '\n' || c == '\x0d'

def skipWs (s : List Char) : List Char := s.dropWhile jsonWsB

def numChar (c : Char) : Bool :=
  c.isDigit || c == '-' || c == '+' || c == '.' || c == 'e' || c == 'E'

def numStart (c : Char) : Bool := c.isDigit || c == '-'

mutual

inductive Json where
  | null : Json
  | bool (b : Bool) : Json
  | num (t : List Char) : Json
  | str (s : List Char) : Json
  | arr (items : JsonList) : Json
  | obj (fields : JsonFields) : Json
deriving DecidableEq, Repr

inductive JsonList where
  | nil : JsonList
  | cons (hd : Json) (tl : JsonList) : JsonList
deriving DecidableEq, Repr

inductive JsonFields where
  | nil : JsonFields
  | cons (key : List Char) (val : Json) (tl : JsonFields) : JsonFields
deriving DecidableEq, Repr

end

/-- One hex digit, lowercase, as emitted by `JSON.stringify` for control
characters (`\u00XX`). -/
def hexDigitChar (n : Nat) : Char :=
  match n with
  | 0 => '0' | 1 => '1' | 2 => '2' | 3 => '3' | 4 => '4'
  | 5 => '5' | 6 => '6' | 7 => '7' | 8 => '8' | 9 => '9'
  | 10 => 'a' | 11 => 'b' | 12 => 'c' | 13 => 'd' | 14 => 'e'
  | _ => 'f'

/-- `JSON.stringify`'s string-character escaping: `"` and `\` are
backslash-escaped, the five control characters with short escapes use them,
any other control character below U+0020 becomes `\u00XX`, and every other
character is emitted as itself (`/` in particular is NOT escaped). -/
def escapeJsonChar (c : Char) : List Char :=
  if c = '"' then ['\\', '"']
  else if c = '\\' then ['\\', '\\']
  else if c = '\x08' then ['\\', 'b']
  else if c = '\t' then ['\\', 't']
  else if c = '\n' then ['\\', 'n']
  else if c = '\x0c' then ['\\', 'f']
  else if c = '\x0d' then ['\\', 'r']
  else if c.toNat < 32 then
    ['\\', 'u', '0', '0', hexDigitChar (c.toNat / 16), hexDigitChar (c.toNat % 16)]
  else [c]

def escapeJson (s : List Char) : List Char :=
  (s.map escapeJsonChar).flatten

mutual

def renderJson : Json → List Char
  | Json.null => "null".data
  | Json.bool true => "true".data
  | Json.bool false => "false".data
  | Json.num t => t
  | Json.str s => '"' :: (escapeJson s ++ ['"'])
  | Json.arr items => '[' :: (renderItems items ++ [']'])
  | Json.obj fields => '\x7b' :: (renderFields fields ++ ['\x7d'])

def renderItems : JsonList → List Char
  | JsonList.nil => []
  | JsonList.cons j JsonList.nil => renderJson j
  | JsonList.cons j (JsonList.cons j' tl) =>
      renderJson j ++ ',' :: renderItems (JsonList.cons j' tl)

def renderFields : JsonFields → List Char
  | JsonFields.nil => []
  | JsonFields.cons k v JsonFields.nil =>
      '"' :: (escapeJson k ++ '"' :: ':' :: renderJson v)
  | JsonFields.cons k v (JsonFields.cons k' v' tl) =>
      '"' :: (escapeJson k ++ '"' :: ':' :: renderJson v) ++
        ',' :: renderFields (JsonFields.cons k' v' tl)

end

def digitChar (n : Nat) : Char :=
  match n with
  | 0 => '0' | 1 => '1' | 2 => '2' | 3 => '3' | 4 => '4'
  | 5 => '5' | 6 => '6' | 7 => '7' | 8 => '8' | _ => '9'

def digitVal (c : Char) : Nat := c.toNat - 48

def natToDigitsAux : Nat → Nat → List Char → List Char
  | 0, n, acc => digitChar n :: acc
  | fuel + 1, n, acc =>
    if n < 10 then digitChar n :: acc
    else natToDigitsAux fuel (n / 10) (digitChar (n % 10) :: acc)

/-- Decimal digits of `n` prepended to `acc` (the numeral `String(n)` /
`JSON.stringify` emit for a natural number).  Structural fuel (`n` itself is
always enough) keeps the definition kernel-reducible. -/
def natToDigits (n : Nat) (acc : List Char) : List Char := natToDigitsAux n n acc

theorem natToDigitsAux_invariant : ∀ f1, ∀ {n : Nat}, ∀ f2 (acc : List Char), n ≤ f1 → n ≤ f2 →
    natToDigitsAux f1 n acc = natToDigitsAux f2 n acc := by
  intro f1
  induction f1 using Nat.strong_induction_on with
  | _ f1 ih =>
    intro n f2 acc h1 h2
    by_cases hn : n < 10
    · cases f1 with
      | zero =>
        cases f2 with
        | zero => rfl
        | succ f2' => simp [natToDigitsAux, hn]
      | succ f1' =>
        cases f2 with
        | zero =>
          have : n = 0 := by omega
          simp [natToDigitsAux, hn, this]
        | succ f2' => simp [natToDigitsAux, hn]
    · have hf1 : ∃ f1', f1 = f1' + 1 := ⟨f1 - 1, by omega⟩
      have hf2 : ∃ f2', f2 = f2' + 1 := ⟨f2 - 1, by omega⟩
      obtain ⟨f1', rfl⟩ := hf1
      obtain ⟨f2', rfl⟩ := hf2
      rw [natToDigitsAux, natToDigitsAux, if_neg hn, if_neg hn]
      exact ih f1' (by omega) f2' _ (by omega) (by omega)

def natToString (n : Nat) : List Char := natToDigits n []

def digitsToNat (t : List Char) : Nat :=
  t.foldl (fun a c => a * 10 + digitVal c) 0

def listToJsonList : List Json → JsonList
  | [] => JsonList.nil
  | j :: tl => JsonList.cons j (listToJsonList tl)

def jsonListToList : JsonList → List Json
  | JsonList.nil => []
  | JsonList.cons j tl => j :: jsonListToList tl

def fieldsOfList : List (List Char × Json) → JsonFields
  | [] => JsonFields.nil
  | (k, v) :: tl => JsonFields.cons k v (fieldsOfList tl)

def statusText : Status → List Char
  | Status.pending => "pending".data
  | Status.streaming => "streaming".data
  | Status.complete => "complete".data
  | Status.error => "error".data

/-- The JSON value `JSON.stringify` walks for a variation.  Key order is the
creation order of the source's object literals: the six literal keys, with
`notes` appended last when present (the only write that introduces it is a
spread `{ ...v, ..., notes }`, which appends a new key at the end). -/
def jsonOfVariation (v : ComponentVariation) : Json :=
  Json.obj (fieldsOfList
    ([("id".data, Json.str v.id.data),
      ("componentId".data, Json.str v.componentId.data),
      ("styleName".data, Json.str v.styleName.data),
      ("html".data, Json.str v.html.data),
      ("prompt".data, Json.str v.prompt.data),
      ("status".data, Json.str (statusText v.status))] ++
     (match v.notes with
      | none => []
      | some t => [("notes".data, Json.str t.data)])))

/-- The JSON value for an architecture module.  Optional keys are emitted in
the positions of the source's two object-literal shapes (`constants.ts` core
modules carry `category` after `name`; `handleAddModule` modules omit it). -/
def jsonOfComponent (c : DesignComponent) : Json :=
  Json.obj (fieldsOfList
    ([("id".data, Json.str c.id.data),
      ("name".data, Json.str c.name.data)] ++
     (match c.category with
      | none => []
      | some t => [("category".data, Json.str t.data)]) ++
     [("description".data, Json.str c.description.data),
      ("affordances".data, Json.arr (listToJsonList (c.affordances.map (fun a => Json.str a.data))))] ++
     (match c.baseHtml with
      | none => []
      | some t => [("baseHtml".data, Json.str t.data)])))

/-- The JSON value for a whole session (`handleApplyStyle`'s literal fixes
the key order). -/
def jsonOfSession (s : DesignSession) : Json :=
  Json.obj (fieldsOfList
    [("id".data, Json.str s.id.data),
     ("styleTheme".data, Json.str s.styleTheme.data),
     ("designLanguage".data, Json.str s.designLanguage.data),
     ("timestamp".data, Json.num (natToString s.timestamp)),
     ("architecture".data, Json.arr (listToJsonList (s.architecture.map jsonOfComponent))),
     ("variations".data, Json.arr (listToJsonList (s.variations.map jsonOfVariation)))])

/-- `JSON.stringify(session)`. -/
def jsonStringify (s : DesignSession) : List Char :=
  renderJson (jsonOfSession s)

def escDecode (e : Char) : Option Char :=
  if e = '"' then some '"'
  else if e = '\\' then some '\\'
  else if e = '/' then some '/'
  else if e = 'b' then some '\x08'
  else if e = 'f' then some '\x0c'
  else if e = 'n' then some '\n'
  else if e = 'r' then some '\x0d'
  else if e = 't' then some '\t'
  else none

def hexVal (c : Char) : Option Nat :=
  if c.isDigit then some (c.toNat - 48)
  else if 'a' ≤ c ∧ c ≤ 'f' then some (c.toNat - 87)
  else if 'A' ≤ c ∧ c ≤ 'F' then some (c.toNat - 55)
  else none

/-- Body of a JSON string after its opening quote: the decoded characters and
the text after the closing quote.  Raw control characters below U+0020 are
rejected, as in `JSON.parse`.  A `\uXXXX` escape denoting a lone surrogate is
decoded through `Char.ofNat`'s fallback (the program never emits one). -/
def parseStringBody : List Char → Option (List Char × List Char)
  | [] => none
  | c :: cs =>
    if c = '"' then some ([], cs)
    else if c = '\\' then
      match cs with
      | [] => none
      | 'u' :: h1 :: h2 :: h3 :: h4 :: cs' =>
        match hexVal h1, hexVal h2, hexVal h3, hexVal h4 with
        | some a, some b, some c2, some d =>
          (parseStringBody cs').map
            (fun pr => (Char.ofNat (((a * 16 + b) * 16 + c2) * 16 + d) :: pr.1, pr.2))
        | _, _, _, _ => none
      | e :: cs' =>
        match escDecode e with
        | some d => (parseStringBody cs').map (fun pr => (d :: pr.1, pr.2))
        | none => none
    else if c.toNat < 32 then none
    else (parseStringBody cs).map (fun pr => (c :: pr.1, pr.2))

mutual

def parseVal : Nat → List Char → Option (Json × List Char)
  | 0, _ => none
  | fuel + 1, s =>
    match skipWs s with
    | [] => none
    | c :: cs =>
      if c = 'n' then
        if startsWithL "ull".data cs then some (Json.null, cs.drop 3) else none
      else if c = 't' then
        if startsWithL "rue".data cs then some (Json.bool true, cs.drop 3) else none
      else if c = 'f' then
        if startsWithL "alse".data cs then some (Json.bool false, cs.drop 4) else none
      else if c = '"' then
        (parseStringBody cs).map (fun pr => (Json.str pr.1, pr.2))
      else if c = '[' then
        match skipWs cs with
        | ']' :: rest => some (Json.arr JsonList.nil, rest)
        | cs' => (parseItems fuel cs').map (fun pr => (Json.arr pr.1, pr.2))
      else if c = '\x7b' then
        match skipWs cs with
        | '\x7d' :: rest => some (Json.obj JsonFields.nil, rest)
        | cs' => (parseFields fuel cs').map (fun pr => (Json.obj pr.1, pr.2))
      else if numStart c then
        some (Json.num ((c :: cs).takeWhile numChar), (c :: cs).dropWhile numChar)
      else none

def parseItems : Nat → List Char → Option (JsonList × List Char)
  | 0, _ => none
  | fuel + 1, s =>
    match parseVal fuel s with
    | none => none
    | some (j, rest) =>
      match skipWs rest with
      | ',' :: rest' =>
        (parseItems fuel rest').map (fun pr => (JsonList.cons j pr.1, pr.2))
      | ']' :: rest' => some (JsonList.cons j JsonList.nil, rest')
      | _ => none

def parseFields : Nat → List Char → Option (JsonFields × List Char)
  | 0, _ => none
  | fuel + 1, s =>
    match skipWs s with
    | '"' :: cs =>
      match parseStringBody cs with
      | none => none
      | some (k, rest) =>
        match skipWs rest with
        | ':' :: rest' =>
          match parseVal fuel rest' with
          | none => none
          | some (v, rest'') =>
            match skipWs rest'' with
            | ',' :: r3 =>
              (parseFields fuel r3).map
                (fun pr => (JsonFields.cons k v pr.1, pr.2))
            | '\x7d' :: r3 => some (JsonFields.cons k v JsonFields.nil, r3)
            | _ => none
        | _ => none
    | _ => none

end

/-- `JSON.parse`: a single value, with nothing but whitespace after it.
`s.length + 1` units of fuel always suffice, as every recursive call consumes
at least one input character. -/
def jsonParse (s : List Char) : Option Json :=
  match parseVal (s.length + 1) s with
  | none => none
  | some (j, rest) => if skipWs rest = [] then some j else none

/-- First binding of a key (the serializer never emits duplicate keys). -/
def getField : JsonFields → List Char → Option Json
  | JsonFields.nil, _ => none
  | JsonFields.cons k v tl, key => if k = key then some v else getField tl key

def asStr : Option Json → Option String
  | some (Json.str s) => some (String.mk s)
  | _ => none

def asNatNum : Option Json → Option Nat
  | some (Json.num t) =>
    if t ≠ [] ∧ t.all Char.isDigit then some (digitsToNat t) else none
  | _ => none

def statusOfText (t : List Char) : Option Status :=
  if t = "pending".data then some Status.pending
  else if t = "streaming".data then some Status.streaming
  else if t = "complete".data then some Status.complete
  else if t = "error".data then some Status.error
  else none

def asStatus : Option Json → Option Status
  | some (Json.str t) => statusOfText t
  | _ => none

def decodeListWith {α : Type} (f : Json → Option α) : JsonList → Option (List α)
  | JsonList.nil => some []
  | JsonList.cons j tl =>
    match f j, decodeListWith f tl with
    | some a, some l => some (a :: l)
    | _, _ => none

def asStrList : Option Json → Option (List String)
  | some (Json.arr l) =>
    decodeListWith (fun j => match j with | Json.str s => some (String.mk s) | _ => none) l
  | _ => none

def asOptStrField (fields : JsonFields) (key : List Char) : Option (Option String) :=
  match getField fields key with
  | none => some none
  | some (Json.str t) => some (some (String.mk t))
  | some _ => none

/-- The `ComponentVariation` interface view of a parsed JSON value: the
fields the program reads, with the types the interface declares. -/
def variationOfJson : Json → Option ComponentVariation
  | Json.obj f =>
    match asStr (getField f "id".data), asStr (getField f "componentId".data),
          asStr (getField f "styleName".data), asStr (getField f "html".data),
          asStr (getField f "prompt".data), asStatus (getField f "status".data),
          asOptStrField f "notes".data with
    | some i, some ci, some sn, some h, some p, some st, some nt =>
      some ⟨i, ci, sn, h, p, st, nt⟩
    | _, _, _, _, _, _, _ => none
  | _ => none

def componentOfJson : Json → Option DesignComponent
  | Json.obj f =>
    match asStr (getField f "id".data), asStr (getField f "name".data),
          asOptStrField f "category".data, asStr (getField f "description".data),
          asStrList (getField f "affordances".data), asOptStrField f "baseHtml".data with
    | some i, some n, some c, some d, some a, some b => some ⟨i, n, c, d, a, b⟩
    | _, _, _, _, _, _ => none
  | _ => none

def sessionOfJson : Json → Option DesignSession
  | Json.obj f =>
    match asStr (getField f "id".data), asStr (getField f "styleTheme".data),
          asStr (getField f "designLanguage".data), asNatNum (getField f "timestamp".data),
          (match getField f "architecture".data with
           | some (Json.arr l) => decodeListWith componentOfJson l
           | _ => none),
          (match getField f "variations".data with
           | some (Json.arr l) => decodeListWith variationOfJson l
           | _ => none) with
    | some i, some th, some dl, some ts, some ar, some va => some ⟨i, th, dl, ts, ar, va⟩
    | _, _, _, _, _, _ => none
  | _ => none

theorem string_mk_data (s : String) : String.mk s.data = s := by cases s; rfl

theorem natToDigits_lt {n : Nat} (h : n < 10) (acc : List Char) :
    natToDigits n acc = digitChar n :: acc := by
  unfold natToDigits
  cases n with
  | zero => rfl
  | succ m => simp [natToDigitsAux, h]

theorem natToDigits_ge {n : Nat} (h : ¬n < 10) (acc : List Char) :
    natToDigits n acc = natToDigits (n / 10) (digitChar (n % 10) :: acc) := by
  unfold natToDigits
  have hn : ∃ m, n = m + 1 := ⟨n - 1, by omega⟩
  obtain ⟨m, rfl⟩ := hn
  rw [natToDigitsAux, if_neg h]
  exact natToDigitsAux_invariant m ((m + 1) / 10) _ (by omega) (le_refl _)

theorem natToDigits_eq_append (n : Nat) : ∀ acc, natToDigits n acc = natToDigits n [] ++ acc := by
  induction n using Nat.strong_induction_on with
  | _ n ih =>
    intro acc
    by_cases h : n < 10
    · rw [natToDigits_lt h acc, natToDigits_lt h []]
      rfl
    · rw [natToDigits_ge h acc, natToDigits_ge h []]
      rw [ih (n / 10) (Nat.div_lt_self (by omega) (by omega)) (digitChar (n % 10) :: acc),
          ih (n / 10) (Nat.div_lt_self (by omega) (by omega)) [digitChar (n % 10)]]
      simp

theorem digitVal_digitChar {n : Nat} (h : n < 10) : digitVal (digitChar n) = n := by
  interval_cases n <;> rfl

theorem digitChar_isDigit (n : Nat) : (digitChar n).isDigit = true := by
  unfold digitChar
  split <;> decide

theorem natToDigits_foldl (n : Nat) :
    ∀ a, (natToDigits n []).foldl (fun a c => a * 10 + digitVal c) a =
      a * 10 ^ (natToDigits n []).length + n := by
  induction n using Nat.strong_induction_on with
  | _ n ih =>
    intro a
    by_cases h : n < 10
    · rw [natToDigits_lt h []]
      simp [h, digitVal_digitChar h]
    · rw [natToDigits_ge h []]
      rw [natToDigits_eq_append (n / 10) [digitChar (n % 10)]]
      rw [List.foldl_append, List.length_append]
      rw [ih (n / 10) (Nat.div_lt_self (by omega) (by omega)) a]
      simp [digitVal_digitChar (Nat.mod_lt n (by omega)), pow_succ]
      ring_nf
      omega

theorem digitsToNat_natToString (n : Nat) : digitsToNat (natToString n) = n := by
  unfold digitsToNat natToString
  rw [natToDigits_foldl n 0]
  simp

theorem natToString_all_digit (n : Nat) : (natToString n).all Char.isDigit = true := by
  unfold natToString
  induction n using Nat.strong_induction_on with
  | _ n ih =>
    by_cases h : n < 10
    · rw [natToDigits_lt h []]
      simp [digitChar_isDigit]
    · rw [natToDigits_ge h []]
      rw [natToDigits_eq_append (n / 10) [digitChar (n % 10)]]
      rw [List.all_append]
      rw [ih (n / 10) (Nat.div_lt_self (by omega) (by omega))]
      simp [digitChar_isDigit]

theorem natToString_ne_nil (n : Nat) : natToString n ≠ [] := by
  unfold natToString
  by_cases h : n < 10
  · rw [natToDigits_lt h []]
    simp
  · rw [natToDigits_ge h [], natToDigits_eq_append (n / 10) [digitChar (n % 10)]]
    simp

theorem decodeListWith_round {α : Type} (f : Json → Option α) (g : α → Json)
    (h : ∀ a, f (g a) = some a) (l : List α) :
    decodeListWith f (listToJsonList (l.map g)) = some l := by
  induction l with
  | nil => rfl
  | cons a tl ih => simp [listToJsonList, decodeListWith, h a, ih]

theorem variationOfJson_round (v : ComponentVariation) :
    variationOfJson (jsonOfVariation v) = some v := by
  obtain ⟨i, ci, sn, h, p, st, nt⟩ := v
  cases nt <;> cases st <;>
    simp [jsonOfVariation, variationOfJson, fieldsOfList, getField, asStr, asStatus,
      asOptStrField, statusOfText, statusText, string_mk_data]

theorem componentOfJson_round (c : DesignComponent) :
    componentOfJson (jsonOfComponent c) = some c := by
  obtain ⟨i, n, cat, d, aff, bh⟩ := c
  have haff : asStrList (some (Json.arr (listToJsonList (aff.map (fun a => Json.str a.data)))))
      = some aff := by
    simp only [asStrList]
    exact decodeListWith_round _ _ (fun a => by simp [string_mk_data]) aff
  cases cat <;> cases bh <;>
    simp [jsonOfComponent, componentOfJson, fieldsOfList, getField, asStr,
      asOptStrField, string_mk_data, haff]

/-- Interface view of the serialized session: decoding the JSON value built
by `jsonOfSession` recovers the session exactly. -/
theorem sessionOfJson_round (s : DesignSession) :
    sessionOfJson (jsonOfSession s) = some s := by
  obtain ⟨i, th, dl, ts, ar, va⟩ := s
  have hts : asNatNum (some (Json.num (natToString ts))) = some ts := by
    simp [asNatNum, natToString_ne_nil, natToString_all_digit, digitsToNat_natToString]
  have har : decodeListWith componentOfJson (listToJsonList (ar.map jsonOfComponent)) = some ar :=
    decodeListWith_round _ _ componentOfJson_round ar
  have hva : decodeListWith variationOfJson (listToJsonList (va.map jsonOfVariation)) = some va :=
    decodeListWith_round _ _ variationOfJson_round va
  simp [jsonOfSession, sessionOfJson, fieldsOfList, getField, asStr, string_mk_data,
    hts, har, hva]

/-! Well-formedness: numeral texts are nonempty runs of numeral characters
starting like a JS number.  Every value the serializer builds is well-formed,
and `parseVal` inverts `renderJson` on well-formed values. -/

mutual

def jsonWF : Json → Bool
  | Json.null => true
  | Json.bool _ => true
  | Json.num t =>
    match t with
    | [] => false
    | c :: t' => numStart c && (c :: t').all numChar
  | Json.str _ => true
  | Json.arr items => jsonListWF items
  | Json.obj fields => jsonFieldsWF fields

def jsonListWF : JsonList → Bool
  | JsonList.nil => true
  | JsonList.cons j tl => jsonWF j && jsonListWF tl

def jsonFieldsWF : JsonFields → Bool
  | JsonFields.nil => true
  | JsonFields.cons _ v tl => jsonWF v && jsonFieldsWF tl

end

mutual

def fuelJson : Json → Nat
  | Json.arr items => fuelList items + 1
  | Json.obj fields => fuelFields fields + 1
  | _ => 1

def fuelList : JsonList → Nat
  | JsonList.nil => 1
  | JsonList.cons j tl => max (fuelJson j) (fuelList tl) + 1

def fuelFields : JsonFields → Nat
  | JsonFields.nil => 1
  | JsonFields.cons _ v tl => max (fuelJson v) (fuelFields tl) + 1

end

def restNotNum : List Char → Bool
  | [] => true
  | c :: _ => !numChar c

theorem startsWithL_self_append (p t : List Char) : startsWithL p (p ++ t) = true := by
  induction p with
  | nil => rfl
  | cons c cs ih => simp [startsWithL, ih]

theorem skipWs_cons {c : Char} {s : List Char} (h : jsonWsB c = false) :
    skipWs (c :: s) = c :: s := by
  simp [skipWs, List.dropWhile, h]

theorem takeWhile_all_append {p : Char → Bool} {t rest : List Char}
    (h : t.all p = true) (hrp : match rest with
      | [] => True
      | c :: _ => p c = false) :
    (t ++ rest).takeWhile p = t ∧ (t ++ rest).dropWhile p = rest := by
  induction t with
  | nil =>
    cases rest with
    | nil => simp
    | cons c cs => simp_all [List.takeWhile, List.dropWhile]
  | cons c cs ih =>
    simp only [List.all_cons, Bool.and_eq_true] at h
    have := ih h.2
    simp_all [List.takeWhile, List.dropWhile]

theorem fuelJson_pos (j : Json) : 1 ≤ fuelJson j := by
  cases j <;> simp [fuelJson]

theorem fuelList_pos (l : JsonList) : 1 ≤ fuelList l := by
  cases l <;> simp [fuelList]

theorem fuelFields_pos (f : JsonFields) : 1 ≤ fuelFields f := by
  cases f <;> simp [fuelFields]

theorem psb_quote (s : List Char) : parseStringBody ('"' :: s) = some ([], s) := by
  conv_lhs => rw [parseStringBody.eq_def]
  simp

theorem psb_esc_q (s : List Char) :
    parseStringBody ('\\' :: '"' :: s) = (parseStringBody s).map (fun pr => ('"' :: pr.1, pr.2)) := rfl

theorem psb_esc_bs (s : List Char) :
    parseStringBody ('\\' :: '\\' :: s) = (parseStringBody s).map (fun pr => ('\\' :: pr.1, pr.2)) := rfl

theorem psb_esc_b (s : List Char) :
    parseStringBody ('\\' :: 'b' :: s) = (parseStringBody s).map (fun pr => ('\x08' :: pr.1, pr.2)) := rfl

theorem psb_esc_t (s : List Char) :
    parseStringBody ('\\' :: 't' :: s) = (parseStringBody s).map (fun pr => ('\t' :: pr.1, pr.2)) := rfl

theorem psb_esc_n (s : List Char) :
    parseStringBody ('\\' :: 'n' :: s) = (parseStringBody s).map (fun pr => ('\n' :: pr.1, pr.2)) := rfl

theorem psb_esc_f (s : List Char) :
    parseStringBody ('\\' :: 'f' :: s) = (parseStringBody s).map (fun pr => ('\x0c' :: pr.1, pr.2)) := rfl

theorem psb_esc_r (s : List Char) :
    parseStringBody ('\\' :: 'r' :: s) = (parseStringBody s).map (fun pr => ('\x0d' :: pr.1, pr.2)) := rfl

theorem psb_plain {c : Char} (h1 : ¬c = '"') (h2 : ¬c = '\\') (h3 : ¬c.toNat < 32)
    (s : List Char) :
    parseStringBody (c :: s) = (parseStringBody s).map (fun pr => (c :: pr.1, pr.2)) := by
  conv_lhs => rw [parseStringBody.eq_def]
  simp [h1, h2, h3]

theorem psb_u {h1 h2 h3 h4 : Char} {a b c2 d : Nat}
    (hv1 : hexVal h1 = some a) (hv2 : hexVal h2 = some b)
    (hv3 : hexVal h3 = some c2) (hv4 : hexVal h4 = some d) (s : List Char) :
    parseStringBody ('\\' :: 'u' :: h1 :: h2 :: h3 :: h4 :: s) =
      (parseStringBody s).map
        (fun pr => (Char.ofNat (((a * 16 + b) * 16 + c2) * 16 + d) :: pr.1, pr.2)) := by
  conv_lhs => rw [parseStringBody.eq_def]
  simp [hv1, hv2, hv3, hv4]

theorem hexVal_hexDigitChar {m : Nat} (h : m < 16) : hexVal (hexDigitChar m) = some m := by
  interval_cases m <;> decide

theorem escapeJson_cons (c : Char) (s : List Char) :
    escapeJson (c :: s) = escapeJsonChar c ++ escapeJson s := by
  simp [escapeJson]

/-- Decoding inverts `JSON.stringify`'s escaping, character by character. -/
theorem parseStringBody_escape (s : List Char) (rest : List Char) :
    parseStringBody (escapeJson s ++ '"' :: rest) = some (s, rest) := by
  induction s with
  | nil => simpa [escapeJson] using psb_quote rest
  | cons c s ih =>
    rw [escapeJson_cons, List.append_assoc]
    by_cases hq : c = '"'
    · subst hq
      show parseStringBody ('\\' :: '"' :: (escapeJson s ++ '"' :: rest)) = _
      rw [psb_esc_q, ih]; rfl
    · by_cases hb : c = '\\'
      · subst hb
        show parseStringBody ('\\' :: '\\' :: (escapeJson s ++ '"' :: rest)) = _
        rw [psb_esc_bs, ih]; rfl
      · by_cases h8 : c = '\x08'
        · subst h8
          show parseStringBody ('\\' :: 'b' :: (escapeJson s ++ '"' :: rest)) = _
          rw [psb_esc_b, ih]; rfl
        · by_cases ht : c = '\t'
          · subst ht
            show parseStringBody ('\\' :: 't' :: (escapeJson s ++ '"' :: rest)) = _
            rw [psb_esc_t, ih]; rfl
          · by_cases hn : c = '\n'
            · subst hn
              show parseStringBody ('\\' :: 'n' :: (escapeJson s ++ '"' :: rest)) = _
              rw [psb_esc_n, ih]; rfl
            · by_cases hc : c = '\x0c'
              · subst hc
                show parseStringBody ('\\' :: 'f' :: (escapeJson s ++ '"' :: rest)) = _
                rw [psb_esc_f, ih]; rfl
              · by_cases hr : c = '\x0d'
                · subst hr
                  show parseStringBody ('\\' :: 'r' :: (escapeJson s ++ '"' :: rest)) = _
                  rw [psb_esc_r, ih]; rfl
                · by_cases hlt : c.toNat < 32
                  · rw [show escapeJsonChar c =
                        ['\\', 'u', '0', '0', hexDigitChar (c.toNat / 16),
                          hexDigitChar (c.toNat % 16)] from by
                      rw [escapeJsonChar, if_neg hq, if_neg hb, if_neg h8, if_neg ht,
                        if_neg hn, if_neg hc, if_neg hr, if_pos hlt]]
                    show parseStringBody ('\\' :: 'u' :: '0' :: '0' ::
                      hexDigitChar (c.toNat / 16) :: hexDigitChar (c.toNat % 16) ::
                      (escapeJson s ++ '"' :: rest)) = _
                    rw [@psb_u '0' '0' _ _ 0 0 _ _ (by decide) (by decide)
                        (hexVal_hexDigitChar (by omega))
                        (hexVal_hexDigitChar (Nat.mod_lt _ (by omega))) _, ih]
                    have harith : ((0 * 16 + 0) * 16 + c.toNat / 16) * 16 + c.toNat % 16
                        = c.toNat := by omega
                    rw [harith, Char.ofNat_toNat]
                    rfl
                  · rw [show escapeJsonChar c = [c] from by
                      rw [escapeJsonChar, if_neg hq, if_neg hb, if_neg h8, if_neg ht,
                        if_neg hn, if_neg hc, if_neg hr, if_neg hlt]]
                    show parseStringBody (c :: (escapeJson s ++ '"' :: rest)) = _
                    rw [psb_plain hq hb hlt, ih]
                    rfl

theorem digit_not_special {c : Char} (h : c.isDigit = true) :
    ¬c = 'n' ∧ ¬c = 't' ∧ ¬c = 'f' ∧ ¬c = '"' ∧ ¬c = '[' ∧ ¬c = '\x7b' ∧
      jsonWsB c = false ∧ ¬c = ']' ∧ ¬c = '\x7d' := by
  have hne : ∀ d : Char, d.isDigit = false → ¬c = d := by
    intro d hd hcd
    rw [hcd, hd] at h
    exact Bool.false_ne_true h
  have wsf : jsonWsB c = false := by
    unfold jsonWsB
    rw [show (c == ' ') = false from beq_eq_false_iff_ne.mpr (hne ' ' (by decide)),
        show (c == '\t') = false from beq_eq_false_iff_ne.mpr (hne '\t' (by decide)),
        show (c == '\n') = false from beq_eq_false_iff_ne.mpr (hne '\n' (by decide)),
        show (c == '\x0d') = false from beq_eq_false_iff_ne.mpr (hne '\x0d' (by decide))]
    rfl
  exact ⟨hne 'n' (by decide), hne 't' (by decide), hne 'f' (by decide), hne '"' (by decide),
    hne '[' (by decide), hne '\x7b' (by decide), wsf, hne ']' (by decide), hne '\x7d' (by decide)⟩

theorem numStart_not_special {c : Char} (h : numStart c = true) :
    ¬c = 'n' ∧ ¬c = 't' ∧ ¬c = 'f' ∧ ¬c = '"' ∧ ¬c = '[' ∧ ¬c = '\x7b' ∧
      jsonWsB c = false ∧ ¬c = ']' ∧ ¬c = '\x7d' := by
  simp only [numStart, Bool.or_eq_true, beq_iff_eq] at h
  rcases h with h | h
  · exact digit_not_special h
  · subst h
    refine ⟨?_, ?_, ?_, ?_, ?_, ?_, ?_, ?_, ?_⟩ <;> decide

theorem renderJson_head (j : Json) (hwf : jsonWF j = true) :
    ∃ c t, renderJson j = c :: t ∧ jsonWsB c = false ∧ ¬c = ']' ∧ ¬c = '\x7d' := by
  cases j with
  | null => exact ⟨'n', "ull".data, rfl, by decide, by decide, by decide⟩
  | bool b =>
    cases b with
    | true => exact ⟨'t', "rue".data, rfl, by decide, by decide, by decide⟩
    | false => exact ⟨'f', "alse".data, rfl, by decide, by decide, by decide⟩
  | num t =>
    match t, hwf with
    | c :: t', hwf =>
      have hns : numStart c = true := by
        simp only [jsonWF, Bool.and_eq_true] at hwf
        exact hwf.1
      obtain ⟨-, -, -, -, -, -, hws, h1, h2⟩ := numStart_not_special hns
      exact ⟨c, t', rfl, hws, h1, h2⟩
  | str s => exact ⟨'"', escapeJson s ++ ['"'], rfl, by decide, by decide, by decide⟩
  | arr items => exact ⟨'[', renderItems items ++ [']'], rfl, by decide, by decide, by decide⟩
  | obj fields =>
    exact ⟨'\x7b', renderFields fields ++ ['\x7d'], rfl, by decide, by decide, by decide⟩

theorem pv_null (fuel : Nat) (rest : List Char) :
    parseVal (fuel + 1) ("null".data ++ rest) = some (Json.null, rest) := by
  show parseVal (fuel + 1) ('n' :: ("ull".data ++ rest)) = _
  rw [parseVal, skipWs_cons (by decide)]
  simp only []
  simp only [ite_true]
  rw [if_pos (startsWithL_self_append "ull".data rest)]
  simp [show ("ull".data ++ rest).drop 3 = rest from by simpa using List.drop_left "ull".data rest]

theorem pv_true (fuel : Nat) (rest : List Char) :
    parseVal (fuel + 1) ("true".data ++ rest) = some (Json.bool true, rest) := by
  show parseVal (fuel + 1) ('t' :: ("rue".data ++ rest)) = _
  rw [parseVal, skipWs_cons (by decide)]
  simp only []
  rw [if_neg (by decide)]
  simp only [ite_true]
  rw [if_pos (startsWithL_self_append "rue".data rest)]
  simp [show ("rue".data ++ rest).drop 3 = rest from by simpa using List.drop_left "rue".data rest]

theorem pv_false (fuel : Nat) (rest : List Char) :
    parseVal (fuel + 1) ("false".data ++ rest) = some (Json.bool false, rest) := by
  show parseVal (fuel + 1) ('f' :: ("alse".data ++ rest)) = _
  rw [parseVal, skipWs_cons (by decide)]
  simp only []
  rw [if_neg (by decide), if_neg (by decide)]
  simp only [ite_true]
  rw [if_pos (startsWithL_self_append "alse".data rest)]
  simp [show ("alse".data ++ rest).drop 4 = rest from by
    simpa using List.drop_left "alse".data rest]

theorem pv_quote (fuel : Nat) (s' : List Char) :
    parseVal (fuel + 1) ('"' :: s') = (parseStringBody s').map (fun pr => (Json.str pr.1, pr.2)) := by
  rw [parseVal, skipWs_cons (by decide)]
  simp only []
  rw [if_neg (by decide), if_neg (by decide), if_neg (by decide)]
  simp only [ite_true]

theorem pv_num (fuel : Nat) (c : Char) (t' rest : List Char)
    (hall : (c :: t').all numChar = true) (hns : numStart c = true)
    (hrest : restNotNum rest = true) :
    parseVal (fuel + 1) ((c :: t') ++ rest) = some (Json.num (c :: t'), rest) := by
  obtain ⟨h1, h2, h3, h4, h5, h6, hws, -, -⟩ := numStart_not_special hns
  have htake := @takeWhile_all_append numChar (c :: t') rest hall
    (by cases rest with
        | nil => trivial
        | cons r rs =>
          simp only [restNotNum, Bool.not_eq_true'] at hrest
          exact hrest)
  show parseVal (fuel + 1) (c :: (t' ++ rest)) = _
  rw [parseVal, skipWs_cons hws]
  simp only []
  rw [if_neg h1, if_neg h2, if_neg h3, if_neg h4, if_neg h5, if_neg h6, if_pos hns]
  rw [show (c :: (t' ++ rest)) = (c :: t') ++ rest from rfl, htake.1, htake.2]

theorem pv_arr_nil (fuel : Nat) (rest : List Char) :
    parseVal (fuel + 1) ('[' :: ']' :: rest) = some (Json.arr JsonList.nil, rest) := by
  rw [parseVal, skipWs_cons (by decide)]
  simp only []
  rw [if_neg (by decide), if_neg (by decide), if_neg (by decide), if_neg (by decide)]
  simp only [ite_true]
  rw [skipWs_cons (by decide)]
  rfl

theorem pv_arr_cons (fuel : Nat) (c0 : Char) (t0 : List Char)
    (hws : jsonWsB c0 = false) (hne : ¬c0 = ']') :
    parseVal (fuel + 1) ('[' :: c0 :: t0) =
      (parseItems fuel (c0 :: t0)).map (fun pr => (Json.arr pr.1, pr.2)) := by
  rw [parseVal, skipWs_cons (by decide)]
  simp only []
  rw [if_neg (by decide), if_neg (by decide), if_neg (by decide), if_neg (by decide)]
  simp only [ite_true]
  rw [skipWs_cons hws]
  split
  · rename_i rest' heq
    exact absurd (List.head_eq_of_cons_eq heq) (by simpa using hne)
  · rfl

theorem pv_obj_nil (fuel : Nat) (rest : List Char) :
    parseVal (fuel + 1) ('\x7b' :: '\x7d' :: rest) = some (Json.obj JsonFields.nil, rest) := by
  rw [parseVal, skipWs_cons (by decide)]
  simp only []
  rw [if_neg (by decide), if_neg (by decide), if_neg (by decide), if_neg (by decide),
    if_neg (by decide)]
  simp only [ite_true]
  rw [skipWs_cons (by decide)]
  rfl

theorem pv_obj_cons (fuel : Nat) (c0 : Char) (t0 : List Char)
    (hws : jsonWsB c0 = false) (hne : ¬c0 = '\x7d') :
    parseVal (fuel + 1) ('\x7b' :: c0 :: t0) =
      (parseFields fuel (c0 :: t0)).map (fun pr => (Json.obj pr.1, pr.2)) := by
  rw [parseVal, skipWs_cons (by decide)]
  simp only []
  rw [if_neg (by decide), if_neg (by decide), if_neg (by decide), if_neg (by decide),
    if_neg (by decide)]
  simp only [ite_true]
  rw [skipWs_cons hws]
  split
  · rename_i rest' heq
    exact absurd (List.head_eq_of_cons_eq heq) (by simpa using hne)
  · rfl

theorem pi_last {fuel : Nat} {s : List Char} {j : Json} {rest : List Char}
    (hpv : parseVal fuel s = some (j, ']' :: rest)) :
    parseItems (fuel + 1) s = some (JsonList.cons j JsonList.nil, rest) := by
  rw [parseItems, hpv]
  simp only []
  rw [skipWs_cons (by decide)]
  rfl

theorem pi_comma {fuel : Nat} {s : List Char} {j : Json} {rest' : List Char}
    (hpv : parseVal fuel s = some (j, ',' :: rest')) :
    parseItems (fuel + 1) s =
      (parseItems fuel rest').map (fun pr => (JsonList.cons j pr.1, pr.2)) := by
  rw [parseItems, hpv]
  simp only []
  rw [skipWs_cons (by decide)]
  rfl

theorem pf_last {fuel : Nat} {k : List Char} {v : Json} {X rest : List Char}
    (hpv : parseVal fuel X = some (v, '\x7d' :: rest)) :
    parseFields (fuel + 1) ('"' :: (escapeJson k ++ '"' :: ':' :: X)) =
      some (JsonFields.cons k v JsonFields.nil, rest) := by
  rw [parseFields, skipWs_cons (by decide)]
  simp only []
  rw [parseStringBody_escape k (':' :: X)]
  simp only []
  rw [skipWs_cons (by decide)]
  simp only []
  rw [hpv]
  simp only []
  rw [skipWs_cons (by decide)]
  rfl

theorem pf_comma {fuel : Nat} {k : List Char} {v : Json} {X r3 : List Char}
    (hpv : parseVal fuel X = some (v, ',' :: r3)) :
    parseFields (fuel + 1) ('"' :: (escapeJson k ++ '"' :: ':' :: X)) =
      (parseFields fuel r3).map (fun pr => (JsonFields.cons k v pr.1, pr.2)) := by
  rw [parseFields, skipWs_cons (by decide)]
  simp only []
  rw [parseStringBody_escape k (':' :: X)]
  simp only []
  rw [skipWs_cons (by decide)]
  simp only []
  rw [hpv]
  simp only []
  rw [skipWs_cons (by decide)]
  rfl

theorem renderItems_cons_decomp (j : Json) (tl : JsonList) :
    ∃ t, renderItems (JsonList.cons j tl) = renderJson j ++ t := by
  cases tl with
  | nil => exact ⟨[], by simp [renderItems]⟩
  | cons j' tl' => exact ⟨',' :: renderItems (JsonList.cons j' tl'), by simp [renderItems]⟩

theorem renderFields_cons_head (k : List Char) (v : Json) (tl : JsonFields) :
    ∃ t, renderFields (JsonFields.cons k v tl) = '"' :: t := by
  cases tl with
  | nil => exact ⟨escapeJson k ++ '"' :: ':' :: renderJson v, by simp [renderFields]⟩
  | cons k' v' tl' =>
    exact ⟨(escapeJson k ++ '"' :: ':' :: renderJson v) ++
      ',' :: renderFields (JsonFields.cons k' v' tl'), by simp [renderFields]⟩

/-- Core parser/renderer inversion, by induction on fuel: with enough fuel,
parsing a rendered well-formed value consumes exactly the rendered text. -/
theorem parse_render_fuel (fuel : Nat) :
    (∀ j rest, jsonWF j = true → fuelJson j ≤ fuel → restNotNum rest = true →
      parseVal fuel (renderJson j ++ rest) = some (j, rest)) ∧
    (∀ j tl rest, jsonListWF (JsonList.cons j tl) = true →
      fuelList (JsonList.cons j tl) ≤ fuel →
      parseItems fuel (renderItems (JsonList.cons j tl) ++ ']' :: rest) =
        some (JsonList.cons j tl, rest)) ∧
    (∀ k v tl rest, jsonFieldsWF (JsonFields.cons k v tl) = true →
      fuelFields (JsonFields.cons k v tl) ≤ fuel →
      parseFields fuel (renderFields (JsonFields.cons k v tl) ++ '\x7d' :: rest) =
        some (JsonFields.cons k v tl, rest)) := by
  induction fuel with
  | zero =>
    refine ⟨?_, ?_, ?_⟩
    · intro j rest _ hfu _
      exact absurd hfu (by have := fuelJson_pos j; omega)
    · intro j tl rest _ hfu
      exact absurd hfu (by have := fuelList_pos (JsonList.cons j tl); omega)
    · intro k v tl rest _ hfu
      exact absurd hfu (by have := fuelFields_pos (JsonFields.cons k v tl); omega)
  | succ fuel ih =>
    obtain ⟨ihV, ihI, ihF⟩ := ih
    refine ⟨?_, ?_, ?_⟩
    · intro j rest hwf hfu hrest
      cases j with
      | null => exact pv_null fuel rest
      | bool b =>
        cases b with
        | true => exact pv_true fuel rest
        | false => exact pv_false fuel rest
      | num t =>
        cases t with
        | nil => simp [jsonWF] at hwf
        | cons c t' =>
          simp only [jsonWF, Bool.and_eq_true] at hwf
          exact pv_num fuel c t' rest hwf.2 hwf.1 hrest
      | str s =>
        have hsh : renderJson (Json.str s) ++ rest = '"' :: (escapeJson s ++ '"' :: rest) := by
          simp [renderJson]
        rw [hsh, pv_quote, parseStringBody_escape]
        rfl
      | arr items =>
        cases items with
        | nil => exact pv_arr_nil fuel rest
        | cons j tl =>
          simp only [jsonWF, jsonListWF, Bool.and_eq_true] at hwf
          simp only [fuelJson] at hfu
          have hfl : fuelList (JsonList.cons j tl) ≤ fuel := by omega
          obtain ⟨t, hit⟩ := renderItems_cons_decomp j tl
          obtain ⟨c0, t0, hre, hws, hne1, hne2⟩ := renderJson_head j hwf.1
          have hsh : renderJson (Json.arr (JsonList.cons j tl)) ++ rest =
              '[' :: c0 :: (t0 ++ (t ++ ']' :: rest)) := by
            simp only [renderJson]
            rw [hit, hre]
            simp
          rw [hsh, pv_arr_cons fuel c0 _ hws hne1]
          have harg : c0 :: (t0 ++ (t ++ ']' :: rest)) =
              renderItems (JsonList.cons j tl) ++ ']' :: rest := by
            rw [hit, hre]
            simp
          rw [harg, ihI j tl rest (by simp [jsonListWF, hwf.1, hwf.2]) hfl]
          rfl
      | obj fields =>
        cases fields with
        | nil => exact pv_obj_nil fuel rest
        | cons k v tl =>
          simp only [jsonWF, jsonFieldsWF, Bool.and_eq_true] at hwf
          simp only [fuelJson] at hfu
          have hff : fuelFields (JsonFields.cons k v tl) ≤ fuel := by omega
          obtain ⟨t, hft⟩ := renderFields_cons_head k v tl
          have hsh : renderJson (Json.obj (JsonFields.cons k v tl)) ++ rest =
              '\x7b' :: '"' :: (t ++ ('\x7d' :: rest)) := by
            simp only [renderJson]
            rw [hft]
            simp
          rw [hsh, pv_obj_cons fuel '"' _ (by decide) (by decide)]
          have harg : '"' :: (t ++ ('\x7d' :: rest)) =
              renderFields (JsonFields.cons k v tl) ++ '\x7d' :: rest := by
            rw [hft]
            simp
          rw [harg, ihF k v tl rest (by simp [jsonFieldsWF, hwf.1, hwf.2]) hff]
          rfl
    · intro j tl rest hwf hfu
      simp only [jsonListWF, Bool.and_eq_true] at hwf
      simp only [fuelList] at hfu
      have hmax : max (fuelJson j) (fuelList tl) ≤ fuel := Nat.le_of_succ_le_succ hfu
      have hj : fuelJson j ≤ fuel := le_trans (le_max_left _ _) hmax
      have htl : fuelList tl ≤ fuel := le_trans (le_max_right _ _) hmax
      cases tl with
      | nil =>
        have hpv := ihV j (']' :: rest) hwf.1 hj rfl
        have hsh : renderItems (JsonList.cons j JsonList.nil) ++ ']' :: rest =
            renderJson j ++ ']' :: rest := by
          simp [renderItems]
        rw [hsh]
        exact pi_last hpv
      | cons j' tl' =>
        have hpv := ihV j (',' :: (renderItems (JsonList.cons j' tl') ++ ']' :: rest))
          hwf.1 hj rfl
        have hsh : renderItems (JsonList.cons j (JsonList.cons j' tl')) ++ ']' :: rest =
            renderJson j ++ (',' :: (renderItems (JsonList.cons j' tl') ++ ']' :: rest)) := by
          simp [renderItems]
        rw [hsh, pi_comma hpv, ihI j' tl' rest hwf.2 htl]
        rfl
    · intro k v tl rest hwf hfu
      simp only [jsonFieldsWF, Bool.and_eq_true] at hwf
      simp only [fuelFields] at hfu
      have hmax : max (fuelJson v) (fuelFields tl) ≤ fuel := Nat.le_of_succ_le_succ hfu
      have hv : fuelJson v ≤ fuel := le_trans (le_max_left _ _) hmax
      have htl : fuelFields tl ≤ fuel := le_trans (le_max_right _ _) hmax
      cases tl with
      | nil =>
        have hpv := ihV v ('\x7d' :: rest) hwf.1 hv rfl
        have hsh : renderFields (JsonFields.cons k v JsonFields.nil) ++ '\x7d' :: rest =
            '"' :: (escapeJson k ++ '"' :: ':' :: (renderJson v ++ '\x7d' :: rest)) := by
          simp [renderFields]
        rw [hsh]
        exact pf_last hpv
      | cons k' v' tl' =>
        have hpv := ihV v
          (',' :: (renderFields (JsonFields.cons k' v' tl') ++ '\x7d' :: rest)) hwf.1 hv rfl
        have hsh : renderFields (JsonFields.cons k v (JsonFields.cons k' v' tl')) ++ '\x7d' :: rest =
            '"' :: (escapeJson k ++ '"' :: ':' ::
              (renderJson v ++ ',' :: (renderFields (JsonFields.cons k' v' tl') ++ '\x7d' :: rest))) := by
          simp [renderFields]
        rw [hsh, pf_comma hpv, ihF k' v' tl' rest hwf.2 htl]
        rfl

mutual

theorem fuelJson_le (j : Json) : fuelJson j ≤ (renderJson j).length + 1 := by
  cases j with
  | null => simp [fuelJson, renderJson]
  | bool b => cases b <;> simp [fuelJson, renderJson]
  | num t => simp [fuelJson, renderJson]
  | str s => simp [fuelJson, renderJson]
  | arr items =>
    have h := fuelList_le items
    simp only [fuelJson, renderJson, List.length_cons, List.length_append]
    omega
  | obj fields =>
    have h := fuelFields_le fields
    simp only [fuelJson, renderJson, List.length_cons, List.length_append]
    omega

theorem fuelList_le (l : JsonList) : fuelList l ≤ (renderItems l).length + 2 := by
  cases l with
  | nil => simp [fuelList, renderItems]
  | cons j tl =>
    have hj := fuelJson_le j
    cases tl with
    | nil =>
      simp only [fuelList, renderItems]
      omega
    | cons j' tl' =>
      have htl := fuelList_le (JsonList.cons j' tl')
      simp only [fuelList, renderItems, List.length_append, List.length_cons] at htl ⊢
      omega

theorem fuelFields_le (f : JsonFields) : fuelFields f ≤ (renderFields f).length + 2 := by
  cases f with
  | nil => simp [fuelFields, renderFields]
  | cons k v tl =>
    have hv := fuelJson_le v
    cases tl with
    | nil =>
      simp only [fuelFields, renderFields, List.length_append, List.length_cons]
      omega
    | cons k' v' tl' =>
      have htl := fuelFields_le (JsonFields.cons k' v' tl')
      simp only [fuelFields, renderFields, List.length_append, List.length_cons] at htl ⊢
      omega

end

/-- `JSON.parse` inverts rendering of any well-formed JSON value. -/
theorem jsonParse_render {j : Json} (hwf : jsonWF j = true) :
    jsonParse (renderJson j) = some j := by
  unfold jsonParse
  have h := (parse_render_fuel ((renderJson j).length + 1)).1 j [] hwf
    (by have := fuelJson_le j; omega) rfl
  rw [List.append_nil] at h
  rw [h]
  rfl

theorem numChar_of_digit {c : Char} (h : c.isDigit = true) : numChar c = true := by
  simp [numChar, h]

theorem jsonWF_natNum (n : Nat) : jsonWF (Json.num (natToString n)) = true := by
  have h1 := natToString_ne_nil n
  have h2 := natToString_all_digit n
  obtain ⟨c, t', heq⟩ : ∃ c t', natToString n = c :: t' := by
    cases hn : natToString n with
    | nil => exact absurd hn h1
    | cons c t' => exact ⟨c, t', rfl⟩
  rw [heq] at h2 ⊢
  simp only [jsonWF]
  have hc : c.isDigit = true := by
    simp only [List.all_cons, Bool.and_eq_true] at h2
    exact h2.1
  simp only [List.all_eq_true] at h2
  simp only [numStart, hc, Bool.true_or, Bool.true_and, List.all_eq_true]
  intro x hx
  exact numChar_of_digit (h2 x hx)

theorem jsonListWF_map {α : Type} (g : α → Json) (l : List α)
    (h : ∀ a ∈ l, jsonWF (g a) = true) :
    jsonListWF (listToJsonList (l.map g)) = true := by
  induction l with
  | nil => rfl
  | cons a tl ih =>
    simp only [List.map_cons, listToJsonList, jsonListWF, Bool.and_eq_true]
    exact ⟨h a (by simp), ih (fun x hx => h x (by simp [hx]))⟩

theorem jsonWF_variation (v : ComponentVariation) : jsonWF (jsonOfVariation v) = true := by
  cases hv : v.notes <;>
    simp [jsonOfVariation, hv, fieldsOfList, jsonWF, jsonFieldsWF]

theorem jsonWF_component (c : DesignComponent) : jsonWF (jsonOfComponent c) = true := by
  have haff : jsonListWF (listToJsonList (c.affordances.map (fun a => Json.str a.data))) = true :=
    jsonListWF_map _ _ (fun a _ => rfl)
  cases hc : c.category <;> cases hb : c.baseHtml <;>
    simp [jsonOfComponent, hc, hb, fieldsOfList, jsonWF, jsonFieldsWF, haff]

/-- The serialized session is well-formed JSON. -/
theorem jsonWF_jsonOfSession (s : DesignSession) : jsonWF (jsonOfSession s) = true := by
  have har : jsonListWF (listToJsonList (s.architecture.map jsonOfComponent)) = true :=
    jsonListWF_map _ _ (fun a _ => jsonWF_component a)
  have hva : jsonListWF (listToJsonList (s.variations.map jsonOfVariation)) = true :=
    jsonListWF_map _ _ (fun a _ => jsonWF_variation a)
  have hts := jsonWF_natNum s.timestamp
  simp only [jsonWF, List.all_cons] at hts
  simp [jsonOfSession, fieldsOfList, jsonWF, jsonFieldsWF, har, hva, hts]

/-- `JSON.parse(JSON.stringify(session))` recovers the serialized value. -/
theorem jsonParse_stringify (s : DesignSession) :
    jsonParse (jsonStringify s) = some (jsonOfSession s) :=
  jsonParse_render (jsonWF_jsonOfSession s)

/-!
### Regex fragments used by the import handlers

Both import regexes are a literal marker, a lazy `([\s\S]*?)` group and a
literal CI `<\/script>` close (`/i` flag).  A pattern is a list of pattern
characters: a case-insensitive literal (stored lowercase) or the `["']`
class of the v1.3 marker.  `findPat` returns the text before the leftmost
occurrence and the text after it; `takeUntilPat` is the lazy group: the text
before the first close occurrence.  (If a marker occurrence is followed by no
close at all the JS engine would try later marker occurrences; the documents
in the claims below have a close after the first marker, where the two
coincide.)
-/

inductive PatChar where
  | lit (c : Char) : PatChar
  | quote : PatChar
deriving DecidableEq, Repr

def patMatchChar : PatChar → Char → Bool
  | PatChar.lit p, c => c.toLower == p
  | PatChar.quote, c => c == '"' || c == '\x27'

def patAt : List PatChar → List Char → Bool
  | [], _ => true
  | _ :: _, [] => false
  | p :: ps, c :: cs => patMatchChar p c && patAt ps cs

def findPat (p : List PatChar) : List Char → Option (List Char × List Char)
  | [] => if patAt p [] then some ([], []) else none
  | c :: cs =>
    if patAt p (c :: cs) then some ([], (c :: cs).drop p.length)
    else (findPat p cs).map (fun pr => (c :: pr.1, pr.2))

def takeUntilPat (p : List PatChar) : List Char → Option (List Char)
  | [] => if patAt p [] then some [] else none
  | c :: cs =>
    if patAt p (c :: cs) then some []
    else (takeUntilPat p cs).map (fun g => c :: g)

def patFreeB (p : List PatChar) : List Char → Bool
  | [] => true
  | c :: cs => !(patAt p (c :: cs)) && patFreeB p cs

def patHeadMatch (p : List PatChar) (c : Char) : Bool :=
  match p with
  | [] => true
  | pc :: _ => patMatchChar pc c

def patNoNl (p : List PatChar) : Bool := p.all (fun pc => !patMatchChar pc '\n')

/-- A prefix piece through which no occurrence of `p` can start: `p` does not
occur inside it, and either it ends with a newline (and `p` matches no
newline), or no character in it can start `p`. -/
def chunkOkB (p : List PatChar) (a : List Char) : Bool :=
  patFreeB p a && (a.getLast? == some '\n' || a.all (fun c => !patHeadMatch p c))

def patOverlap : PatChar → PatChar → Bool
  | PatChar.lit a, PatChar.lit b => a == b
  | PatChar.lit a, PatChar.quote => a == '"' || a == '\x27'
  | PatChar.quote, PatChar.lit b => b == '"' || b == '\x27'
  | PatChar.quote, PatChar.quote => true

/-- No pattern character after the head can match a character the head
matches (so no occurrence can straddle a text position where a full
occurrence starts). -/
def headExclusive (p : List PatChar) : Bool :=
  match p with
  | [] => true
  | p0 :: ps => ps.all (fun pc => !patOverlap p0 pc)

def NoStartIn (p : List PatChar) (a b : List Char) : Prop :=
  ∀ i, i < a.length → patAt p ((a ++ b).drop i) = false

theorem patAt_append_of_le {p : List PatChar} : ∀ {s : List Char}, p.length ≤ s.length →
    ∀ t, patAt p (s ++ t) = patAt p s := by
  induction p with
  | nil => intro s _ t; rfl
  | cons pc ps ih =>
    intro s hlen t
    cases s with
    | nil => simp at hlen
    | cons c cs =>
      simp only [List.cons_append, patAt]
      exact congrArg (fun x => patMatchChar pc c && x) (ih (by simpa using hlen) t)

theorem patAt_nil_false {pc : PatChar} {ps : List PatChar} :
    patAt (pc :: ps) [] = false := rfl

theorem patAt_length_le {p : List PatChar} : ∀ {s : List Char}, patAt p s = true →
    p.length ≤ s.length := by
  induction p with
  | nil => intro s _; simp
  | cons pc ps ih =>
    intro s h
    cases s with
    | nil => exact absurd h (by simp [patAt])
    | cons c cs =>
      simp only [patAt, Bool.and_eq_true] at h
      simpa using ih h.2

theorem patAt_split {p : List PatChar} : ∀ {x : List Char} {b : List Char},
    patAt p (x ++ b) = true → x.length ≤ p.length →
    patAt (p.take x.length) x = true ∧ patAt (p.drop x.length) b = true := by
  intro x
  induction x generalizing p with
  | nil => intro b h _; exact ⟨rfl, h⟩
  | cons c cs ih =>
    intro b h hlen
    cases p with
    | nil => simp at hlen
    | cons pc ps =>
      simp only [List.cons_append, patAt, Bool.and_eq_true] at h
      have := @ih ps b h.2 (by simpa using hlen)
      simp only [List.length_cons, List.take_succ_cons, List.drop_succ_cons, patAt,
        Bool.and_eq_true]
      exact ⟨⟨h.1, this.1⟩, this.2⟩

theorem patFreeB_spec {p : List PatChar} : ∀ {a : List Char}, patFreeB p a = true →
    ∀ i, i < a.length → patAt p (a.drop i) = false := by
  intro a
  induction a with
  | nil => intro _ i hi; simp at hi
  | cons c cs ih =>
    intro h i hi
    simp only [patFreeB, Bool.and_eq_true, Bool.not_eq_true'] at h
    cases i with
    | zero => exact h.1
    | succ i' =>
      simp only [List.drop_succ_cons]
      exact ih h.2 i' (by simpa using hi)

theorem patFreeB_ne_nil {p : List PatChar} {c : Char} {cs : List Char}
    (h : patFreeB p (c :: cs) = true) : p ≠ [] := by
  intro hp
  subst hp
  simp [patFreeB, patAt] at h

theorem patOverlap_spec {x y : PatChar} {c : Char}
    (hx : patMatchChar x c = true) (hy : patMatchChar y c = true) :
    patOverlap x y = true := by
  cases x with
  | lit a =>
    cases y with
    | lit b =>
      simp only [patMatchChar, beq_iff_eq] at hx hy
      simp [patOverlap, hx ▸ hy]
    | quote =>
      simp only [patMatchChar, beq_iff_eq, Bool.or_eq_true] at hx hy
      rcases hy with hy | hy <;> subst hy <;> subst hx <;> decide
  | quote =>
    cases y with
    | lit b =>
      simp only [patMatchChar, beq_iff_eq, Bool.or_eq_true] at hx hy
      rcases hx with hx | hx <;> subst hx <;> subst hy <;> decide
    | quote => rfl

theorem mem_of_getLast?_eq {l : List Char} {c : Char} (h : l.getLast? = some c) : c ∈ l := by
  induction l with
  | nil => simp at h
  | cons x xs ih =>
    cases xs with
    | nil =>
      simp only [List.getLast?_singleton, Option.some.injEq] at h
      simp [h]
    | cons y ys =>
      rw [List.getLast?_cons_cons] at h
      exact List.mem_cons_of_mem x (ih h)

theorem drop_mem_tail {p : List PatChar} {k : Nat} {q0 : PatChar} {qs : List PatChar}
    (hk : 1 ≤ k) (h : p.drop k = q0 :: qs) : q0 ∈ p.tail := by
  have hsuff : (p.drop k).IsSuffix p.tail := by
    cases p with
    | nil => simp at h
    | cons x xs =>
      cases k with
      | zero => omega
      | succ k' =>
        simp only [List.drop_succ_cons, List.tail_cons]
        exact List.drop_suffix k' xs
  exact hsuff.subset (h ▸ List.mem_cons_self q0 qs)

/-- With a head-exclusive pattern that occurs at the start of `b` and nowhere
inside `a`, no occurrence starts inside `a ++ b` before `b`. -/
theorem noStartIn_of_headExclusive {p : List PatChar} {a b : List Char}
    (hhe : headExclusive p = true) (hfree : patFreeB p a = true)
    (hb : patAt p b = true) : NoStartIn p a b := by
  intro i hi
  have hdrop : (a ++ b).drop i = a.drop i ++ b :=
    List.drop_append_of_le_length (by omega)
  rw [hdrop]
  by_cases hlen : p.length ≤ (a.drop i).length
  · rw [patAt_append_of_le hlen]
    exact patFreeB_spec hfree i hi
  · by_contra hcon
    rw [Bool.not_eq_false] at hcon
    push_neg at hlen
    have hsplit := patAt_split hcon (le_of_lt hlen)
    -- the occurrence straddles the boundary: its char at offset |a.drop i| is b's head
    have hk1 : 1 ≤ (a.drop i).length := by
      have : a.drop i ≠ [] := by
        intro hnil
        rw [List.drop_eq_nil_iff] at hnil
        omega
      cases hd : a.drop i with
      | nil => exact absurd hd this
      | cons x xs => simp [hd]
    obtain ⟨q0, qs, hq⟩ : ∃ q0 qs, p.drop (a.drop i).length = q0 :: qs := by
      cases hq : p.drop (a.drop i).length with
      | nil =>
        rw [List.drop_eq_nil_iff] at hq
        omega
      | cons q0 qs => exact ⟨q0, qs, rfl⟩
    obtain ⟨p0, ps, hp⟩ : ∃ p0 ps, p = p0 :: ps := by
      cases hp : p with
      | nil => subst hp; simp only [List.length_nil] at hlen; omega
      | cons p0 ps => exact ⟨p0, ps, rfl⟩
    obtain ⟨b0, bs, hbd⟩ : ∃ b0 bs, b = b0 :: bs := by
      cases hbd : b with
      | nil =>
        subst hbd
        rw [hp] at hb
        exact absurd hb (by simp [patAt])
      | cons b0 bs => exact ⟨b0, bs, rfl⟩
    have hmatch2 : patMatchChar q0 b0 = true := by
      have := hsplit.2
      rw [hq, hbd] at this
      simp only [patAt, Bool.and_eq_true] at this
      exact this.1
    have hmatch1 : patMatchChar p0 b0 = true := by
      rw [hp, hbd] at hb
      simp only [patAt, Bool.and_eq_true] at hb
      exact hb.1
    have hmem : q0 ∈ ps := by
      have := drop_mem_tail hk1 hq
      rwa [hp, List.tail_cons] at this
    rw [hp] at hhe
    simp only [headExclusive, List.all_eq_true, Bool.not_eq_true'] at hhe
    exact absurd (patOverlap_spec hmatch1 hmatch2) (by simp [hhe q0 hmem])

theorem patAt_forall_mem {p : List PatChar} : ∀ {x : List Char},
    patAt p x = true → p.length = x.length →
    ∀ c ∈ x, ∃ pc ∈ p, patMatchChar pc c = true := by
  intro x
  induction x generalizing p with
  | nil => intro _ _ c hc; simp at hc
  | cons c0 cs ih =>
    intro h hlen c hc
    cases p with
    | nil => simp at hlen
    | cons pc ps =>
      simp only [patAt, Bool.and_eq_true] at h
      rcases List.mem_cons.mp hc with rfl | hc'
      · exact ⟨pc, by simp, h.1⟩
      · obtain ⟨pc', hpc', hm⟩ := ih h.2 (by simpa using hlen) c hc'
        exact ⟨pc', by simp [hpc'], hm⟩

/-- A chunk blocks any occurrence from starting inside it, whatever follows. -/
theorem chunkOk_noStartIn {p : List PatChar} {a : List Char}
    (hnl : patNoNl p = true) (hok : chunkOkB p a = true) (b : List Char) :
    NoStartIn p a b := by
  simp only [chunkOkB, Bool.and_eq_true, Bool.or_eq_true] at hok
  obtain ⟨hfree, hbar⟩ := hok
  intro i hi
  have hdrop : (a ++ b).drop i = a.drop i ++ b :=
    List.drop_append_of_le_length (by omega)
  rw [hdrop]
  by_cases hlen : p.length ≤ (a.drop i).length
  · rw [patAt_append_of_le hlen]
    exact patFreeB_spec hfree i hi
  · push_neg at hlen
    by_contra hcon
    rw [Bool.not_eq_false] at hcon
    have hne : a.drop i ≠ [] := by
      intro hnil
      rw [List.drop_eq_nil_iff] at hnil
      omega
    rcases hbar with hbar | hbar
    · -- barrier: the straddling occurrence would cover the final newline
      have hsplit := patAt_split hcon (le_of_lt hlen)
      have hlast : (a.drop i).getLast? = some '\n' := by
        have hsuff : (a.drop i).IsSuffix a := List.drop_suffix i a
        obtain ⟨t, ht⟩ := hsuff
        rw [getLast?_of_suffix ⟨t, ht.symm⟩ hne] at hbar
        simpa using hbar
      have hmem : '\n' ∈ a.drop i := mem_of_getLast?_eq hlast
      obtain ⟨pc, hpc, hm⟩ := patAt_forall_mem hsplit.1
        (by rw [List.length_take]; omega) '\n' hmem
      have hpc' : pc ∈ p := List.mem_of_mem_take hpc
      simp only [patNoNl, List.all_eq_true, Bool.not_eq_true'] at hnl
      rw [hnl pc hpc'] at hm
      exact Bool.false_ne_true hm
    · -- head mismatch: the occurrence's first character is in the chunk
      obtain ⟨x0, xs, hx⟩ : ∃ x0 xs, a.drop i = x0 :: xs := by
        cases hx : a.drop i with
        | nil => exact absurd hx hne
        | cons x0 xs => exact ⟨x0, xs, rfl⟩
      obtain ⟨p0, ps, hp⟩ : ∃ p0 ps, p = p0 :: ps := by
        cases hp : p with
        | nil => subst hp; rw [hx] at hlen; simp at hlen
        | cons p0 ps => exact ⟨p0, ps, rfl⟩
      rw [hx, hp] at hcon
      simp only [List.cons_append, patAt, Bool.and_eq_true] at hcon
      have hx0 : x0 ∈ a := by
        have : x0 ∈ a.drop i := by simp [hx]
        exact List.mem_of_mem_drop this
      simp only [List.all_eq_true, Bool.not_eq_true'] at hbar
      have := hbar x0 hx0
      rw [hp] at this
      simp only [patHeadMatch] at this
      rw [this] at hcon
      exact Bool.false_ne_true hcon.1

theorem NoStartIn_append {p : List PatChar} {a b c : List Char}
    (hab : NoStartIn p a (b ++ c)) (hbc : NoStartIn p b c) : NoStartIn p (a ++ b) c := by
  intro i hi
  rw [List.length_append] at hi
  by_cases hia : i < a.length
  · have h2 := hab i hia
    simpa [List.append_assoc] using h2
  · push_neg at hia
    have heq : ((a ++ b) ++ c).drop i = (b ++ c).drop (i - a.length) := by
      rw [List.append_assoc, List.drop_append_eq_append_drop]
      have : a.drop i = [] := by
        rw [List.drop_eq_nil_iff]
        omega
      rw [this, List.nil_append]
    rw [heq]
    exact hbc (i - a.length) (by omega)

theorem noStartIn_flatten {p : List PatChar} (hnl : patNoNl p = true) :
    ∀ (chunks : List (List Char)) (b : List Char),
      (∀ ch ∈ chunks, chunkOkB p ch = true) → NoStartIn p chunks.flatten b := by
  intro chunks
  induction chunks with
  | nil => intro b _ i hi; simp at hi
  | cons ch tl ih =>
    intro b hok
    rw [List.flatten_cons]
    exact NoStartIn_append (chunkOk_noStartIn hnl (hok ch (by simp)) _)
      (ih b (fun x hx => hok x (by simp [hx])))

theorem findPat_append {p : List PatChar} : ∀ {a b : List Char},
    NoStartIn p a b → patAt p b = true →
    findPat p (a ++ b) = some (a, b.drop p.length) := by
  intro a
  induction a with
  | nil =>
    intro b _ hb
    cases b with
    | nil =>
      simp [findPat, hb]
    | cons c cs =>
      simp only [List.nil_append, findPat, hb, if_true]
  | cons x a' ih =>
    intro b hns hb
    have h0 : patAt p ((x :: a') ++ b) = false := by
      have := hns 0 (by simp)
      simpa using this
    show findPat p (x :: (a' ++ b)) = _
    rw [findPat]
    rw [show x :: (a' ++ b) = (x :: a') ++ b from rfl, h0]
    simp only [Bool.false_eq_true, if_false]
    have hns' : NoStartIn p a' b := by
      intro i hi
      have := hns (i + 1) (by simp; omega)
      simpa using this
    rw [ih hns' hb]
    rfl

theorem takeUntilPat_append {p : List PatChar} : ∀ {a b : List Char},
    NoStartIn p a b → patAt p b = true →
    takeUntilPat p (a ++ b) = some a := by
  intro a
  induction a with
  | nil =>
    intro b _ hb
    cases b with
    | nil => simp [takeUntilPat, hb]
    | cons c cs => simp [takeUntilPat, hb]
  | cons x a' ih =>
    intro b hns hb
    have h0 : patAt p ((x :: a') ++ b) = false := by
      have := hns 0 (by simp)
      simpa using this
    show takeUntilPat p (x :: (a' ++ b)) = _
    rw [takeUntilPat]
    rw [show x :: (a' ++ b) = (x :: a') ++ b from rfl, h0]
    simp only [Bool.false_eq_true, if_false]
    have hns' : NoStartIn p a' b := by
      intro i hi
      have := hns (i + 1) (by simp; omega)
      simpa using this
    rw [ih hns' hb]
    rfl

/-!
### `String.prototype.replace` with a global literal pattern

Left-to-right, non-overlapping replacement, as in `.replace(/<\/script>/g, ..)`
and `.replace(/\\\/script>/g, ..)`.  Fuel (the input length) makes the
function structurally recursive; every step consumes at least one character.
-/

def replaceAllFuel (pat rep : List Char) : Nat → List Char → List Char
  | _, [] => []
  | 0, s => s
  | fuel + 1, c :: cs =>
    if pat ≠ [] ∧ startsWithL pat (c :: cs) = true then
      rep ++ replaceAllFuel pat rep fuel ((c :: cs).drop pat.length)
    else c :: replaceAllFuel pat rep fuel cs

def replaceAll (pat rep s : List Char) : List Char :=
  replaceAllFuel pat rep s.length s

/-- `JSON.stringify(session).replace(/<\/script>/g, '<\\/script>')`
(src/unnamed/part_003 line 871). -/
def escScript (s : List Char) : List Char :=
  replaceAll "</script>".data "<\\/script>".data s

/-- `match[1].trim().replace(/\\\/script>/g, '/script>')`'s replace step
(src/unnamed/part_003 handleImportStyleGuide). -/
def unescScript (s : List Char) : List Char :=
  replaceAll "\\/script>".data "/script>".data s

theorem replaceAllFuel_invariant (pat rep : List Char) :
    ∀ f1, ∀ {s : List Char}, ∀ f2, s.length ≤ f1 → s.length ≤ f2 →
      replaceAllFuel pat rep f1 s = replaceAllFuel pat rep f2 s := by
  intro f1
  induction f1 with
  | zero =>
    intro s f2 h1 _
    have : s = [] := by
      cases s with
      | nil => rfl
      | cons c cs => simp at h1
    subst this
    cases f2 <;> rfl
  | succ f1' ih =>
    intro s f2 h1 h2
    cases s with
    | nil => cases f2 <;> rfl
    | cons c cs =>
      cases f2 with
      | zero => simp at h2
      | succ f2' =>
        rw [replaceAllFuel, replaceAllFuel]
        by_cases hc : pat ≠ [] ∧ startsWithL pat (c :: cs) = true
        · rw [if_pos hc, if_pos hc]
          have hlen : ((c :: cs).drop pat.length).length ≤ f1' := by
            simp only [List.length_drop, List.length_cons]
            have : 1 ≤ pat.length := by
              cases hp : pat with
              | nil => exact absurd hp hc.1
              | cons _ _ => simp [hp]
            simp only [List.length_cons] at h1
            omega
          have hlen2 : ((c :: cs).drop pat.length).length ≤ f2' := by
            simp only [List.length_drop, List.length_cons]
            have : 1 ≤ pat.length := by
              cases hp : pat with
              | nil => exact absurd hp hc.1
              | cons _ _ => simp [hp]
            simp only [List.length_cons] at h2
            omega
          rw [ih f2' hlen hlen2]
        · rw [if_neg hc, if_neg hc]
          have g1 : cs.length ≤ f1' := by simp only [List.length_cons] at h1; omega
          have g2 : cs.length ≤ f2' := by simp only [List.length_cons] at h2; omega
          rw [ih f2' g1 g2]

theorem replaceAll_cons_pos {pat rep : List Char} {c : Char} {cs : List Char}
    (hp : pat ≠ []) (hs : startsWithL pat (c :: cs) = true) :
    replaceAll pat rep (c :: cs) = rep ++ replaceAll pat rep ((c :: cs).drop pat.length) := by
  show replaceAllFuel pat rep (cs.length + 1) (c :: cs) = _
  rw [replaceAllFuel, if_pos ⟨hp, hs⟩]
  unfold replaceAll
  rw [replaceAllFuel_invariant pat rep cs.length _ (by
      simp only [List.length_drop, List.length_cons]
      have : 1 ≤ pat.length := by
        cases hq : pat with
        | nil => exact absurd hq hp
        | cons _ _ => simp [hq]
      omega)
    (le_refl _)]

theorem replaceAll_cons_neg {pat rep : List Char} {c : Char} {cs : List Char}
    (hs : startsWithL pat (c :: cs) = false) :
    replaceAll pat rep (c :: cs) = c :: replaceAll pat rep cs := by
  show replaceAllFuel pat rep (cs.length + 1) (c :: cs) = _
  rw [replaceAllFuel, if_neg (by simp [hs])]
  unfold replaceAll
  rw [replaceAllFuel_invariant pat rep cs.length _ (le_refl _) (le_refl _)]

theorem replaceAll_ne_nil {pat rep : List Char} (hrep : rep ≠ []) (c : Char) (cs : List Char) :
    replaceAll pat rep (c :: cs) ≠ [] := by
  show replaceAllFuel pat rep (cs.length + 1) (c :: cs) ≠ []
  rw [replaceAllFuel]
  split
  · simp [hrep]
  · simp

theorem startsWithL_decomp : ∀ {pat s : List Char}, startsWithL pat s = true →
    s = pat ++ s.drop pat.length := by
  intro pat
  induction pat with
  | nil => intro s _; simp
  | cons p ps ih =>
    intro s h
    cases s with
    | nil => simp [startsWithL] at h
    | cons c cs =>
      simp only [startsWithL, Bool.and_eq_true, beq_iff_eq] at h
      simp only [List.cons_append, List.length_cons, List.drop_succ_cons]
      rw [h.1]
      exact congrArg (c :: ·) (ih h.2)

theorem containsL_drop {q p : List Char} : ∀ {n : Nat},
    containsL q (p.drop n) = true → containsL q p = true := by
  induction p with
  | nil => intro n h; simpa using h
  | cons c cs ih =>
    intro n h
    cases n with
    | zero => exact h
    | succ n' =>
      simp only [List.drop_succ_cons] at h
      cases q with
      | nil => rfl
      | cons a qs =>
        simp only [containsL, Bool.or_eq_true]
        exact Or.inr (ih h)

theorem containsL_cons_iff {a : Char} {qs s : List Char} {c : Char} {cs : List Char} :
    containsL (a :: qs) (c :: cs) =
      (startsWithL (a :: qs) (c :: cs) || containsL (a :: qs) cs) := rfl

theorem startsWithL_head {p : Char} {ps : List Char} {c : Char} {cs : List Char}
    (h : startsWithL (p :: ps) (c :: cs) = true) : p = c := by
  simp only [startsWithL, Bool.and_eq_true, beq_iff_eq] at h
  exact h.1

/-- Escaping only rewrites at `<`; a prefix test for a pattern containing no
`<` is unchanged by it. -/
theorem startsWithL_escScript : ∀ (q : List Char), '<' ∉ q → ∀ s : List Char,
    startsWithL q (escScript s) = startsWithL q s := by
  intro q
  induction q with
  | nil => intro _ s; rfl
  | cons a qs ih =>
    intro hq s
    cases s with
    | nil => rfl
    | cons c cs =>
      by_cases hstart : startsWithL "</script>".data (c :: cs) = true
      · have hc : c = '<' := (startsWithL_head hstart).symm
        have hesc : escScript (c :: cs) =
            '<' :: ("\\/script>".data ++ escScript ((c :: cs).drop 9)) := by
          unfold escScript
          rw [replaceAll_cons_pos (by decide) hstart]
          rfl
        subst hc
        rw [hesc]
        have ha : (a == '<') = false :=
          beq_eq_false_iff_ne.mpr (fun hcon => hq (by simp [hcon]))
        simp only [startsWithL, ha, Bool.false_and]
      · have hesc : escScript (c :: cs) = c :: escScript cs := by
          unfold escScript
          exact replaceAll_cons_neg (by simpa using hstart)
        rw [hesc]
        simp only [startsWithL]
        rw [ih (fun hmem => hq (by simp [hmem])) cs]

/-- The v1.3 import's unescape inverts the v1.3 export's escape on any
payload that does not already contain the literal text `\/script>`. -/
theorem unescScript_escScript : ∀ (p : List Char),
    containsL "\\/script>".data p = false → unescScript (escScript p) = p := by
  suffices h : ∀ n (p : List Char), p.length = n →
      containsL "\\/script>".data p = false → unescScript (escScript p) = p by
    intro p hfree
    exact h p.length p rfl hfree
  intro n
  induction n using Nat.strong_induction_on with
  | _ n ih =>
    intro p hlen hfree
    cases p with
    | nil => rfl
    | cons c cs =>
      by_cases hstart : startsWithL "</script>".data (c :: cs) = true
      · have hc : c = '<' := ((startsWithL_head hstart)).symm
        have hesc : escScript (c :: cs) =
            "<\\/script>".data ++ escScript ((c :: cs).drop 9) := by
          unfold escScript
          rw [replaceAll_cons_pos (by decide) hstart]
          rfl
        rw [hesc]
        have step1 : unescScript ('<' :: ("\\/script>".data ++ escScript ((c :: cs).drop 9))) =
            '<' :: unescScript ("\\/script>".data ++ escScript ((c :: cs).drop 9)) := by
          unfold unescScript
          exact replaceAll_cons_neg (by simp [startsWithL])
        have step2 : unescScript ("\\/script>".data ++ escScript ((c :: cs).drop 9)) =
            "/script>".data ++ unescScript (escScript ((c :: cs).drop 9)) := by
          unfold unescScript
          rw [show ("\\/script>".data ++ escScript ((c :: cs).drop 9)) =
            '\\' :: ("/script>".data ++ escScript ((c :: cs).drop 9)) from rfl]
          rw [replaceAll_cons_pos (by decide)
            (by exact startsWithL_self_append "\\/script>".data _)]
          rw [show ('\\' :: ("/script>".data ++ escScript ((c :: cs).drop 9))) =
            "\\/script>".data ++ escScript ((c :: cs).drop 9) from rfl]
          rw [show ("\\/script>".data : List Char).length = 9 from rfl]
          rw [show ("\\/script>".data ++ escScript ((c :: cs).drop 9)).drop 9 =
            escScript ((c :: cs).drop 9) from by
              simpa using List.drop_left "\\/script>".data (escScript ((c :: cs).drop 9))]
        have hdroplen : ((c :: cs).drop 9).length < n := by
          rw [← hlen]
          simp only [List.length_drop, List.length_cons]
          omega
        have hfree2 : containsL "\\/script>".data ((c :: cs).drop 9) = false := by
          by_contra hcon
          rw [Bool.not_eq_false] at hcon
          rw [containsL_drop hcon] at hfree
          simp at hfree
        rw [show unescScript ("<\\/script>".data ++ escScript ((c :: cs).drop 9)) =
            unescScript ('<' :: ("\\/script>".data ++ escScript ((c :: cs).drop 9))) from rfl]
        rw [step1, step2, ih _ hdroplen _ rfl hfree2]
        have hdecomp := startsWithL_decomp hstart
        rw [show ("</script>".data : List Char).length = 9 from rfl] at hdecomp
        exact hdecomp.symm
      · have hesc : escScript (c :: cs) = c :: escScript cs := by
          unfold escScript
          exact replaceAll_cons_neg (by simpa using hstart)
        rw [hesc]
        have hnotun : startsWithL "\\/script>".data (c :: escScript cs) = false := by
          by_contra hcon
          rw [Bool.not_eq_false] at hcon
          have hc : c = '\\' := (startsWithL_head hcon).symm
          have htail : startsWithL "/script>".data (escScript cs) = true := by
            have h2 := hcon
            rw [show ("\\/script>".data : List Char) = '\\' :: "/script>".data from rfl] at h2
            simp only [startsWithL, Bool.and_eq_true] at h2
            exact h2.2
          rw [startsWithL_escScript "/script>".data (by decide) cs] at htail
          have hstartp : startsWithL "\\/script>".data (c :: cs) = true := by
            subst hc
            rw [show ("\\/script>".data : List Char) = '\\' :: "/script>".data from rfl]
            simp [startsWithL, htail]
          simp only [containsL] at hfree
          rw [hstartp] at hfree
          simp at hfree
        have step : unescScript (c :: escScript cs) = c :: unescScript (escScript cs) := by
          unfold unescScript
          exact replaceAll_cons_neg hnotun
        rw [step]
        have hfree2 : containsL "\\/script>".data cs = false := by
          simp only [containsL, Bool.or_eq_false_iff] at hfree
          exact hfree.2
        rw [ih cs.length (by rw [← hlen]; simp) cs rfl hfree2]

theorem jsTrim_eq_self {s : List Char}
    (hh : ∀ c, s.head? = some c → jsWhite c = false)
    (hl : ∀ c, s.getLast? = some c → jsWhite c = false) : jsTrim s = s := by
  unfold jsTrim
  rw [dropWhile_eq_self_of_head hh]
  rw [dropWhile_eq_self_of_head (by
    intro c hc
    rw [List.head?_reverse] at hc
    exact hl c hc)]
  exact List.reverse_reverse s

theorem replaceAll_cons_notc {pat rep : List Char} {c : Char} {cs : List Char}
    (h : ¬(pat ≠ [] ∧ startsWithL pat (c :: cs) = true)) :
    replaceAll pat rep (c :: cs) = c :: replaceAll pat rep cs := by
  show replaceAllFuel pat rep (cs.length + 1) (c :: cs) = _
  rw [replaceAllFuel, if_neg h]
  unfold replaceAll
  rw [replaceAllFuel_invariant pat rep cs.length _ (le_refl _) (le_refl _)]

theorem replaceAll_getLast {pat rep : List Char} (hrep : rep ≠ [])
    (hw : ∀ c, rep.getLast? = some c → jsWhite c = false) :
    ∀ (s : List Char), (∀ c, s.getLast? = some c → jsWhite c = false) →
      ∀ c, (replaceAll pat rep s).getLast? = some c → jsWhite c = false := by
  suffices h : ∀ n (s : List Char), s.length = n →
      (∀ c, s.getLast? = some c → jsWhite c = false) →
      ∀ c, (replaceAll pat rep s).getLast? = some c → jsWhite c = false by
    intro s hs
    exact h s.length s rfl hs
  intro n
  induction n using Nat.strong_induction_on with
  | _ n ih =>
    intro s hlen hs c hc
    cases s with
    | nil => simp [replaceAll, replaceAllFuel] at hc
    | cons x xs =>
      by_cases hcond : pat ≠ [] ∧ startsWithL pat (x :: xs) = true
      · rw [replaceAll_cons_pos hcond.1 hcond.2] at hc
        have hplen : 1 ≤ pat.length := by
          cases hq : pat with
          | nil => exact absurd hq hcond.1
          | cons _ _ => simp [hq]
        cases hrec : replaceAll pat rep ((x :: xs).drop pat.length) with
        | nil =>
          rw [hrec, List.append_nil] at hc
          exact hw c hc
        | cons r rs =>
          rw [hrec] at hc
          rw [getLast?_of_suffix ⟨rep, rfl⟩ (by simp)] at hc
          rw [← hrec] at hc
          have hdld : ((x :: xs).drop pat.length).length < n := by
            rw [← hlen]
            simp only [List.length_drop, List.length_cons]
            omega
          have hdrop_last : ∀ c', ((x :: xs).drop pat.length).getLast? = some c' →
              jsWhite c' = false := by
            intro c' hc'
            have hne : (x :: xs).drop pat.length ≠ [] := by
              intro hnil
              rw [hnil] at hrec
              simp [replaceAll, replaceAllFuel] at hrec
            have : (x :: xs).getLast? = ((x :: xs).drop pat.length).getLast? := by
              obtain ⟨t, ht⟩ := List.drop_suffix pat.length (x :: xs)
              exact getLast?_of_suffix ⟨t, ht.symm⟩ hne
            exact hs c' (this ▸ hc')
          exact ih _ hdld _ rfl hdrop_last c hc
      · rw [replaceAll_cons_notc hcond] at hc
        cases hrec : replaceAll pat rep xs with
        | nil =>
          rw [hrec] at hc
          simp only [List.getLast?_singleton, Option.some.injEq] at hc
          subst hc
          have hxs : xs = [] := by
            cases hxs : xs with
            | nil => rfl
            | cons y ys =>
              rw [hxs] at hrec
              exact absurd hrec (replaceAll_ne_nil hrep y ys)
          subst hxs
          exact hs _ rfl
        | cons r rs =>
          rw [hrec] at hc
          rw [@getLast?_of_suffix (x :: r :: rs) (r :: rs) ⟨[x], rfl⟩ (by simp)] at hc
          rw [← hrec] at hc
          have hxs_ne : xs ≠ [] := by
            intro hnil
            rw [hnil] at hrec
            simp [replaceAll, replaceAllFuel] at hrec
          have hxs_last : ∀ c', xs.getLast? = some c' → jsWhite c' = false := by
            intro c' hc'
            have : (x :: xs).getLast? = xs.getLast? := getLast?_of_suffix ⟨[x], rfl⟩ hxs_ne
            exact hs c' (this ▸ hc')
          exact ih xs.length (by rw [← hlen]; simp) xs rfl hxs_last c hc

/-!
### Import handlers

src/index.tsx `handleImport` (lines 667-681): match the marker regex
`/<script id="usui-session-data" type="application\/json">([\s\S]*?)<\/script>/i`,
then `JSON.parse(m[1])` with NO try/catch and NO validation; on success the
parsed value is appended to the session list as-is.

src/unnamed/part_003 `handleImportStyleGuide`: marker regex with `["']`
quote classes, then `match[1].trim().replace(/\\\/script>/g, '/script>')`,
`JSON.parse` inside try/catch, and the guard
`restoredSession && restoredSession.id && Array.isArray(restoredSession.variations)`.
-/

def importMarkerStr : String := "<script id=\"usui-session-data\" type=\"application/json\">"

def importMarkerPat : List PatChar := importMarkerStr.data.map PatChar.lit

def closeScriptStr : String := "</script>"

def closeScriptPat : List PatChar := closeScriptStr.data.map PatChar.lit

def importMarkerPatV13 : List PatChar :=
  ("<script id=".data.map PatChar.lit) ++ [PatChar.quote] ++
  ("usui-session-data".data.map PatChar.lit) ++ [PatChar.quote] ++
  (" type=".data.map PatChar.lit) ++ [PatChar.quote] ++
  ("application/json".data.map PatChar.lit) ++ [PatChar.quote] ++
  [PatChar.lit '>']

def extractSessionPayload (content : List Char) : Option (List Char) :=
  match findPat importMarkerPat content with
  | none => none
  | some pr => takeUntilPat closeScriptPat pr.2

inductive ImportResult where
  | noPayload : ImportResult
  | parseFailure : ImportResult
  | imported (j : Json) : ImportResult
deriving DecidableEq, Repr

/-- src/index.tsx lines 672-678: the appended value is whatever
`JSON.parse` returns (`imported j`); a failed regex is silently ignored and a
parse exception aborts the handler with nothing appended. -/
def handleImport (content : List Char) : ImportResult :=
  match extractSessionPayload content with
  | none => ImportResult.noPayload
  | some payload =>
    match jsonParse payload with
    | none => ImportResult.parseFailure
    | some j => ImportResult.imported j

def jsTruthy : Json → Bool
  | Json.null => false
  | Json.bool b => b
  | Json.num t => !(digitsToNat t == 0)
  | Json.str s => !s.isEmpty
  | Json.arr _ => true
  | Json.obj _ => true

def getProp : Json → List Char → Option Json
  | Json.obj f, k => getField f k
  | _, _ => none

def truthyProp (j : Json) (k : List Char) : Bool :=
  match getProp j k with
  | none => false
  | some v => jsTruthy v

def isArrayProp (j : Json) (k : List Char) : Bool :=
  match getProp j k with
  | some (Json.arr _) => true
  | _ => false

def importValidV13 (j : Json) : Bool :=
  jsTruthy j && truthyProp j "id".data && isArrayProp j "variations".data

inductive ImportResultV13 where
  | noPayload : ImportResultV13
  | parseFailure : ImportResultV13
  | notValid : ImportResultV13
  | imported (j : Json) : ImportResultV13
deriving DecidableEq, Repr

/-- src/unnamed/part_003 lines 564-581.  `match && match[1]` requires a
nonempty captured payload; the `else` of the validation guard appends
nothing silently (`notValid`); a parse exception lands in the catch
(`parseFailure`). -/
def handleImportStyleGuide (content : List Char) : ImportResultV13 :=
  match findPat importMarkerPatV13 content with
  | none => ImportResultV13.noPayload
  | some pr =>
    match takeUntilPat closeScriptPat pr.2 with
    | none => ImportResultV13.noPayload
    | some payload =>
      if payload.isEmpty then ImportResultV13.noPayload
      else
        match jsonParse (unescScript (jsTrim payload)) with
        | none => ImportResultV13.parseFailure
        | some j =>
          if importValidV13 j then ImportResultV13.imported j
          else ImportResultV13.notValid

/-- src/unnamed/part_003 line 871, with the surrounding document abstracted:
the payload embedded between the marker and its `</script>` close is
`JSON.stringify(session).replace(/<\/script>/g, '<\\/script>')`. -/
def exportEmbedV13 (pre : List Char) (s : DesignSession) (post : List Char) : List Char :=
  pre ++ importMarkerStr.data ++ escScript (jsonStringify s) ++ closeScriptStr.data ++ post

/-!
### src/index.tsx `handleExport` (lines 548-665)

The exported document.  The constant pieces below are the template text of
the `doc` literal (and the `normalizedHtml` literal), split at the
interpolation points and, for the proofs, at newline boundaries; their
in-order concatenation in `handleExportDoc`/`docPrefixChunks` is exactly the
source template.  `new Date(session.timestamp).toLocaleDateString()` is a
parameter (`dateStr`).  The embedded payload is `JSON.stringify(session)`,
with no escaping of `</script>`.
-/

def docNH1 : List Char := "\n            <!DOCTYPE html>\n            <html>\n            <head>\n                <link href=\"https://fonts.googleapis.com/css2?family=Inter:wght@400;700;900&display=swap\" rel=\"stylesheet\">\n                <style>\n                    :root \x7b color-scheme: dark; \x7d\n                    body \x7b \n                        margin: 0; padding: 2rem; display: flex; align-items: center; justify-content: center; \n                        min-height: calc(100vh - 4rem); background: transparent; font-family: \x27Inter\x27, sans-serif;\n                        color: #fff;\n                    \x7d\n                    * \x7b box-sizing: border-box; max-width: 100%; overflow-wrap: break-word; \x7d\n                </style>\n            </head>\n            <body>\n                ".data

def docNH2 : List Char := "\n            </body>\n            </html>\n          ".data

def docT1 : List Char := "\n<!DOCTYPE html>\n<html lang=\"en\">\n<head>\n    <meta charset=\"UTF-8\">\n    <title>USUI PORTABLE SPEC // ".data

def docTitleClose : List Char := "</title>\n".data

def docCssA : List Char := "    <link href=\"https://fonts.googleapis.com/css2?family=Inter:wght@400;700;900&family=JetBrains+Mono:wght@400;700&display=swap\" rel=\"stylesheet\">\n    <style>\n        :root \x7b \n            --bg: #000; --text: #fff; --border: #222; --accent: #fff;\n            --font-sans: \x27Inter\x27, sans-serif;\n            --font-mono: \x27JetBrains Mono\x27, monospace;\n        \x7d\n        * \x7b box-sizing: border-box; margin: 0; padding: 0; \x7d\n        html, body \x7b background: var(--bg); color: var(--text); font-family: var(--font-sans); height: 100%; scroll-behavior: smooth; \x7d\n        \n        .layout \x7b display: flex; min-height: 100vh; \x7d\n        .sidebar \x7b width: 300px; position: fixed; height: 100vh; border-right: 1px solid var(--border); background: #050505; padding: 40px; overflow-y: auto; z-index: 100; \x7d\n        .main \x7b flex: 1; margin-left: 300px; background: var(--bg); position: relative; \x7d\n        \n        .label \x7b font-size: 0.65rem; color: #555; letter-spacing: 0.4em; text-transform: uppercase; margin-bottom: 8px; font-family: var(--font-mono); font-weight: 700; \x7d\n        .sidebar-header h1 \x7b font-size: 1.5rem; font-weight: 900; text-transform: uppercase; margin: 0 0 40px 0; border-bottom: 4px solid #fff; padding-bottom: 10px; \x7d\n        \n        .nav-list \x7b list-style: none; \x7d\n        .nav-list li \x7b margin-bottom: 20px; \x7d\n        .nav-list a \x7b color: #888; text-decoration: none; font-size: 0.85rem; font-weight: 700; text-transform: uppercase; transition: color 0.2s; display: block; \x7d\n        .nav-list a:hover \x7b color: #fff; \x7d\n\n        .section-cover \x7b min-height: 100vh; padding: 120px 80px; display: flex; flex-direction: column; justify-content: center; border-bottom: 1px solid var(--border); \x7d\n        .cover-title \x7b font-size: 8vw; font-weight: 900; line-height: 0.8; margin-bottom: 60px; letter-spacing: -0.05em; text-transform: uppercase; \x7d\n        .cover-info \x7b display: grid; grid-template-columns: 1fr 1fr; gap: 80px; max-width: 1000px; \x7d\n".data

def docCssB : List Char := "        .strategy \x7b font-size: 2rem; font-weight: 300; line-height: 1.2; color: #aaa; margin-top: 40px; \x7d\n\n        .component-section \x7b padding: 120px 80px; border-bottom: 1px solid var(--border); \x7d\n        .comp-header \x7b margin-bottom: 60px; \x7d\n        .comp-header h2 \x7b font-size: 3.5rem; font-weight: 900; text-transform: uppercase; margin-bottom: 15px; \x7d\n        \n        .affordance-list \x7b display: flex; gap: 10px; flex-wrap: wrap; margin: 20px 0; \x7d\n        .aff-chip \x7b background: #111; color: #fff; font-size: 0.7rem; padding: 6px 14px; border-radius: 20px; text-transform: uppercase; font-weight: 700; border: 1px solid #333; \x7d\n\n        .comp-preview \x7b border: 1px solid var(--border); background: #080808; margin-bottom: 60px; position: relative; \x7d\n        .preview-iframe \x7b width: 100%; height: 600px; border: none; display: block; \x7d\n        \n        .code-block \x7b border: 1px solid var(--border); background: #050505; \x7d\n        .code-header \x7b padding: 15px 30px; border-bottom: 1px solid var(--border); background: #0a0a0a; color: #555; font-size: 0.7rem; font-weight: 900; font-family: var(--font-mono); \x7d\n        pre \x7b padding: 40px; color: #4ade80; font-family: var(--font-mono); font-size: 0.85rem; overflow-x: auto; white-space: pre-wrap; word-break: break-all; \x7d\n\n        @media (max-width: 900px) \x7b\n            .sidebar \x7b width: 100%; height: auto; position: relative; border-right: none; \x7d\n            .main \x7b margin-left: 0; \x7d\n        \x7d\n    </style>\n</head>\n<body>\n    <div class=\"layout\">\n        <aside class=\"sidebar\">\n            <div class=\"sidebar-header\"><div class=\"label\">ENGINEERING SPEC</div><h1>USUI STUDIO</h1></div>\n            <nav style=\"margin-top: 60px\"><div class=\"label\">NAVIGATION</div><ul class=\"nav-list\"><li><a href=\"#cover\">00 // OVERVIEW</a></li>".data

def docNavClose : List Char := "</ul></nav>\n".data

def docAside : List Char := "        </aside>\n        <main class=\"main\">\n".data

def docCoverA : List Char := "            <section id=\"cover\" class=\"section-cover\"><div class=\"label\">IDENTITY // DNA_v1.3</div><h1 class=\"cover-title\">".data

def docCoverB : List Char := "</h1><div class=\"cover-info\"><div><div class=\"label\">SYSTEM_GUIDE</div><div class=\"strategy\">".data

def docCoverC : List Char := "</div></div><div><div class=\"label\">METADATA</div><div style=\"margin-top: 20px\"><span class=\"label\" style=\"display:block; color:#333\">DATE</span><span style=\"font-weight:900\">".data

def docCoverD : List Char := "</span></div></div></div></section>\n".data

def docIndent : List Char := "            ".data

def docS1 : List Char := "\n            <section id=\"".data

def docS2 : List Char := "\" class=\"component-section\">\n                <div class=\"comp-header\"><div class=\"label\">MODULE_ID: ".data

def docS3 : List Char := "</div><h2>".data

def docS4 : List Char := "</h2><p>".data

def docS5 : List Char := "</p>\n                <div class=\"affordance-list\">".data

def docS6 : List Char := "</div></div>\n                <div class=\"comp-preview\"><iframe class=\"preview-iframe\" srcdoc=\"".data

def docS7 : List Char := "\" sandbox=\"allow-scripts allow-same-origin\"></iframe></div>\n                <div class=\"code-block\"><div class=\"code-header\">SOURCE_CODE_DNA</div><pre><code>".data

def docS8 : List Char := "</code></pre></div>\n            </section>".data

def docT7a : List Char := "\n        </main>\n    </div>\n    ".data

def docSuffix : List Char := "\n</body>\n</html>".data

theorem docT7a_split :
    docT7a = "\n".data ++ "        </main>\n    </div>\n".data ++ "    ".data := by decide

structure ComponentItem where
  id : List Char
  name : List Char
  description : List Char
  affordances : List String
  html : List Char
  srcDoc : List Char
deriving DecidableEq, Repr

def normalizedHtmlOf (html : List Char) : List Char := docNH1 ++ html ++ docNH2

/-- `componentItems` (lines 552-584): complete variations, joined with their
architecture entry; `||` defaults follow JS truthiness (an empty `name` falls
back to `Untitled`, a found entry keeps even an empty affordance array). -/
def componentItemsOf (s : DesignSession) : List ComponentItem :=
  (s.variations.filter (fun v => v.status == Status.complete)).map (fun v =>
    match s.architecture.find? (fun a => a.id == v.componentId) with
    | none =>
      { id := "comp-".data ++ v.id.data, name := "Untitled".data, description := [],
        affordances := [], html := v.html.data, srcDoc := normalizedHtmlOf v.html.data }
    | some a =>
      { id := "comp-".data ++ v.id.data,
        name := if a.name = "" then "Untitled".data else a.name.data,
        description := a.description.data,
        affordances := a.affordances,
        html := v.html.data, srcDoc := normalizedHtmlOf v.html.data })

def jsToUpper (s : List Char) : List Char := s.map Char.toUpper

/-- `String(n).padStart(2, '0')`. -/
def padTwo (n : Nat) : List Char :=
  if (natToString n).length < 2 then '0' :: natToString n else natToString n

/-- `.replace(/X/g, rep)` for a single-character pattern. -/
def replaceChar (tgt : Char) (rep : List Char) (s : List Char) : List Char :=
  (s.map (fun d => if d = tgt then rep else [d])).flatten

def escAttr (s : List Char) : List Char := replaceChar '"' "&quot;".data s

def escAngles (s : List Char) : List Char :=
  replaceChar '>' "&gt;".data (replaceChar '<' "&lt;".data s)

def affChips (affs : List String) : List Char :=
  (affs.map (fun a => "<span class=\"aff-chip\">".data ++ a.data ++ "</span>".data)).flatten

def navItems : Nat → List ComponentItem → List Char
  | _, [] => []
  | i, c :: tl =>
    "<li><a href=\"#".data ++ c.id ++ "\">".data ++ padTwo (i + 1) ++ " // ".data ++
      c.name ++ "</a></li>".data ++ navItems (i + 1) tl

def sectionOf (c : ComponentItem) : List Char :=
  docS1 ++ c.id ++ docS2 ++ jsToUpper c.id ++ docS3 ++ c.name ++ docS4 ++ c.description ++
    docS5 ++ affChips c.affordances ++ docS6 ++ escAttr c.srcDoc ++ docS7 ++
    escAngles c.html ++ docS8

def compSections (items : List ComponentItem) : List Char := (items.map sectionOf).flatten

/-- The document prefix (everything before the embedded-data `<script` marker)
as pieces, each of which either ends in a newline or, for the final 4-space
indent, cannot begin the marker. -/
def docPrefixChunks (dateStr : List Char) (s : DesignSession) : List (List Char) :=
  [docT1 ++ jsToUpper s.styleTheme.data ++ docTitleClose,
   docCssA,
   docCssB ++ navItems 0 (componentItemsOf s) ++ docNavClose,
   docAside,
   docCoverA ++ s.styleTheme.data ++ docCoverB ++ s.designLanguage.data ++ docCoverC ++
     dateStr ++ docCoverD,
   docIndent ++ compSections (componentItemsOf s) ++ "\n".data,
   "        </main>\n    </div>\n".data,
   "    ".data]

/-- The full exported document of src/index.tsx `handleExport`. -/
def handleExportDoc (dateStr : List Char) (s : DesignSession) : List Char :=
  (docPrefixChunks dateStr s).flatten ++ importMarkerStr.data ++ jsonStringify s ++
    closeScriptStr.data ++ docSuffix


theorem importMarkerPat_len : importMarkerPat.length = importMarkerStr.data.length := by decide

theorem patAt_marker_self (t : List Char) :
    patAt importMarkerPat (importMarkerStr.data ++ t) = true := by
  rw [patAt_append_of_le (by decide) t]
  decide

theorem patAt_close_self (t : List Char) :
    patAt closeScriptPat (closeScriptStr.data ++ t) = true := by
  rw [patAt_append_of_le (by decide) t]
  decide

/-- Extraction from the exported document: under the prefix-cleanliness and
payload-cleanliness conditions, the regex captures exactly the embedded
serialized session. -/
theorem extract_export (dateStr : List Char) (s : DesignSession)
    (hchunks : ∀ ch ∈ docPrefixChunks dateStr s, chunkOkB importMarkerPat ch = true)
    (hfree : patFreeB closeScriptPat (jsonStringify s) = true) :
    extractSessionPayload (handleExportDoc dateStr s) = some (jsonStringify s) := by
  unfold extractSessionPayload handleExportDoc
  have hsh : (docPrefixChunks dateStr s).flatten ++ importMarkerStr.data ++ jsonStringify s ++
      closeScriptStr.data ++ docSuffix =
      (docPrefixChunks dateStr s).flatten ++
        (importMarkerStr.data ++ (jsonStringify s ++ (closeScriptStr.data ++ docSuffix))) := by
    simp [List.append_assoc]
  rw [hsh]
  rw [findPat_append
    (noStartIn_flatten (by decide) (docPrefixChunks dateStr s) _ hchunks)
    (patAt_marker_self _)]
  simp only []
  rw [importMarkerPat_len, List.drop_left]
  rw [takeUntilPat_append
    (noStartIn_of_headExclusive (by decide) hfree (patAt_close_self docSuffix))
    (patAt_close_self docSuffix)]

def badC1 : DesignSession :=
  ⟨"s-bad", "Noir", "lang", 0,
   [⟨"mod-a", "Primary Action", none, "d", [], none⟩],
   [⟨"v1", "mod-a", "Noir", "</script>", "Noir", Status.complete, none⟩]⟩

/-- `jsonStringify badC1` up to (excluding) the embedded `</script>`. -/
def badP1 : List Char :=
  "\x7b\"id\":\"s-bad\",\"styleTheme\":\"Noir\",\"designLanguage\":\"lang\",\"timestamp\":0,\"architecture\":[\x7b\"id\":\"mod-a\",\"name\":\"Primary Action\",\"description\":\"d\",\"affordances\":[]\x7d],\"variations\":[\x7b\"id\":\"v1\",\"componentId\":\"mod-a\",\"styleName\":\"Noir\",\"html\":\"".data

/-- `jsonStringify badC1` after the embedded `</script>`. -/
def badP2 : List Char :=
  "\",\"prompt\":\"Noir\",\"status\":\"complete\"\x7d]\x7d".data

theorem badC1_stringify_split :
    jsonStringify badC1 = badP1 ++ (closeScriptStr.data ++ badP2) := by decide

theorem importMarkerPat_noNl : patNoNl importMarkerPat = true := by decide

theorem closePat_headExclusive : headExclusive closeScriptPat = true := by decide

theorem badC1_chunks_ok :
    ∀ ch ∈ docPrefixChunks "1/1/2024".data badC1, chunkOkB importMarkerPat ch = true := by
  decide

theorem badP1_free : patFreeB closeScriptPat badP1 = true := by decide

theorem badP1_parse : jsonParse badP1 = none := by decide

theorem badC1_contains_close : containsL closeScriptStr.data (jsonStringify badC1) = true := by
  decide

theorem handleImport_parseFailure {content payload : List Char}
    (h1 : extractSessionPayload content = some payload) (h2 : jsonParse payload = none) :
    handleImport content = ImportResult.parseFailure := by
  unfold handleImport
  rw [h1]
  simp only []
  rw [h2]

theorem handleImport_imported {content payload : List Char} {j : Json}
    (h1 : extractSessionPayload content = some payload) (h2 : jsonParse payload = some j) :
    handleImport content = ImportResult.imported j := by
  unfold handleImport
  rw [h1]
  simp only []
  rw [h2]

/-- Truncating extraction: when the serialized session itself contains the
close delimiter, the lazy group stops at its first occurrence inside the
payload. -/
theorem extract_export_split (dateStr : List Char) (s : DesignSession) (P1 P2 : List Char)
    (hchunks : ∀ ch ∈ docPrefixChunks dateStr s, chunkOkB importMarkerPat ch = true)
    (hsplit : jsonStringify s = P1 ++ (closeScriptStr.data ++ P2))
    (hfree : patFreeB closeScriptPat P1 = true) :
    extractSessionPayload (handleExportDoc dateStr s) = some P1 := by
  unfold extractSessionPayload handleExportDoc
  have hsh : (docPrefixChunks dateStr s).flatten ++ importMarkerStr.data ++
      jsonStringify s ++ closeScriptStr.data ++ docSuffix =
      (docPrefixChunks dateStr s).flatten ++
        (importMarkerStr.data ++
          (P1 ++ (closeScriptStr.data ++ (P2 ++ (closeScriptStr.data ++ docSuffix))))) := by
    rw [hsplit]
    simp [List.append_assoc]
  rw [hsh]
  rw [findPat_append
    (noStartIn_flatten importMarkerPat_noNl (docPrefixChunks dateStr s) _ hchunks)
    (patAt_marker_self _)]
  simp only []
  rw [importMarkerPat_len, List.drop_left]
  rw [takeUntilPat_append
    (noStartIn_of_headExclusive closePat_headExclusive hfree (patAt_close_self _))
    (patAt_close_self _)]

/-- Claim C1 (counterexample): the round trip `import(export(session))` fails
for a session with a complete variation whose html is `"</script>"`.
`JSON.stringify` does not escape `/`, `handleExport` embeds the serialized
session verbatim, so the lazy `([\s\S]*?)<\/script>` group stops at the
`</script>` inside the payload; the truncated text is not valid JSON, and
`JSON.parse` throws (uncaught), so nothing is imported. -/
theorem export_import_not_round_trip :
    containsL closeScriptStr.data (jsonStringify badC1) = true ∧
    handleImport (handleExportDoc "1/1/2024".data badC1) = ImportResult.parseFailure :=
  ⟨badC1_contains_close,
   handleImport_parseFailure
     (extract_export_split "1/1/2024".data badC1 badP1 badP2 badC1_chunks_ok
       badC1_stringify_split badP1_free)
     badP1_parse⟩

def noirC1 : DesignSession :=
  ⟨"s-noir", "Noir", "High-contrast neon noir.", 1700000000000,
   [⟨"mod-a", "Primary Action", none, "The main call-to-action button.", ["Focus ring"], none⟩],
   [⟨"v1", "mod-a", "Noir", "<button>Go</button>", "Noir", Status.complete, none⟩]⟩

theorem noirC1_chunks_ok :
    ∀ ch ∈ docPrefixChunks "1/1/2024".data noirC1, chunkOkB importMarkerPat ch = true := by
  decide

theorem noirC1_free : patFreeB closeScriptPat (jsonStringify noirC1) = true := by decide

/-- Claim C1: `import(export(session))`.  As stated over every session the
claim fails (see `export_import_not_round_trip`): `handleExport` embeds
`JSON.stringify(session)` without escaping, so any session whose serialized
JSON contains `</script>` (case-insensitively) is truncated at import and
`JSON.parse` throws.  The round trip does hold for every session satisfying
the two conditions the source relies on implicitly: no occurrence of the CI
close delimiter `</script>` in the serialized JSON (`hfree`), and no
occurrence of the CI data-script marker arising from the session text
interpolated into the document before the marker (`hchunks`, stated piecewise
over the document's prefix chunks).  The imported value is then exactly the
serialized session object, whose `DesignSession` interface view is the
original session — in particular `id`, `styleTheme`, `designLanguage` and
every variation's `html` (complete ones included) coincide. -/
theorem export_import_round_trip (dateStr : List Char) (s : DesignSession)
    (hchunks : ∀ ch ∈ docPrefixChunks dateStr s, chunkOkB importMarkerPat ch = true)
    (hfree : patFreeB closeScriptPat (jsonStringify s) = true) :
    handleImport (handleExportDoc dateStr s) = ImportResult.imported (jsonOfSession s) ∧
    sessionOfJson (jsonOfSession s) = some s :=
  ⟨handleImport_imported (extract_export dateStr s hchunks hfree) (jsonParse_stringify s),
   sessionOfJson_round s⟩

theorem export_import_round_trip_witness :
    (handleImport (handleExportDoc "1/1/2024".data noirC1) =
        ImportResult.imported (jsonOfSession noirC1) ∧
      sessionOfJson (jsonOfSession noirC1) = some noirC1) ∧
    noirC1.styleTheme = "Noir" ∧
    ∃ v ∈ noirC1.variations, v.status = Status.complete ∧ v.html = "<button>Go</button>" :=
  ⟨export_import_round_trip "1/1/2024".data noirC1 noirC1_chunks_ok noirC1_free,
   rfl,
   ⟨⟨"v1", "mod-a", "Noir", "<button>Go</button>", "Noir", Status.complete, none⟩, by decide⟩⟩

theorem importMarkerPatV13_len : importMarkerPatV13.length = importMarkerStr.data.length := by
  decide

theorem importMarkerPatV13_noNl : patNoNl importMarkerPatV13 = true := by decide

theorem patAt_markerV13_self (t : List Char) :
    patAt importMarkerPatV13 (importMarkerStr.data ++ t) = true := by
  rw [patAt_append_of_le (by decide) t]
  decide

theorem stringify_shape (s : DesignSession) :
    ∃ t, jsonStringify s = '\x7b' :: (t ++ ['\x7d']) := by
  refine ⟨renderFields (fieldsOfList
    [("id".data, Json.str s.id.data),
     ("styleTheme".data, Json.str s.styleTheme.data),
     ("designLanguage".data, Json.str s.designLanguage.data),
     ("timestamp".data, Json.num (natToString s.timestamp)),
     ("architecture".data, Json.arr (listToJsonList (s.architecture.map jsonOfComponent))),
     ("variations".data, Json.arr (listToJsonList (s.variations.map jsonOfVariation)))]), ?_⟩
  unfold jsonStringify jsonOfSession
  simp [renderJson]

theorem escScript_cons_brace (t : List Char) :
    escScript ('\x7b' :: t) = '\x7b' :: escScript t := by
  unfold escScript
  exact replaceAll_cons_neg (by simp [startsWithL])

theorem stringify_id_nonempty {s : DesignSession} (hid : s.id ≠ "") : s.id.data ≠ [] := by
  intro h
  apply hid
  have := congrArg String.mk h
  rwa [string_mk_data] at this

theorem importValidV13_session (s : DesignSession) (hid : s.id ≠ "") :
    importValidV13 (jsonOfSession s) = true := by
  have hdata := stringify_id_nonempty hid
  simp [importValidV13, jsonOfSession, jsTruthy, truthyProp, getProp, getField,
    fieldsOfList, isArrayProp, hdata]

/-- Claim C2 (amended, part_003 pair): the v1.3 exporter escapes `</script>`
in the embedded payload and the v1.3 importer unescapes it after extraction,
so the extracted payload parses back to the serialized session and the
session is imported.  The conditions: the prefix of the surrounding document
admits no marker occurrence (`hpre`), the escaped payload has no residual CI
close occurrence (`hfree` — note the exporter's replace is case-SENSITIVE, so
a session whose JSON contains e.g. `</SCRIPT>` would still truncate), the
payload does not already contain the literal `\/script>` (`hfree2`, which the
importer would corrupt), and the session id is nonempty (the importer's
truthiness guard). -/
theorem v13_export_import_round_trip (preChunks : List (List Char)) (s : DesignSession)
    (post : List Char)
    (hpre : ∀ ch ∈ preChunks, chunkOkB importMarkerPatV13 ch = true)
    (hfree : patFreeB closeScriptPat (escScript (jsonStringify s)) = true)
    (hfree2 : containsL "\\/script>".data (jsonStringify s) = false)
    (hid : s.id ≠ "") :
    handleImportStyleGuide (exportEmbedV13 preChunks.flatten s post) =
      ImportResultV13.imported (jsonOfSession s) ∧
    sessionOfJson (jsonOfSession s) = some s := by
  refine ⟨?_, sessionOfJson_round s⟩
  obtain ⟨tS, hshape⟩ := stringify_shape s
  have hpaycons : escScript (jsonStringify s) = '\x7b' :: escScript (tS ++ ['\x7d']) := by
    rw [hshape]
    exact escScript_cons_brace _
  have htail_ne : escScript (tS ++ ['\x7d']) ≠ [] := by
    cases hts : tS with
    | nil => simp only [hts, List.nil_append]; exact replaceAll_ne_nil (by decide) _ _
    | cons a as => simp only [hts, List.cons_append]; exact replaceAll_ne_nil (by decide) _ _
  have hlast : ∀ c, (escScript (jsonStringify s)).getLast? = some c → jsWhite c = false := by
    intro c hc
    rw [hpaycons] at hc
    rw [@getLast?_of_suffix ('\x7b' :: escScript (tS ++ ['\x7d']))
      (escScript (tS ++ ['\x7d'])) ⟨['\x7b'], rfl⟩ htail_ne] at hc
    refine replaceAll_getLast (by decide) (by decide) (tS ++ ['\x7d']) ?_ c hc
    intro c' hc'
    rw [List.getLast?_concat] at hc'
    cases hc'
    decide
  have hhead : ∀ c, (escScript (jsonStringify s)).head? = some c → jsWhite c = false := by
    intro c hc
    rw [hpaycons] at hc
    simp only [List.head?_cons, Option.some.injEq] at hc
    subst hc
    decide
  have htrim : jsTrim (escScript (jsonStringify s)) = escScript (jsonStringify s) :=
    jsTrim_eq_self hhead hlast
  have hunesc : unescScript (escScript (jsonStringify s)) = jsonStringify s :=
    unescScript_escScript _ hfree2
  have hempty : (escScript (jsonStringify s)).isEmpty = false := by
    rw [hpaycons]
    rfl
  unfold handleImportStyleGuide exportEmbedV13
  have hsh : preChunks.flatten ++ importMarkerStr.data ++ escScript (jsonStringify s) ++
      closeScriptStr.data ++ post =
      preChunks.flatten ++
        (importMarkerStr.data ++
          (escScript (jsonStringify s) ++ (closeScriptStr.data ++ post))) := by
    simp [List.append_assoc]
  rw [hsh]
  rw [findPat_append (noStartIn_flatten importMarkerPatV13_noNl preChunks _ hpre)
    (patAt_markerV13_self _)]
  simp only []
  rw [importMarkerPatV13_len, List.drop_left]
  rw [takeUntilPat_append
    (noStartIn_of_headExclusive closePat_headExclusive hfree (patAt_close_self post))
    (patAt_close_self post)]
  simp only []
  rw [hempty]
  simp only [Bool.false_eq_true, if_false]
  rw [htrim, hunesc, jsonParse_stringify]
  simp only []
  rw [importValidV13_session s hid]
  simp only [if_true]

def xssC2 : DesignSession :=
  ⟨"s-xss", "Swiss", "Grid modernism.", 42,
   [⟨"mod-b", "Content Container", none, "Card.", ["Depth"], none⟩],
   [⟨"v2", "mod-b", "Swiss", "<script>alert(1)</script>", "Swiss", Status.complete, none⟩]⟩

/-- `jsonStringify xssC2` up to (excluding) the embedded `</script>`. -/
def xssP1 : List Char :=
  "\x7b\"id\":\"s-xss\",\"styleTheme\":\"Swiss\",\"designLanguage\":\"Grid modernism.\",\"timestamp\":42,\"architecture\":[\x7b\"id\":\"mod-b\",\"name\":\"Content Container\",\"description\":\"Card.\",\"affordances\":[\"Depth\"]\x7d],\"variations\":[\x7b\"id\":\"v2\",\"componentId\":\"mod-b\",\"styleName\":\"Swiss\",\"html\":\"<script>alert(1)".data

/-- `jsonStringify xssC2` after the embedded `</script>`. -/
def xssP2 : List Char :=
  "\",\"prompt\":\"Swiss\",\"status\":\"complete\"\x7d]\x7d".data

theorem xssC2_contains_close : containsL closeScriptStr.data (jsonStringify xssC2) = true := by
  decide

theorem xssC2_stringify_split :
    jsonStringify xssC2 = xssP1 ++ (closeScriptStr.data ++ xssP2) := by decide

theorem xssC2_chunks_ok :
    ∀ ch ∈ docPrefixChunks "1/2/2024".data xssC2, chunkOkB importMarkerPat ch = true := by
  decide

theorem xssP1_free : patFreeB closeScriptPat xssP1 = true := by decide

theorem xssP1_parse : jsonParse xssP1 = none := by decide

/-- Claim C2 (counterexample, src/index.tsx pair): `handleExport` (lines
655-658) embeds `JSON.stringify(session)` with NO escaping of the closing
delimiter, so for a session whose serialized JSON contains `</script>` the
document syntax truncates the payload at extraction and it no longer parses:
the claimed escape/unescape behaviour does not exist in this variant. -/
theorem export_embed_unescaped_counterexample :
    containsL closeScriptStr.data (jsonStringify xssC2) = true ∧
    extractSessionPayload (handleExportDoc "1/2/2024".data xssC2) = some xssP1 ∧
    jsonParse xssP1 = none :=
  ⟨xssC2_contains_close,
   extract_export_split "1/2/2024".data xssC2 xssP1 xssP2 xssC2_chunks_ok
     xssC2_stringify_split xssP1_free,
   xssP1_parse⟩

theorem xssC2_escaped_free : patFreeB closeScriptPat (escScript (jsonStringify xssC2)) = true := by
  decide

theorem xssC2_no_preexisting_escape :
    containsL "\\/script>".data (jsonStringify xssC2) = false := by decide

theorem v13_preChunk_ok : ∀ ch ∈ (["<html>\n".data] : List (List Char)),
    chunkOkB importMarkerPatV13 ch = true := by decide

theorem v13_export_import_round_trip_witness :
    containsL closeScriptStr.data (jsonStringify xssC2) = true ∧
    (handleImportStyleGuide
        (exportEmbedV13 (["<html>\n".data] : List (List Char)).flatten xssC2 "\n</body>".data) =
      ImportResultV13.imported (jsonOfSession xssC2) ∧
     sessionOfJson (jsonOfSession xssC2) = some xssC2) :=
  ⟨xssC2_contains_close,
   v13_export_import_round_trip ["<html>\n".data] xssC2 "\n</body>".data v13_preChunk_ok
     xssC2_escaped_free xssC2_no_preexisting_escape (by decide)⟩

/-!
### src/index.tsx `handleApplyStyle` (lines 401-471), architecture slice

After the model calls resolve, the handler runs
`JSON.parse(archRes.text || "[]")`, spreads the result after the core library
(`[...CORE_COMPONENT_LIBRARY, ...nicheArchitecture]`), builds the session and
appends it; the whole try-block is wrapped in a catch that only logs, so a
parse exception or a spread of a non-iterable keeps the previous session list
(fails closed).  No validation of the parsed entries happens anywhere.
`generateId()` results are parameters (`sessionId`, `varId`).
-/

/-- constants.ts `CORE_COMPONENT_LIBRARY` (the module index.tsx imports). -/
def CORE_COMPONENT_LIBRARY : List DesignComponent :=
  [⟨"btn-primary", "Primary Action", some "Buttons", "The main call-to-action button.",
    ["Tactile hover elevation", "Active state depression", "Focus ring",
     "Loading spinner state"], none⟩,
   ⟨"card-content", "Content Container", some "Layout", "A card for housing media and text.",
    ["Depth via subtle shadows", "Content masking", "Hover scale effect",
     "Responsive padding"], none⟩,
   ⟨"input-standard", "Standard Input", some "Forms", "A text input field.",
    ["Floating label", "Focus border transition", "Clear-text button", "Error state shake"],
    none⟩,
   ⟨"nav-global", "Global Header", some "Navigation", "The top-level navigation bar.",
    ["Sticky scroll behavior", "Active link highlighting", "Glassmorphism backdrop",
     "Mobile collapse"], none⟩,
   ⟨"modal-standard", "System Modal", some "Overlays", "A centered overlay for critical tasks.",
    ["Backdrop blur", "Entrance scaling animation", "Close-on-ESC", "Locked scroll"], none⟩,
   ⟨"badge-status", "Status Badge", some "Information",
    "Small indicator for status or categories.",
    ["Color-coded semantic logic", "Pill shape", "Subtle pulse animation", "Tiny typography"],
    none⟩]

/-- `JSON.parse(archRes.text || "[]")` followed by the array spread
`[... , ...nicheArchitecture]`: a parse exception or a spread of a
non-iterable value throws (→ `none`, caught by the handler); an array spreads
to its elements; a string spreads to its single-character strings. -/
def parseNicheArchitecture (archText : String) : Option (List Json) :=
  match jsonParse (if archText = "" then "[]".data else archText.data) with
  | none => none
  | some (Json.arr items) => some (jsonListToList items)
  | some (Json.str s) => some (s.map (fun c => Json.str [c]))
  | some _ => none

def strOrEmpty : Option Json → String
  | some (Json.str s) => String.mk s
  | _ => ""

def optStrView : Option Json → Option String
  | some (Json.str s) => some (String.mk s)
  | _ => none

def strListOrNil : Option Json → List String
  | some (Json.arr l) =>
    (jsonListToList l).map (fun j => match j with | Json.str s => String.mk s | _ => "")
  | _ => []

/-- The `DesignComponent` interface view of a parsed niche entry, which the
source uses directly (`combinedArchitecture`): absent or wrongly-typed
fields read as the interface defaults — precisely how a structurally invalid
entry flows into the session unchecked. -/
def componentViewOfJson (j : Json) : DesignComponent :=
  { id := strOrEmpty (getProp j "id".data),
    name := strOrEmpty (getProp j "name".data),
    category := optStrView (getProp j "category".data),
    description := strOrEmpty (getProp j "description".data),
    affordances := strListOrNil (getProp j "affordances".data),
    baseHtml := optStrView (getProp j "baseHtml".data) }

/-- The spec's validity notion for a generated module entry (spec §:
"each entry has non-empty id, name, description, affordances as a list").
This follows the SPEC's words, for comparison: the source performs no such
check. -/
def specValidModule (j : Json) : Bool :=
  (match getProp j "id".data with | some (Json.str s) => !s.isEmpty | _ => false) &&
  (match getProp j "name".data with | some (Json.str s) => !s.isEmpty | _ => false) &&
  (match getProp j "description".data with | some (Json.str s) => !s.isEmpty | _ => false) &&
  isArrayProp j "affordances".data

def varsOf (varId : Nat → String) (theme : String) : List DesignComponent → Nat →
    List ComponentVariation
  | [], _ => []
  | c :: tl, i => ⟨varId i, c.id, theme, "", theme, Status.pending, none⟩ :: varsOf varId theme tl (i + 1)

/-- The session-list update of `handleApplyStyle` from the architecture
response on: the new list and whether the error path ran (the catch only
logs, keeping `prev`). -/
def handleApplyStyle (prev : List DesignSession) (sessionId theme strategy : String)
    (timestamp : Nat) (archText : String) (varId : Nat → String) :
    List DesignSession × Bool :=
  match parseNicheArchitecture archText with
  | none => (prev, true)
  | some niche =>
    let combined := CORE_COMPONENT_LIBRARY ++ niche.map componentViewOfJson
    (prev ++ [{ id := sessionId, styleTheme := theme, designLanguage := strategy,
                timestamp := timestamp, architecture := combined,
                variations := varsOf varId theme combined 0 }], false)

theorem varsOf_length (varId : Nat → String) (theme : String) :
    ∀ (l : List DesignComponent) (i : Nat), (varsOf varId theme l i).length = l.length := by
  intro l
  induction l with
  | nil => intro i; rfl
  | cons c tl ih => intro i; simp [varsOf, ih]

/-- Claim C9 (counterexample): a structurally invalid module list is NOT
rejected.  `"[\x7b\x7d]"` parses to a one-element array whose entry fails every
condition of the spec's validity notion, yet `handleApplyStyle` appends a new
session built from it (no error surfaced): session creation does not fail
closed on structurally invalid lists. -/
theorem apply_style_no_validation_counterexample :
    parseNicheArchitecture "[\x7b\x7d]" = some [Json.obj JsonFields.nil] ∧
    specValidModule (Json.obj JsonFields.nil) = false ∧
    (handleApplyStyle [] "s1" "Noir" "strat" 0 "[\x7b\x7d]" (fun _ => "v1")).2 = false ∧
    (handleApplyStyle [] "s1" "Noir" "strat" 0 "[\x7b\x7d]" (fun _ => "v1")).1.length = 1 ∧
    ∃ sess ∈ (handleApplyStyle [] "s1" "Noir" "strat" 0 "[\x7b\x7d]" (fun _ => "v1")).1,
      ∃ a ∈ sess.architecture, a.id = "" ∧ a.name = "" ∧ a.description = "" := by
  exact ⟨by decide, by decide, by decide, by decide, by decide⟩

/-- Claim C9: session creation on the architecture response.  The
fail-closed half holds exactly for parse failures: if `JSON.parse` of the
(`|| "[]"`-defaulted) response text throws, or its result is neither an
array nor a string (array spread of a non-iterable throws), the previous
session list is kept and the error is surfaced (conjuncts 1 and 3).  But for
any successfully parsed array — structurally valid or not — a session is
appended whose architecture is the core library followed by the parsed
entries as-is, with one pending variation per module (conjunct 2): the
claimed validation of entries does not exist. -/
theorem apply_style_fail_closed (prev : List DesignSession)
    (sessionId theme strategy : String) (ts : Nat) (varId : Nat → String) :
    (∀ archText, parseNicheArchitecture archText = none →
      handleApplyStyle prev sessionId theme strategy ts archText varId = (prev, true)) ∧
    (∀ archText niche, parseNicheArchitecture archText = some niche →
      ∃ sess, handleApplyStyle prev sessionId theme strategy ts archText varId =
          (prev ++ [sess], false) ∧
        sess.architecture = CORE_COMPONENT_LIBRARY ++ niche.map componentViewOfJson ∧
        sess.variations.length = sess.architecture.length) ∧
    (∀ archText j, jsonParse archText.data = some j →
      (match j with | Json.arr _ => False | Json.str _ => False | _ => True) →
      parseNicheArchitecture archText = none) := by
  refine ⟨?_, ?_, ?_⟩
  · intro archText h
    unfold handleApplyStyle
    rw [h]
  · intro archText niche h
    unfold handleApplyStyle
    rw [h]
    refine ⟨_, rfl, rfl, ?_⟩
    simp [varsOf_length]
  · intro archText j hj hne
    unfold parseNicheArchitecture
    by_cases harch : archText = ""
    · subst harch
      rw [show jsonParse (String.data "") = none from by decide] at hj
      exact absurd hj (by simp)
    · rw [if_neg harch, hj]
      cases j with
      | null => rfl
      | bool b => rfl
      | num t => rfl
      | str s => simp at hne
      | arr l => simp at hne
      | obj f => rfl

theorem apply_style_fail_closed_witness :
    parseNicheArchitecture "not json" = none ∧
    handleApplyStyle [] "s1" "Noir" "strat" 0 "not json" (fun _ => "v1") = ([], true) :=
  ⟨by decide,
   (apply_style_fail_closed [] "s1" "Noir" "strat" 0 (fun _ => "v1")).1 "not json" (by decide)⟩

end USUI
